import Mathlib

/-!
# Global pairwise sequence alignment: sequential and block-wavefront fillers

A shallow embedding of `src/implementation.hpp` (`SequenceInfo::gpsa_sequential`,
`SequenceInfo::gpsa_taskloop`, `SequenceInfo::gpsa_tasks`) and theorems about it.

Conventions of the embedding.

* `unsigned int` values are natural numbers below `2^32`; every `unsigned int` operation
  that can wrap is written with `uadd`, `usub`, `umul` (arithmetic modulo `2^32`).
* The score cells are `float` in the source.  Their arithmetic is kept abstract: a
  `FloatOps α` packs the four operations the code uses (conversion from `unsigned int`,
  `*`, `+`, `<`).  Theorems stated for every `FloatOps` hold for the binary32 arithmetic of
  the code as for any other interpretation.  `binary32Ops` is binary32 arithmetic on
  integer-valued cells, with its rounding; `exactOps R` is the arithmetic without rounding
  of a linearly ordered ring `R`, the arithmetic in which the specification states the
  optimum.
* The matrix `float** S` is a function from index pairs to cells, together with a ghost
  log of the index pairs stored to, in program order.
* The tasks of a diagonal are run one after the other in the order of the loop that
  creates them (diagonals ascending, `block_row` ascending within a diagonal).
* A `for` loop with condition `k < hi` over an `unsigned int` cannot wrap and is a fold over
  the index range.  In `gpsa_tasks` the loop
  `for (block_row = first; block_row <= last; block_row++)` is a plain loop; it can wrap
  (when `last = 2^32 - 1`), so it is run with fuel and returns `none` when the fuel runs
  out.  In `gpsa_taskloop` the same loop is the loop of a `#pragma omp taskloop`, whose
  iteration count is fixed before the loop is entered: it always ends (`forTaskloop`).
-/

namespace GPSA

/-! ## Scalars and machine integers -/

/-- The operations on score cells used by the source: conversion of an `unsigned int`,
multiplication, addition and the comparison `<`. -/
structure FloatOps (α : Type) where
  /-- Conversion `unsigned int → float` (the implicit conversion in `i * gap_penalty`). -/
  ofUInt : Nat → α
  /-- The product of two cells. -/
  mul : α → α → α
  /-- The sum of two cells. -/
  add : α → α → α
  /-- The comparison `a < b`. -/
  lt : α → α → Bool

/-- Arithmetic without rounding in a linearly ordered ring (the integers, the rationals,
the reals).  This is not the arithmetic of the code, which rounds to binary32: it is the
arithmetic of the specification, in which the score of an alignment is an exact sum, and it
agrees with the code as long as no operation rounds. -/
def exactOps (R : Type) [LinearOrderedRing R] : FloatOps R where
  ofUInt := fun n => (n : R)
  mul := fun a b => a * b
  add := fun a b => a + b
  lt := fun a b => decide (a < b)

/-- The number of times `n` is halved, rounding down, before it is below `2^24`: the
number of bits by which `n` exceeds 24 significant bits.  The first argument bounds the
number of steps; `n` itself is enough. -/
def excessBits : Nat → Nat → Nat
  | 0, _ => 0
  | fuel + 1, n => if n < 16777216 then 0 else excessBits fuel (n / 2) + 1

/-- The natural number `n` rounded to 24 significant bits, to nearest, ties to even (the
rounding of binary32). -/
def roundNat (n : Nat) : Nat :=
  let e := excessBits n n
  let q := n / 2 ^ e
  let r := n % 2 ^ e
  (if 2 ^ e < 2 * r ∨ (2 * r = 2 ^ e ∧ q % 2 = 1) then q + 1 else q) * 2 ^ e

/-- The integer `x` rounded to the nearest binary32 value, ties to even. -/
def round24 (x : Int) : Int :=
  if x < 0 then -((roundNat x.natAbs : Nat) : Int) else ((roundNat x.natAbs : Nat) : Int)

/-- The binary32 arithmetic of the code on integer-valued cells.  A `float` whose value is
an integer is represented by that integer; conversion from `unsigned int`, product and sum
are the exact results rounded to 24 significant bits, to nearest, ties to even.  Results
of magnitude `2^128` or more, which are infinite in binary32, are outside this fragment. -/
def binary32Ops : FloatOps Int where
  ofUInt := fun n => round24 (n : Int)
  mul := fun a b => round24 (a * b)
  add := fun a b => round24 (a + b)
  lt := fun a b => decide (a < b)

/-- The value of `std::max({a, b, c})`: the initializer list is scanned left to right and
the running maximum is replaced only by a strictly larger element. -/
def stdMax3 {α : Type} (F : FloatOps α) (a b c : α) : α :=
  let m := if F.lt a b then b else a
  if F.lt m c then c else m

/-- Addition of `unsigned int`. -/
def uadd (a b : Nat) : Nat := (a + b) % 4294967296

/-- Subtraction of `unsigned int`. -/
def usub (a b : Nat) : Nat := (a + (4294967296 - b % 4294967296)) % 4294967296

/-- Multiplication of `unsigned int`. -/
def umul (a b : Nat) : Nat := (a * b) % 4294967296

/-! ## Data model -/

/-- Modelled from the spec: `helpers.hpp`, which declares `SequenceInfo`, is not among the
sources.  The fields are the members the three functions read: the two sequences, the
grid dimensions (`unsigned int`; the constructor sets `rows = len(X)+1`, `cols = len(Y)+1`)
and the three scoring constants. -/
structure SequenceInfo (α : Type) where
  X : List Char
  Y : List Char
  rows : Nat
  cols : Nat
  match_score : α
  mismatch_score : α
  gap_penalty : α

/-- The matrix `S` with the ghost log of the cells stored to, oldest first. -/
structure Mem (α : Type) where
  S : Nat → Nat → α
  writes : List (Nat × Nat)

/-- The store `S[i][j] = v`. -/
def setCell {α : Type} (m : Mem α) (i j : Nat) (v : α) : Mem α where
  S := fun a b => if a = i ∧ b = j then v else m.S a b
  writes := m.writes ++ [(i, j)]

/-- The symbol `X[k]`; reading a `std::string` at its length gives the null character. -/
def symAt (X : List Char) (k : Nat) : Char := X.getD k (Char.ofNat 0)

/-! ## Loops -/

/-- The loop `for (unsigned int k = lo; k < hi; k++) s = body k s`. -/
def forLt {σ : Type} (lo hi : Nat) (body : Nat → σ → σ) (s : σ) : σ :=
  (List.range' lo (hi - lo)).foldl (fun s k => body k s) s

/-- The loop `for (unsigned int k = first; k <= last; k++) s = body k s`, with fuel: the
increment wraps, so the loop does not end when `last = 2^32 - 1`. -/
def forLe {σ : Type} : Nat → Nat → Nat → (Nat → σ → σ) → σ → Option σ
  | 0, _, _, _, _ => none
  | fuel + 1, k, last, body, s =>
    if k ≤ last then forLe fuel (uadd k 1) last body (body k s) else some s

/-! ## The fillers -/

/-- The two boundary loops (lines 9-17, 48-56, 122-130): column 0 from row 1, then row 0.
The second component of the state is `visited`. -/
def initBoundary {α : Type} (F : FloatOps α) (si : SequenceInfo α) (s : Mem α × Nat) :
    Mem α × Nat :=
  let s1 := forLt 1 si.rows
    (fun i s => (setCell s.1 i 0 (F.mul (F.ofUInt i) si.gap_penalty), s.2 + 1)) s
  forLt 0 si.cols
    (fun j s => (setCell s.1 0 j (F.mul (F.ofUInt j) si.gap_penalty), s.2 + 1)) s1

/-- The body of the innermost loops (lines 22-25, 89-92, 164-167). -/
def cellUpdate {α : Type} (F : FloatOps α) (si : SequenceInfo α) (m : Mem α) (i j : Nat) :
    Mem α :=
  let mtch := F.add (m.S (usub i 1) (usub j 1))
    (if symAt si.X (usub i 1) = symAt si.Y (usub j 1) then si.match_score
     else si.mismatch_score)
  let del := F.add (m.S (usub i 1) j) si.gap_penalty
  let insert := F.add (m.S i (usub j 1)) si.gap_penalty
  setCell m i j (stdMax3 F mtch del insert)

/-- The function `SequenceInfo::gpsa_sequential`, started on the matrix `S`; the result is
the final matrix (with its write log) and the returned `visited`. -/
def gpsa_sequential {α : Type} (F : FloatOps α) (si : SequenceInfo α) (S : Nat → Nat → α) :
    Mem α × Nat :=
  let s1 := initBoundary F si (⟨S, []⟩, 0)
  forLt 1 si.rows
    (fun i s => forLt 1 si.cols (fun j s => (cellUpdate F si s.1 i j, s.2 + 1)) s) s1

/-- The block size chosen from the parameters (lines 39-45, 113-119): `grain_size` is a
`long` converted to `unsigned int`, `block_size_x` an `int`. -/
def resolveBlockSize (grain_size block_size_x : Int) : Nat :=
  let b0 := (grain_size % 4294967296).toNat
  let b1 := if b0 ≤ 1 ∧ block_size_x > 1 then (block_size_x % 4294967296).toNat else b0
  if b1 ≤ 1 then 64 else b1

/-- The two nested loops over the cells of a block (lines 85-96, 160-171); the second
component of the result is `local_count`, an `unsigned int`. -/
def fillBlock {α : Type} (F : FloatOps α) (si : SequenceInfo α)
    (row_start row_end col_start col_end : Nat) (m : Mem α) : Mem α × Nat :=
  forLt row_start row_end
    (fun i s => forLt col_start col_end (fun j s => (cellUpdate F si s.1 i j, uadd s.2 1)) s)
    (m, 0)

/-- The body of the `block_row` loop (lines 75-98, 148-174). -/
def blockBody {α : Type} (F : FloatOps α) (si : SequenceInfo α) (block_size block_diagonal
    block_row : Nat) (s : Mem α × Nat) : Mem α × Nat :=
  let block_col := usub block_diagonal block_row
  let row_start := uadd (umul block_row block_size) 1
  let col_start := uadd (umul block_col block_size) 1
  if row_start ≥ si.rows ∨ col_start ≥ si.cols then s
  else
    let row_end := if uadd row_start block_size < si.rows then uadd row_start block_size
      else si.rows
    let col_end := if uadd col_start block_size < si.cols then uadd col_start block_size
      else si.cols
    let r := fillBlock F si row_start row_end col_start col_end s.1
    (r.1, s.2 + r.2)

/-- The number of blocks along a dimension of `n` cells (lines 59-60, 133-134):
`(n - 1 + block_size - 1) / block_size` in `unsigned int`. -/
def numBlocks (n block_size : Nat) : Nat :=
  usub (uadd (usub n 1) block_size) 1 / block_size

/-- The first block row of a diagonal (lines 68, 142). -/
def firstBlockRow (num_blocks_cols block_diagonal : Nat) : Nat :=
  if block_diagonal < num_blocks_cols then 0 else uadd (usub block_diagonal num_blocks_cols) 1

/-- The last block row of a diagonal (lines 69, 143). -/
def lastBlockRow (num_blocks_rows block_diagonal : Nat) : Nat :=
  if block_diagonal < num_blocks_rows then block_diagonal else usub num_blocks_rows 1

/-- The loop over the block diagonals of `gpsa_tasks` (lines 133-177), whose `block_row`
loop is a plain loop. -/
def wavefront {α : Type} (F : FloatOps α) (si : SequenceInfo α) (block_size fuel : Nat)
    (s : Mem α × Nat) : Option (Mem α × Nat) :=
  let num_blocks_rows := numBlocks si.rows block_size
  let num_blocks_cols := numBlocks si.cols block_size
  (List.range' 0 (usub (uadd num_blocks_rows num_blocks_cols) 1)).foldlM
    (fun s block_diagonal =>
      forLe fuel (firstBlockRow num_blocks_cols block_diagonal)
        (lastBlockRow num_blocks_rows block_diagonal)
        (blockBody F si block_size block_diagonal) s) s

/-- The loop `for (k = first; k <= last; k++) s = body k s` under `#pragma omp taskloop`
(lines 73-74).  The iteration count of a taskloop is fixed before the loop is entered, from
the bounds of the loop in the form `k < last + 1`, with `last + 1` computed in
`unsigned int`: the iterations are the `k` with `first ≤ k < last + 1`, in ascending order,
and there is none when `last + 1` wraps to `0`.  The loop always ends. -/
def forTaskloop {σ : Type} (first last : Nat) (body : Nat → σ → σ) (s : σ) : σ :=
  forLt first (uadd last 1) body s

/-- The loop over the block diagonals of `gpsa_taskloop` (lines 59-101): the loop of
`wavefront` with the `block_row` loop run as a taskloop. -/
def wavefrontTaskloop {α : Type} (F : FloatOps α) (si : SequenceInfo α) (block_size : Nat)
    (s : Mem α × Nat) : Mem α × Nat :=
  let num_blocks_rows := numBlocks si.rows block_size
  let num_blocks_cols := numBlocks si.cols block_size
  (List.range' 0 (usub (uadd num_blocks_rows num_blocks_cols) 1)).foldl
    (fun s block_diagonal =>
      forTaskloop (firstBlockRow num_blocks_cols block_diagonal)
        (lastBlockRow num_blocks_rows block_diagonal)
        (blockBody F si block_size block_diagonal) s) s

/-- The function `SequenceInfo::gpsa_taskloop`.  Every loop of it ends, so it is a total
function. -/
def gpsa_taskloop {α : Type} (F : FloatOps α) (si : SequenceInfo α)
    (S : Nat → Nat → α) (grain_size block_size_x block_size_y : Int) : Mem α × Nat :=
  let block_size := resolveBlockSize grain_size block_size_x
  wavefrontTaskloop F si block_size (initBoundary F si (⟨S, []⟩, 0))

/-- The function `SequenceInfo::gpsa_tasks`; `none` when the fuel does not suffice. -/
def gpsa_tasks {α : Type} (F : FloatOps α) (si : SequenceInfo α) (fuel : Nat)
    (S : Nat → Nat → α) (grain_size block_size_x block_size_y : Int) :
    Option (Mem α × Nat) :=
  let block_size := resolveBlockSize grain_size block_size_x
  wavefront F si block_size fuel (initBoundary F si (⟨S, []⟩, 0))

/-- The cells `S[i][j]`, `i < rows`, `j < cols`, row by row. -/
def readMatrix {α : Type} (S : Nat → Nat → α) (rows cols : Nat) : List (List α) :=
  (List.range rows).map (fun i => (List.range cols).map (fun j => S i j))

/-- The score of a pair of symbols: `match_score` when equal, else `mismatch_score`. -/
def score {α : Type} (si : SequenceInfo α) (a b : Char) : α :=
  if a = b then si.match_score else si.mismatch_score

/-! ## Global alignments -/

/-- A column of an alignment: a symbol of `X` paired with a symbol of `Y`, a symbol of `X`
against a gap, or a gap against a symbol of `Y`. -/
inductive Column where
  | pair (a b : Char)
  | gapInY (a : Char)
  | gapInX (b : Char)

/-- The symbol of `X` a column consumes, if any. -/
def Column.symX : Column → List Char
  | .pair a _ => [a]
  | .gapInY a => [a]
  | .gapInX _ => []

/-- The symbol of `Y` a column consumes, if any. -/
def Column.symY : Column → List Char
  | .pair _ b => [b]
  | .gapInY _ => []
  | .gapInX b => [b]

/-- The columns `A` form a global alignment of `X` with `Y`: read in order, they consume
all of `X` and all of `Y`. -/
def IsAlignment (A : List Column) (X Y : List Char) : Prop :=
  A.flatMap Column.symX = X ∧ A.flatMap Column.symY = Y

/-- The score of a column: the score of the pair, or `gap_penalty`. -/
def columnScore {R : Type} (si : SequenceInfo R) : Column → R
  | .pair a b => score si a b
  | .gapInY _ => si.gap_penalty
  | .gapInX _ => si.gap_penalty

/-- The score of an alignment: the sum of the scores of its columns. -/
def alignmentScore {R : Type} [LinearOrderedRing R] (si : SequenceInfo R) (A : List Column) : R :=
  (A.map (columnScore si)).sum

/-- The value `v` is the optimal global-alignment score of `X` with `Y`: some alignment
attains it and none exceeds it. -/
def IsOptimalScore {R : Type} [LinearOrderedRing R] (si : SequenceInfo R) (X Y : List Char)
    (v : R) : Prop :=
  (∃ A, IsAlignment A X Y ∧ alignmentScore si A = v) ∧
    ∀ A, IsAlignment A X Y → alignmentScore si A ≤ v

/-! ## The cell order of the loops and the matrix of the specification -/

/-- The index pairs visited by `for i in [rs, re) for j in [cs, ce)`, in loop order. -/
def cellsOf (rs re cs ce : Nat) : List (Nat × Nat) :=
  (List.range' rs (re - rs)).flatMap (fun i => (List.range' cs (ce - cs)).map (fun j => (i, j)))

/-- The cell formula applied along a list of index pairs. -/
def runCells {α : Type} (F : FloatOps α) (si : SequenceInfo α) (L : List (Nat × Nat))
    (m : Mem α) : Mem α :=
  L.foldl (fun m c => cellUpdate F si m c.1 c.2) m

/-- The index pairs stored to by the boundary loops, in program order. -/
def boundaryCells (rows cols : Nat) : List (Nat × Nat) :=
  (List.range' 1 (rows - 1)).map (fun i => (i, 0)) ++ (List.range' 0 cols).map (fun j => (0, j))

/-- The index pairs visited by the body of the `block_row` loop: none when the block is
skipped by the out-of-range guard, else the cells of the clipped block. -/
def blockCells (rows cols block_size block_diagonal block_row : Nat) : List (Nat × Nat) :=
  let block_col := usub block_diagonal block_row
  let row_start := uadd (umul block_row block_size) 1
  let col_start := uadd (umul block_col block_size) 1
  if row_start ≥ rows ∨ col_start ≥ cols then []
  else
    cellsOf row_start
      (if uadd row_start block_size < rows then uadd row_start block_size else rows)
      col_start
      (if uadd col_start block_size < cols then uadd col_start block_size else cols)

/-- The index pairs visited on one block diagonal when its `block_row` loop has run from
`first_block_row` to `last_block_row`. -/
def diagCells (rows cols block_size block_diagonal : Nat) : List (Nat × Nat) :=
  (List.range' (firstBlockRow (numBlocks cols block_size) block_diagonal)
    (lastBlockRow (numBlocks rows block_size) block_diagonal + 1 -
      firstBlockRow (numBlocks cols block_size) block_diagonal)).flatMap
    (blockCells rows cols block_size block_diagonal)

/-- The index pairs visited by the block-diagonal loop when every `block_row` loop ends. -/
def waveCells (rows cols block_size : Nat) : List (Nat × Nat) :=
  (List.range' 0
    (usub (uadd (numBlocks rows block_size) (numBlocks cols block_size)) 1)).flatMap
    (diagCells rows cols block_size)

/-- The substitution score `X[i] == Y[j] ? match_score : mismatch_score`. -/
def subst {α : Type} (si : SequenceInfo α) (i j : Nat) : α :=
  if symAt si.X i = symAt si.Y j then si.match_score else si.mismatch_score

/-- Row `i + 1` of the matrix of the specification, from row `i`. -/
def specRow {α : Type} (F : FloatOps α) (si : SequenceInfo α) (prev : Nat → α) (i : Nat) :
    Nat → α
  | 0 => F.mul (F.ofUInt (i + 1)) si.gap_penalty
  | j + 1 => stdMax3 F (F.add (prev j) (subst si i j)) (F.add (prev (j + 1)) si.gap_penalty)
      (F.add (specRow F si prev i j) si.gap_penalty)

/-- The matrix of the specification (data model, ScoreMatrix): the boundary cells are
`i * gap_penalty` and `j * gap_penalty`, every other cell is the maximum of its three
predecessors' continuations. -/
def specCell {α : Type} (F : FloatOps α) (si : SequenceInfo α) : Nat → Nat → α
  | 0 => fun j => F.mul (F.ofUInt j) si.gap_penalty
  | i + 1 => specRow F si (specCell F si i) i

/-- The stores `S[i][j] = specCell i j` along a list of index pairs. -/
def setSpec {α : Type} (F : FloatOps α) (si : SequenceInfo α) (L : List (Nat × Nat))
    (m : Mem α) : Mem α :=
  L.foldl (fun m c => setCell m c.1 c.2 (specCell F si c.1 c.2)) m

/-- Every cell stored to so far holds the value of the specification. -/
def Agrees {α : Type} (F : FloatOps α) (si : SequenceInfo α) (m : Mem α) : Prop :=
  ∀ c ∈ m.writes, m.S c.1 c.2 = specCell F si c.1 c.2

/-- The cell `c` is an interior cell whose three predecessors are in `W`. -/
def DepsIn (W : List (Nat × Nat)) (c : Nat × Nat) : Prop :=
  1 ≤ c.1 ∧ c.1 < 4294967296 ∧ 1 ≤ c.2 ∧ c.2 < 4294967296 ∧
    (c.1 - 1, c.2 - 1) ∈ W ∧ (c.1 - 1, c.2) ∈ W ∧ (c.1, c.2 - 1) ∈ W

/-- The list `L` is a schedule after `W`: each cell of `L` has its three predecessors
among `W` and the cells before it in `L`. -/
def Sched (W : List (Nat × Nat)) : List (Nat × Nat) → Prop
  | [] => True
  | c :: L => DepsIn W c ∧ Sched (W ++ [c]) L

/-! ## Observing a loop that does not end -/

/-- The state of the loop `for (k = first; k <= last; k++)` after at most `n` iterations:
the loop of `forLe`, stopped when the count `n` is used up. -/
def forLeState {σ : Type} : Nat → Nat → Nat → (Nat → σ → σ) → σ → σ
  | 0, _, _, _, s => s
  | n + 1, k, last, body, s =>
    if k ≤ last then forLeState n (uadd k 1) last body (body k s) else s

/-- The sequence data with the two sequences exchanged (`Y` against `X`). -/
def SequenceInfo.swap {α : Type} (si : SequenceInfo α) : SequenceInfo α where
  X := si.Y
  Y := si.X
  rows := si.cols
  cols := si.rows
  match_score := si.match_score
  mismatch_score := si.mismatch_score
  gap_penalty := si.gap_penalty

/-! ## The blocks of a diagonal in another order -/

/-- The cells read by the cell formula at the index pair `c`. -/
def readsOf (c : Nat × Nat) : List (Nat × Nat) :=
  [(usub c.1 1, usub c.2 1), (usub c.1 1, c.2), (c.1, usub c.2 1)]

/-- The values of `block_row` on a diagonal, from `first_block_row` to `last_block_row`
in ascending order: the blocks of the diagonal, in the order of the code. -/
def blockRows (rows cols block_size block_diagonal : Nat) : List Nat :=
  List.range' (firstBlockRow (numBlocks cols block_size) block_diagonal)
    (lastBlockRow (numBlocks rows block_size) block_diagonal + 1 -
      firstBlockRow (numBlocks cols block_size) block_diagonal)

/-- The block-diagonal loop with the blocks of each diagonal `d` run in the order
`order d` instead of ascending `block_row`; the diagonals stay in ascending order. -/
def wavefrontInOrder {α : Type} (F : FloatOps α) (si : SequenceInfo α) (block_size : Nat)
    (order : Nat → List Nat) (s : Mem α × Nat) : Mem α × Nat :=
  (List.range' 0 (usub (uadd (numBlocks si.rows block_size) (numBlocks si.cols block_size)) 1)).foldl
    (fun s block_diagonal =>
      (order block_diagonal).foldl
        (fun s block_row => blockBody F si block_size block_diagonal block_row s) s) s

/-- The values of `block_row` that the taskloop of `gpsa_taskloop` runs on a diagonal. -/
def taskloopRows (rows cols block_size block_diagonal : Nat) : List Nat :=
  List.range' (firstBlockRow (numBlocks cols block_size) block_diagonal)
    (uadd (lastBlockRow (numBlocks rows block_size) block_diagonal) 1 -
      firstBlockRow (numBlocks cols block_size) block_diagonal)

/-- The sum of the `local_count`s (`unsigned int`) of the blocks run by `wavefrontInOrder`. -/
def waveCountInOrder (rows cols block_size : Nat) (order : Nat → List Nat) : Nat :=
  ((List.range' 0
    (usub (uadd (numBlocks rows block_size) (numBlocks cols block_size)) 1)).map
    (fun block_diagonal => ((order block_diagonal).map
      (fun block_row =>
        (blockCells rows cols block_size block_diagonal block_row).length % 4294967296)).sum)).sum

/-- The index pairs visited by `wavefrontInOrder`, in its order. -/
def waveCellsInOrder (rows cols block_size : Nat) (order : Nat → List Nat) : List (Nat × Nat) :=
  (List.range' 0
    (usub (uadd (numBlocks rows block_size) (numBlocks cols block_size)) 1)).flatMap
    (fun block_diagonal =>
      (order block_diagonal).flatMap (blockCells rows cols block_size block_diagonal))

/-! # Theorems -/

/-! ## Machine arithmetic without wrap-around -/

theorem usub_one {i : Nat} (h1 : 1 ≤ i) (h2 : i < 4294967296) : usub i 1 = i - 1 := by
  unfold usub; omega

theorem usub_of_le {a b : Nat} (h1 : b ≤ a) (h2 : a < 4294967296) : usub a b = a - b := by
  unfold usub; omega

theorem uadd_of_lt {a b : Nat} (h : a + b < 4294967296) : uadd a b = a + b := by
  unfold uadd; omega

theorem umul_of_lt {a b : Nat} (h : a * b < 4294967296) : umul a b = a * b := by
  unfold umul; exact Nat.mod_eq_of_lt h

/-! ## Loops as folds over index lists -/

theorem forLt_counted {σ : Type} (step : Nat → σ → σ) (lo hi : Nat) (s : σ × Nat) :
    forLt lo hi (fun k s => (step k s.1, s.2 + 1)) s =
      ((List.range' lo (hi - lo)).foldl (fun m k => step k m) s.1, s.2 + (hi - lo)) := by
  unfold forLt
  generalize hi - lo = n
  induction n generalizing lo s with
  | zero => simp
  | succ n ih => simp [List.range'_succ, ih]; omega

theorem foldl_cells_map {α : Type} (F : FloatOps α) (si : SequenceInfo α) (i : Nat)
    (L : List Nat) (m : Mem α) :
    L.foldl (fun m j => cellUpdate F si m i j) m = runCells F si (L.map (fun j => (i, j))) m := by
  unfold runCells
  induction L generalizing m with
  | nil => rfl
  | cons a L ih => simp [ih]

theorem runCells_append {α : Type} (F : FloatOps α) (si : SequenceInfo α)
    (L1 L2 : List (Nat × Nat)) (m : Mem α) :
    runCells F si (L1 ++ L2) m = runCells F si L2 (runCells F si L1 m) := by
  simp [runCells]

theorem foldl_rows_flatMap {α : Type} (F : FloatOps α) (si : SequenceInfo α)
    (f : Nat → List (Nat × Nat)) (L : List Nat) (m : Mem α) :
    L.foldl (fun m i => runCells F si (f i) m) m = runCells F si (L.flatMap f) m := by
  induction L generalizing m with
  | nil => rfl
  | cons a L ih => simp [ih, runCells_append]

theorem length_cellsOf (rs re cs ce : Nat) :
    (cellsOf rs re cs ce).length = (re - rs) * (ce - cs) := by
  unfold cellsOf
  generalize re - rs = n
  induction n generalizing rs with
  | zero => simp
  | succ n ih => simp [List.range'_succ, ih, Nat.succ_mul]; omega

theorem mem_cellsOf {rs re cs ce : Nat} {c : Nat × Nat} :
    c ∈ cellsOf rs re cs ce ↔ (rs ≤ c.1 ∧ c.1 < re) ∧ (cs ≤ c.2 ∧ c.2 < ce) := by
  obtain ⟨a, b⟩ := c
  simp only [cellsOf, List.mem_flatMap, List.mem_map, List.mem_range'_1, Prod.mk.injEq]
  constructor
  · rintro ⟨i, hi, j, hj, rfl, rfl⟩
    omega
  · rintro ⟨h1, h2⟩
    exact ⟨a, by omega, b, by omega, rfl, rfl⟩

/-- The nested interior loops with a plain counter. -/
theorem nested_loops_eq {α : Type} (F : FloatOps α) (si : SequenceInfo α)
    (rs re cs ce : Nat) (s : Mem α × Nat) :
    forLt rs re (fun i s => forLt cs ce (fun j s => (cellUpdate F si s.1 i j, s.2 + 1)) s) s =
      (runCells F si (cellsOf rs re cs ce) s.1, s.2 + (re - rs) * (ce - cs)) := by
  have hin : ∀ i (s : Mem α × Nat),
      forLt cs ce (fun j s => (cellUpdate F si s.1 i j, s.2 + 1)) s =
        (runCells F si ((List.range' cs (ce - cs)).map (fun j => (i, j))) s.1,
          s.2 + (ce - cs)) := by
    intro i s
    rw [forLt_counted (fun j m => cellUpdate F si m i j), foldl_cells_map]
  simp only [hin]
  unfold forLt cellsOf
  generalize re - rs = n
  induction n generalizing rs s with
  | zero => simp [runCells]
  | succ n ih =>
    simp only [List.range'_succ, List.foldl_cons, List.flatMap_cons, runCells_append, ih]
    congr 1
    rw [Nat.succ_mul]; omega


/-! ## Stores, the write log and agreement with the specification -/

theorem sched_nil (W : List (Nat × Nat)) : Sched W [] := trivial

theorem sched_cons {W L : List (Nat × Nat)} {c : Nat × Nat} :
    Sched W (c :: L) ↔ DepsIn W c ∧ Sched (W ++ [c]) L := Iff.rfl

attribute [irreducible] Sched

theorem runCells_writes {α : Type} (F : FloatOps α) (si : SequenceInfo α)
    (L : List (Nat × Nat)) (m : Mem α) : (runCells F si L m).writes = m.writes ++ L := by
  induction L generalizing m with
  | nil => simp [runCells]
  | cons c L ih =>
    have h := ih (cellUpdate F si m c.1 c.2)
    simp only [runCells, List.foldl_cons] at h ⊢
    rw [h]
    simp [cellUpdate, setCell]

theorem runCells_frame {α : Type} (F : FloatOps α) (si : SequenceInfo α)
    (L : List (Nat × Nat)) (m : Mem α) (a b : Nat) (h : (a, b) ∉ L) :
    (runCells F si L m).S a b = m.S a b := by
  induction L generalizing m with
  | nil => simp [runCells]
  | cons c L ih =>
    have hc : ¬ (a = c.1 ∧ b = c.2) := by
      rintro ⟨rfl, rfl⟩
      exact h (List.mem_cons_self _ _)
    have h2 := ih (cellUpdate F si m c.1 c.2) (fun hm => h (List.mem_cons_of_mem _ hm))
    simp only [runCells, List.foldl_cons] at h2 ⊢
    rw [h2]
    simp [cellUpdate, setCell, hc]

theorem agrees_setCell {α : Type} {F : FloatOps α} {si : SequenceInfo α} {m : Mem α}
    (h : Agrees F si m) (i j : Nat) : Agrees F si (setCell m i j (specCell F si i j)) := by
  intro c hc
  simp only [setCell, List.mem_append, List.mem_singleton] at hc ⊢
  by_cases hcc : c.1 = i ∧ c.2 = j
  · rw [if_pos hcc, hcc.1, hcc.2]
  · rw [if_neg hcc]
    rcases hc with hc | hc
    · exact h c hc
    · exact absurd (by rw [hc]; exact ⟨rfl, rfl⟩) hcc

theorem cellUpdate_eq_spec {α : Type} (F : FloatOps α) (si : SequenceInfo α) (m : Mem α)
    (i j : Nat) (hi2 : i + 1 < 4294967296) (hj2 : j + 1 < 4294967296)
    (h1 : m.S i j = specCell F si i j) (h2 : m.S i (j + 1) = specCell F si i (j + 1))
    (h3 : m.S (i + 1) j = specCell F si (i + 1) j) :
    cellUpdate F si m (i + 1) (j + 1) = setCell m (i + 1) (j + 1) (specCell F si (i + 1) (j + 1)) := by
  have e1 : usub (i + 1) 1 = i := by rw [usub_one (by omega) hi2]; rfl
  have e2 : usub (j + 1) 1 = j := by rw [usub_one (by omega) hj2]; rfl
  simp only [cellUpdate, e1, e2, h1, h2, h3]
  simp only [specCell, specRow, subst]

theorem runCells_agrees {α : Type} (F : FloatOps α) (si : SequenceInfo α)
    (L : List (Nat × Nat)) (m : Mem α) (hm : Agrees F si m) (hs : Sched m.writes L) :
    Agrees F si (runCells F si L m) := by
  induction L generalizing m with
  | nil => simpa [runCells] using hm
  | cons c L ih =>
    obtain ⟨⟨hi1, hi2, hj1, hj2, d1, d2, d3⟩, hs2⟩ := sched_cons.1 hs
    obtain ⟨i, j⟩ := c
    obtain ⟨i, rfl⟩ : ∃ k, i = k + 1 := ⟨i - 1, by simp only at hi1; omega⟩
    obtain ⟨j, rfl⟩ : ∃ k, j = k + 1 := ⟨j - 1, by simp only at hj1; omega⟩
    simp only [Nat.add_sub_cancel] at d1 d2 d3 hi2 hj2
    have e := cellUpdate_eq_spec F si m i j hi2 hj2 (hm _ d1) (hm _ d2) (hm _ d3)
    have hw : (setCell m (i + 1) (j + 1) (specCell F si (i + 1) (j + 1))).writes =
        m.writes ++ [(i + 1, j + 1)] := rfl
    have := ih (setCell m (i + 1) (j + 1) (specCell F si (i + 1) (j + 1)))
      (agrees_setCell hm _ _) (by rw [hw]; exact hs2)
    simpa [runCells, e] using this

/-! ## Schedules -/

theorem depsIn_mono {W W2 : List (Nat × Nat)} {c : Nat × Nat} (h : ∀ x ∈ W, x ∈ W2)
    (hd : DepsIn W c) : DepsIn W2 c := by
  obtain ⟨a, b, c1, d, e, f, g⟩ := hd
  exact ⟨a, b, c1, d, h _ e, h _ f, h _ g⟩

theorem sched_mono {L : List (Nat × Nat)} : ∀ {W W2 : List (Nat × Nat)},
    (∀ x ∈ W, x ∈ W2) → Sched W L → Sched W2 L := by
  induction L with
  | nil => intro _ W2 _ _; exact sched_nil W2
  | cons c L ih =>
    intro W W2 h hs
    rw [sched_cons] at hs ⊢
    refine ⟨depsIn_mono h hs.1, ih ?_ hs.2⟩
    intro x hx
    rcases List.mem_append.1 hx with hx | hx
    · exact List.mem_append_left _ (h x hx)
    · exact List.mem_append_right _ hx

theorem sched_append {L1 L2 : List (Nat × Nat)} : ∀ {W : List (Nat × Nat)},
    Sched W (L1 ++ L2) ↔ Sched W L1 ∧ Sched (W ++ L1) L2 := by
  induction L1 with
  | nil => intro W; simp [sched_nil]
  | cons c L ih =>
    intro W
    rw [List.cons_append, sched_cons, sched_cons, ih]
    simp only [List.append_assoc, List.singleton_append, and_assoc]

theorem sched_flatMap_range' (W : List (Nat × Nat)) (f : Nat → List (Nat × Nat)) (lo n : Nat)
    (h : ∀ k, k < n → Sched (W ++ (List.range' lo k).flatMap f) (f (lo + k))) :
    Sched W ((List.range' lo n).flatMap f) := by
  induction n with
  | zero => simpa using sched_nil W
  | succ n ih =>
    rw [List.range'_concat, List.flatMap_append, sched_append]
    refine ⟨ih (fun k hk => h k (by omega)), ?_⟩
    simpa using h n (by omega)

/-- A rectangular block is a schedule after `W` when, for each of its cells, every
predecessor lies in `W` or inside the block. -/
theorem sched_cellsOf (W : List (Nat × Nat)) (rs re cs ce : Nat)
    (hre : re ≤ 4294967296) (hce : ce ≤ 4294967296) (hrs : 1 ≤ rs) (hcs : 1 ≤ cs)
    (h : ∀ i j, rs ≤ i → i < re → cs ≤ j → j < ce →
      ((i - 1, j - 1) ∈ W ∨ (rs ≤ i - 1 ∧ cs ≤ j - 1)) ∧
      ((i - 1, j) ∈ W ∨ rs ≤ i - 1) ∧ ((i, j - 1) ∈ W ∨ cs ≤ j - 1)) :
    Sched W (cellsOf rs re cs ce) := by
  unfold cellsOf
  apply sched_flatMap_range'
  intro a ha
  have hmap : ∀ i : Nat, (List.range' cs (ce - cs)).map (fun j => (i, j)) =
      (List.range' cs (ce - cs)).flatMap (fun j => [(i, j)]) := by
    intro i; induction (List.range' cs (ce - cs)) with
    | nil => rfl
    | cons x l ih => simp [ih]
  rw [hmap]
  apply sched_flatMap_range'
  intro b hb
  refine sched_cons.2 ⟨⟨by show 1 ≤ rs + a; omega, by show rs + a < _; omega,
    by show 1 ≤ cs + b; omega, by show cs + b < _; omega, ?_, ?_, ?_⟩, sched_nil _⟩
  all_goals
    obtain ⟨h1, h2, h3⟩ := h (rs + a) (cs + b) (by omega) (by omega) (by omega) (by omega)
    simp only [List.mem_append, List.mem_flatMap, List.mem_range'_1, List.mem_map,
      List.mem_singleton, Prod.mk.injEq]
  · rcases h1 with h1 | h1
    · exact Or.inl (Or.inl h1)
    · exact Or.inl (Or.inr ⟨rs + a - 1, by omega, cs + b - 1, by omega, rfl, rfl⟩)
  · rcases h2 with h2 | h2
    · exact Or.inl (Or.inl h2)
    · exact Or.inl (Or.inr ⟨rs + a - 1, by omega, cs + b, by omega, rfl, rfl⟩)
  · rcases h3 with h3 | h3
    · exact Or.inl (Or.inl h3)
    · exact Or.inr ⟨cs + b - 1, by omega, trivial, rfl⟩


/-! ## The closed form of a run -/

theorem specCell_col {α : Type} (F : FloatOps α) (si : SequenceInfo α) (i : Nat) :
    specCell F si i 0 = F.mul (F.ofUInt i) si.gap_penalty := by
  cases i <;> rfl

theorem setSpec_append {α : Type} (F : FloatOps α) (si : SequenceInfo α)
    (L1 L2 : List (Nat × Nat)) (m : Mem α) :
    setSpec F si (L1 ++ L2) m = setSpec F si L2 (setSpec F si L1 m) := by
  simp [setSpec]

theorem setSpec_writes {α : Type} (F : FloatOps α) (si : SequenceInfo α)
    (L : List (Nat × Nat)) (m : Mem α) : (setSpec F si L m).writes = m.writes ++ L := by
  induction L generalizing m with
  | nil => simp [setSpec]
  | cons c L ih =>
    have h := ih (setCell m c.1 c.2 (specCell F si c.1 c.2))
    simp only [setSpec, List.foldl_cons] at h ⊢
    rw [h]
    simp [setCell]

theorem setSpec_S {α : Type} (F : FloatOps α) (si : SequenceInfo α)
    (L : List (Nat × Nat)) (m : Mem α) (a b : Nat) :
    (setSpec F si L m).S a b = if (a, b) ∈ L then specCell F si a b else m.S a b := by
  induction L generalizing m with
  | nil => simp [setSpec]
  | cons c L ih =>
    have h := ih (setCell m c.1 c.2 (specCell F si c.1 c.2))
    simp only [setSpec, List.foldl_cons] at h ⊢
    rw [h]
    by_cases hL : (a, b) ∈ L
    · simp [hL]
    · by_cases hc : (a, b) = c
      · subst hc; simp [setCell]
      · have hc2 : ¬ (a = c.1 ∧ b = c.2) := fun ⟨h1, h2⟩ => hc (by rw [h1, h2])
        simp [hL, hc, setCell, hc2]

theorem agrees_setSpec {α : Type} (F : FloatOps α) (si : SequenceInfo α)
    (L : List (Nat × Nat)) (m : Mem α) (hm : Agrees F si m) : Agrees F si (setSpec F si L m) := by
  induction L generalizing m with
  | nil => simpa [setSpec] using hm
  | cons c L ih =>
    have := ih (setCell m c.1 c.2 (specCell F si c.1 c.2)) (agrees_setCell hm _ _)
    simpa [setSpec] using this

/-- Along a schedule the cell formula stores the values of the specification. -/
theorem runCells_eq_setSpec {α : Type} (F : FloatOps α) (si : SequenceInfo α)
    (L : List (Nat × Nat)) (m : Mem α) (hm : Agrees F si m) (hs : Sched m.writes L) :
    runCells F si L m = setSpec F si L m := by
  induction L generalizing m with
  | nil => rfl
  | cons c L ih =>
    obtain ⟨⟨hi1, hi2, hj1, hj2, d1, d2, d3⟩, hs2⟩ := sched_cons.1 hs
    obtain ⟨i, j⟩ := c
    obtain ⟨i, rfl⟩ : ∃ k, i = k + 1 := ⟨i - 1, by simp only at hi1; omega⟩
    obtain ⟨j, rfl⟩ : ∃ k, j = k + 1 := ⟨j - 1, by simp only at hj1; omega⟩
    simp only [Nat.add_sub_cancel] at d1 d2 d3 hi2 hj2
    have e := cellUpdate_eq_spec F si m i j hi2 hj2 (hm _ d1) (hm _ d2) (hm _ d3)
    have hw : (setCell m (i + 1) (j + 1) (specCell F si (i + 1) (j + 1))).writes =
        m.writes ++ [(i + 1, j + 1)] := rfl
    have := ih (setCell m (i + 1) (j + 1) (specCell F si (i + 1) (j + 1)))
      (agrees_setCell hm _ _) (by rw [hw]; exact hs2)
    simpa [runCells, setSpec, e] using this

theorem mem_boundaryCells {rows cols : Nat} {c : Nat × Nat} :
    c ∈ boundaryCells rows cols ↔
      (c.2 = 0 ∧ 1 ≤ c.1 ∧ c.1 < rows) ∨ (c.1 = 0 ∧ c.2 < cols) := by
  obtain ⟨a, b⟩ := c
  simp only [boundaryCells, List.mem_append, List.mem_map, List.mem_range'_1, Prod.mk.injEq]
  constructor
  · rintro (⟨i, hi, rfl, rfl⟩ | ⟨j, hj, rfl, rfl⟩)
    · left; omega
    · right; omega
  · rintro (⟨rfl, h1, h2⟩ | ⟨rfl, h⟩)
    · exact Or.inl ⟨a, by omega, rfl, rfl⟩
    · exact Or.inr ⟨b, by omega, rfl, rfl⟩

theorem length_boundaryCells (rows cols : Nat) :
    (boundaryCells rows cols).length = rows - 1 + cols := by
  simp [boundaryCells]

/-- The boundary loops store the specification's values along `boundaryCells`. -/
theorem initBoundary_eq {α : Type} (F : FloatOps α) (si : SequenceInfo α) (s : Mem α × Nat) :
    initBoundary F si s =
      (setSpec F si (boundaryCells si.rows si.cols) s.1, s.2 + (si.rows - 1 + si.cols)) := by
  have hcol : ∀ (L : List Nat) (m : Mem α),
      L.foldl (fun m i => setCell m i 0 (F.mul (F.ofUInt i) si.gap_penalty)) m =
        setSpec F si (L.map (fun i => (i, 0))) m := by
    intro L; induction L with
    | nil => intro m; rfl
    | cons a L ih => intro m; simp [ih, setSpec, specCell_col]
  have hrow : ∀ (L : List Nat) (m : Mem α),
      L.foldl (fun m j => setCell m 0 j (F.mul (F.ofUInt j) si.gap_penalty)) m =
        setSpec F si (L.map (fun j => (0, j))) m := by
    intro L; induction L with
    | nil => intro m; rfl
    | cons a L ih => intro m; simp [ih, setSpec, specCell]
  unfold initBoundary
  simp only
  rw [forLt_counted (fun i m => setCell m i 0 (F.mul (F.ofUInt i) si.gap_penalty)),
    forLt_counted (fun j m => setCell m 0 j (F.mul (F.ofUInt j) si.gap_penalty))]
  simp only [hcol, hrow, boundaryCells, setSpec_append, Nat.sub_zero, Nat.add_assoc]

/-- The interior in row-major order is a schedule after the boundary. -/
theorem sched_sequential (rows cols : Nat) (hr : rows ≤ 4294967296) (hc : cols ≤ 4294967296) :
    Sched (boundaryCells rows cols) (cellsOf 1 rows 1 cols) := by
  apply sched_cellsOf _ _ _ _ _ hr hc (le_refl 1) (le_refl 1)
  intro i j hi1 hi2 hj1 hj2
  simp only [mem_boundaryCells]
  omega

/-- The closed form of `gpsa_sequential`: the specification's values are stored along the
boundary and then along the interior in row-major order. -/
theorem gpsa_sequential_eq {α : Type} (F : FloatOps α) (si : SequenceInfo α)
    (S : Nat → Nat → α) (hr : si.rows ≤ 4294967296) (hc : si.cols ≤ 4294967296) :
    gpsa_sequential F si S =
      (setSpec F si (boundaryCells si.rows si.cols ++ cellsOf 1 si.rows 1 si.cols) ⟨S, []⟩,
        si.rows - 1 + si.cols + (si.rows - 1) * (si.cols - 1)) := by
  unfold gpsa_sequential
  simp only [initBoundary_eq, nested_loops_eq, Nat.zero_add]
  rw [runCells_eq_setSpec, ← setSpec_append]
  · exact agrees_setSpec F si _ _ (by intro c hc; simp at hc)
  · rw [setSpec_writes]
    simpa using sched_sequential si.rows si.cols hr hc


/-! ## The sequential filler -/

theorem stdMax3_exact {R : Type} [LinearOrderedRing R] (a b c : R) :
    stdMax3 (exactOps R) a b c = max (max a b) c := by
  have h : ∀ x y : R, (if decide (x < y) = true then y else x) = max x y := by
    intro x y
    rcases lt_or_le x y with h | h
    · simp [h, max_eq_right h.le]
    · simp [not_lt.2 h, max_eq_left h]
  simp only [stdMax3, exactOps, h]

theorem symAt_of_getElem? {X : List Char} {k : Nat} {a : Char} (h : X[k]? = some a) :
    symAt X k = a := by
  simp [symAt, List.getD_eq_getElem?_getD, h]

/-- The matrix left by `gpsa_sequential` inside the grid is the matrix of the
specification; the cells outside the grid keep their initial contents. -/
theorem gpsa_sequential_S {α : Type} (F : FloatOps α) (si : SequenceInfo α)
    (S : Nat → Nat → α) (hr : si.rows ≤ 4294967296) (hc : si.cols ≤ 4294967296)
    (hr1 : 1 ≤ si.rows) (hc1 : 1 ≤ si.cols) (i j : Nat) :
    (gpsa_sequential F si S).1.S i j =
      if i < si.rows ∧ j < si.cols then specCell F si i j else S i j := by
  rw [gpsa_sequential_eq F si S hr hc, setSpec_S]
  have : (i, j) ∈ boundaryCells si.rows si.cols ++ cellsOf 1 si.rows 1 si.cols ↔
      i < si.rows ∧ j < si.cols := by
    simp only [List.mem_append, mem_boundaryCells, mem_cellsOf]
    omega
  simp only [this]

/-- In arithmetic without rounding the recurrence of the data model reads as in a ring:
`S[0][0] = 0`, `S[i][0] = i * gap_penalty`, `S[0][j] = j * gap_penalty`, and every interior
cell is the maximum of the three continuations. -/
theorem sequential_recurrence_exact {R : Type} [LinearOrderedRing R] (si : SequenceInfo R)
    (S0 : Nat → Nat → R) (hX : si.rows = si.X.length + 1) (hY : si.cols = si.Y.length + 1)
    (hr : si.rows < 4294967296) (hc : si.cols < 4294967296) :
    (gpsa_sequential (exactOps R) si S0).1.S 0 0 = 0 ∧
    (∀ i, 0 < i → i < si.rows →
      (gpsa_sequential (exactOps R) si S0).1.S i 0 = (i : R) * si.gap_penalty) ∧
    (∀ j, 0 < j → j < si.cols →
      (gpsa_sequential (exactOps R) si S0).1.S 0 j = (j : R) * si.gap_penalty) ∧
    (∀ i j, 1 ≤ i → i < si.rows → 1 ≤ j → j < si.cols →
      ∃ a b, si.X[i - 1]? = some a ∧ si.Y[j - 1]? = some b ∧
        (gpsa_sequential (exactOps R) si S0).1.S i j =
          max (max ((gpsa_sequential (exactOps R) si S0).1.S (i - 1) (j - 1) + score si a b)
            ((gpsa_sequential (exactOps R) si S0).1.S (i - 1) j + si.gap_penalty))
            ((gpsa_sequential (exactOps R) si S0).1.S i (j - 1) + si.gap_penalty)) := by
  have key := gpsa_sequential_S (exactOps R) si S0 hr.le hc.le (by omega) (by omega)
  refine ⟨?_, ?_, ?_, ?_⟩
  · rw [key, if_pos (by omega)]
    simp [specCell, exactOps]
  · intro i h1 h2
    rw [key, if_pos (by omega), specCell_col]
    rfl
  · intro j h1 h2
    rw [key, if_pos (by omega)]
    rfl
  · intro i j hi1 hi2 hj1 hj2
    obtain ⟨i, rfl⟩ : ∃ k, i = k + 1 := ⟨i - 1, by omega⟩
    obtain ⟨j, rfl⟩ : ∃ k, j = k + 1 := ⟨j - 1, by omega⟩
    simp only [Nat.add_sub_cancel]
    have hi : i < si.X.length := by omega
    have hj : j < si.Y.length := by omega
    refine ⟨si.X[i], si.Y[j], List.getElem?_eq_getElem hi, List.getElem?_eq_getElem hj, ?_⟩
    rw [key, key, key, key, if_pos (by omega), if_pos (by omega), if_pos (by omega),
      if_pos (by omega)]
    have e1 : symAt si.X i = si.X[i] := symAt_of_getElem? (List.getElem?_eq_getElem hi)
    have e2 : symAt si.Y j = si.Y[j] := symAt_of_getElem? (List.getElem?_eq_getElem hj)
    show specRow (exactOps R) si (specCell (exactOps R) si i) i (j + 1) = _
    simp only [specRow, stdMax3_exact, subst, score, e1, e2]
    rfl

/-- Claim C4.  For `rows, cols ≥ 1`, `gpsa_sequential` returns `visited = rows * cols`:
the boundary loops count `rows + cols - 1` cells, the interior loops add
`(rows - 1) * (cols - 1)`, and the cells stored to are the boundary cells followed by the
interior cells (the count stays below `2^64`, the range of `unsigned long`). -/
theorem gpsa_sequential_visited {α : Type} (F : FloatOps α) (si : SequenceInfo α)
    (S : Nat → Nat → α) (hr1 : 1 ≤ si.rows) (hc1 : 1 ≤ si.cols)
    (hr : si.rows < 4294967296) (hc : si.cols < 4294967296) :
    (gpsa_sequential F si S).2 = si.rows * si.cols ∧
    (initBoundary F si (⟨S, []⟩, 0)).2 = si.rows + si.cols - 1 ∧
    (gpsa_sequential F si S).2 =
      (initBoundary F si (⟨S, []⟩, 0)).2 + (si.rows - 1) * (si.cols - 1) ∧
    (gpsa_sequential F si S).1.writes =
      boundaryCells si.rows si.cols ++ cellsOf 1 si.rows 1 si.cols ∧
    (boundaryCells si.rows si.cols).length = si.rows + si.cols - 1 ∧
    (cellsOf 1 si.rows 1 si.cols).length = (si.rows - 1) * (si.cols - 1) ∧
    si.rows * si.cols < 18446744073709551616 := by
  have hmul : si.rows - 1 + si.cols + (si.rows - 1) * (si.cols - 1) = si.rows * si.cols := by
    obtain ⟨r, hr⟩ : ∃ r, si.rows = r + 1 := ⟨si.rows - 1, by omega⟩
    obtain ⟨c, hc⟩ : ∃ c, si.cols = c + 1 := ⟨si.cols - 1, by omega⟩
    rw [hr, hc]
    simp only [Nat.add_sub_cancel]
    ring
  refine ⟨?_, ?_, ?_, ?_, ?_, ?_, ?_⟩
  · rw [gpsa_sequential_eq F si S hr.le hc.le]
    exact hmul
  · rw [initBoundary_eq]
    show 0 + (si.rows - 1 + si.cols) = _
    omega
  · rw [gpsa_sequential_eq F si S hr.le hc.le, initBoundary_eq]
    show _ = 0 + (si.rows - 1 + si.cols) + _
    omega
  · rw [gpsa_sequential_eq F si S hr.le hc.le, setSpec_writes]
    rfl
  · rw [length_boundaryCells]; omega
  · rw [length_cellsOf]
  · have h1 : si.rows * si.cols ≤ 4294967296 * 4294967296 :=
      Nat.mul_le_mul hr.le hc.le
    have h2 : si.rows * si.cols ≠ 4294967296 * 4294967296 := by
      intro h
      have := Nat.mul_lt_mul_of_lt_of_le hr hc.le (by omega)
      omega
    omega

/-- The visited count on a 3 x 4 grid is 12. -/
theorem gpsa_sequential_visited_witness :
    (gpsa_sequential (exactOps Int) ⟨['A', 'C'], ['A', 'C', 'G'], 3, 4, 2, -1, -1⟩
      (fun _ _ => 0)).2 = 3 * 4 :=
  (gpsa_sequential_visited (exactOps Int) ⟨['A', 'C'], ['A', 'C', 'G'], 3, 4, 2, -1, -1⟩
    (fun _ _ => 0) (by decide) (by decide) (by decide) (by decide)).1


/-! ## Optimality of the matrix of the specification -/

theorem alignmentScore_concat {R : Type} [LinearOrderedRing R] (si : SequenceInfo R)
    (A : List Column) (c : Column) :
    alignmentScore si (A ++ [c]) = alignmentScore si A + columnScore si c := by
  simp [alignmentScore]

theorem isAlignment_concat {A : List Column} {c : Column} {X Y : List Char} :
    IsAlignment (A ++ [c]) X Y ↔
      A.flatMap Column.symX ++ c.symX = X ∧ A.flatMap Column.symY ++ c.symY = Y := by
  simp [IsAlignment, List.flatMap_append]

theorem take_succ_eq {X : List Char} {i : Nat} (h : i < X.length) :
    X.take (i + 1) = X.take i ++ [X[i]] := by
  rw [List.take_succ, List.getElem?_eq_getElem h]; rfl

/-- An alignment that consumes nothing of `X` consists of gaps only. -/
theorem alignmentScore_of_symX_nil {R : Type} [LinearOrderedRing R] (si : SequenceInfo R)
    (A : List Column) (h : A.flatMap Column.symX = []) :
    alignmentScore si A = ((A.flatMap Column.symY).length : R) * si.gap_penalty := by
  induction A with
  | nil => simp [alignmentScore]
  | cons c A ih =>
    cases c with
    | pair a b => simp [Column.symX] at h
    | gapInY a => simp [Column.symX] at h
    | gapInX b =>
      have h2 : A.flatMap Column.symX = [] := by simpa [Column.symX] using h
      have := ih h2
      simp only [alignmentScore, List.map_cons, List.sum_cons, columnScore] at this ⊢
      rw [this]
      simp only [List.flatMap_cons, Column.symY, List.singleton_append, List.length_cons,
        Nat.cast_add, Nat.cast_one]
      rw [add_mul, one_mul, add_comm]

/-- An alignment that consumes nothing of `Y` consists of gaps only. -/
theorem alignmentScore_of_symY_nil {R : Type} [LinearOrderedRing R] (si : SequenceInfo R)
    (A : List Column) (h : A.flatMap Column.symY = []) :
    alignmentScore si A = ((A.flatMap Column.symX).length : R) * si.gap_penalty := by
  induction A with
  | nil => simp [alignmentScore]
  | cons c A ih =>
    cases c with
    | pair a b => simp [Column.symY] at h
    | gapInX b => simp [Column.symY] at h
    | gapInY a =>
      have h2 : A.flatMap Column.symY = [] := by simpa [Column.symY] using h
      have := ih h2
      simp only [alignmentScore, List.map_cons, List.sum_cons, columnScore] at this ⊢
      rw [this]
      simp only [List.flatMap_cons, Column.symX, List.singleton_append, List.length_cons,
        Nat.cast_add, Nat.cast_one]
      rw [add_mul, one_mul, add_comm]

theorem isOptimal_row0 {R : Type} [LinearOrderedRing R] (si : SequenceInfo R) (Y : List Char) :
    IsOptimalScore si [] Y ((Y.length : R) * si.gap_penalty) := by
  constructor
  · refine ⟨Y.map Column.gapInX, ⟨?_, ?_⟩, ?_⟩
    · induction Y with
      | nil => rfl
      | cons b Y ih => simp [Column.symX]
    · induction Y with
      | nil => rfl
      | cons b Y ih => simpa [Column.symY] using ih
    · induction Y with
      | nil => simp [alignmentScore]
      | cons b Y ih =>
        simp only [alignmentScore, List.map_cons, List.sum_cons, columnScore] at ih ⊢
        rw [ih]
        simp only [List.length_cons, Nat.cast_add, Nat.cast_one]
        rw [add_mul, one_mul, add_comm]
  · rintro A ⟨h1, h2⟩
    rw [alignmentScore_of_symX_nil si A h1, h2]

theorem isOptimal_col0 {R : Type} [LinearOrderedRing R] (si : SequenceInfo R) (X : List Char) :
    IsOptimalScore si X [] ((X.length : R) * si.gap_penalty) := by
  constructor
  · refine ⟨X.map Column.gapInY, ⟨?_, ?_⟩, ?_⟩
    · induction X with
      | nil => rfl
      | cons b X ih => simpa [Column.symX] using ih
    · induction X with
      | nil => rfl
      | cons b X ih => simp [Column.symY]
    · induction X with
      | nil => simp [alignmentScore]
      | cons b X ih =>
        simp only [alignmentScore, List.map_cons, List.sum_cons, columnScore] at ih ⊢
        rw [ih]
        simp only [List.length_cons, Nat.cast_add, Nat.cast_one]
        rw [add_mul, one_mul, add_comm]
  · rintro A ⟨h1, h2⟩
    rw [alignmentScore_of_symY_nil si A h2, h1]

/-- The optimum for `X ++ [a]`, `Y ++ [b]` from the optima of the three subproblems. -/
theorem isOptimal_step {R : Type} [LinearOrderedRing R] (si : SequenceInfo R)
    (X Y : List Char) (a b : Char) (v1 v2 v3 : R) (h1 : IsOptimalScore si X Y v1)
    (h2 : IsOptimalScore si X (Y ++ [b]) v2) (h3 : IsOptimalScore si (X ++ [a]) Y v3) :
    IsOptimalScore si (X ++ [a]) (Y ++ [b])
      (max (max (v1 + score si a b) (v2 + si.gap_penalty)) (v3 + si.gap_penalty)) := by
  constructor
  · obtain ⟨⟨A1, hA1, e1⟩, -⟩ := h1
    obtain ⟨⟨A2, hA2, e2⟩, -⟩ := h2
    obtain ⟨⟨A3, hA3, e3⟩, -⟩ := h3
    rcases max_choice (max (v1 + score si a b) (v2 + si.gap_penalty)) (v3 + si.gap_penalty)
      with hm | hm
    · rcases max_choice (v1 + score si a b) (v2 + si.gap_penalty) with hm2 | hm2
      · refine ⟨A1 ++ [Column.pair a b], ?_, ?_⟩
        · rw [isAlignment_concat, hA1.1, hA1.2]; exact ⟨rfl, rfl⟩
        · rw [alignmentScore_concat, e1, hm, hm2]; rfl
      · refine ⟨A2 ++ [Column.gapInY a], ?_, ?_⟩
        · rw [isAlignment_concat, hA2.1, hA2.2]; exact ⟨rfl, by simp [Column.symY]⟩
        · rw [alignmentScore_concat, e2, hm, hm2]; rfl
    · refine ⟨A3 ++ [Column.gapInX b], ?_, ?_⟩
      · rw [isAlignment_concat, hA3.1, hA3.2]; exact ⟨by simp [Column.symX], rfl⟩
      · rw [alignmentScore_concat, e3, hm]; rfl
  · intro A hA
    rcases List.eq_nil_or_concat A with rfl | ⟨A', c, rfl⟩
    · have := hA.1
      simp at this
    · rw [List.concat_eq_append] at hA ⊢
      rw [alignmentScore_concat]
      rw [isAlignment_concat] at hA
      obtain ⟨hx, hy⟩ := hA
      cases c with
      | pair a' b' =>
        obtain ⟨ex, ea⟩ := List.append_inj' hx rfl
        obtain ⟨ey, eb⟩ := List.append_inj' hy rfl
        simp only [Column.symX, Column.symY, List.cons.injEq, and_true] at ea eb
        subst ea eb
        have := h1.2 A' ⟨ex, ey⟩
        simp only [columnScore]
        exact le_trans (le_trans (add_le_add_right this _) (le_max_left _ _)) (le_max_left _ _)
      | gapInY a' =>
        obtain ⟨ex, ea⟩ := List.append_inj' hx rfl
        simp only [Column.symX, List.cons.injEq, and_true] at ea
        simp only [Column.symY, List.append_nil] at hy
        have := h2.2 A' ⟨ex, hy⟩
        simp only [columnScore]
        exact le_trans (le_trans (add_le_add_right this _) (le_max_right _ _)) (le_max_left _ _)
      | gapInX b' =>
        obtain ⟨ey, eb⟩ := List.append_inj' hy rfl
        simp only [Column.symX, List.append_nil] at hx
        have := h3.2 A' ⟨hx, ey⟩
        simp only [columnScore]
        exact le_trans (add_le_add_right this _) (le_max_right _ _)

/-- Every cell of the matrix of the specification is the optimal score of the prefixes. -/
theorem specCell_optimal {R : Type} [LinearOrderedRing R] (si : SequenceInfo R) :
    ∀ i j, i ≤ si.X.length → j ≤ si.Y.length →
      IsOptimalScore si (si.X.take i) (si.Y.take j) (specCell (exactOps R) si i j) := by
  intro i
  induction i with
  | zero =>
    intro j _ hj
    have := isOptimal_row0 si (si.Y.take j)
    rw [List.length_take, min_eq_left hj] at this
    simpa [specCell, exactOps] using this
  | succ i ihi =>
    intro j
    induction j with
    | zero =>
      intro hi _
      have := isOptimal_col0 si (si.X.take (i + 1))
      rw [List.length_take, min_eq_left hi] at this
      simpa [specCell, specRow, exactOps] using this
    | succ j ihj =>
      intro hi hj
      have hi' : i < si.X.length := by omega
      have hj' : j < si.Y.length := by omega
      have h1 := ihi j (by omega) (by omega)
      have h2 := ihi (j + 1) (by omega) hj
      have h3 := ihj hi (by omega)
      rw [take_succ_eq hj'] at h2
      rw [take_succ_eq hi'] at h3
      have := isOptimal_step si _ _ si.X[i] si.Y[j] _ _ _ h1 h2 h3
      rw [take_succ_eq hi', take_succ_eq hj']
      have e1 : symAt si.X i = si.X[i] := symAt_of_getElem? (List.getElem?_eq_getElem hi')
      have e2 : symAt si.Y j = si.Y[j] := symAt_of_getElem? (List.getElem?_eq_getElem hj')
      show IsOptimalScore si _ _ (specRow (exactOps R) si (specCell (exactOps R) si i) i (j + 1))
      simp only [specRow, stdMax3_exact, subst, e1, e2]
      exact this

/-- In arithmetic without rounding, every cell `S[i][j]` left by `gpsa_sequential` is the
optimal global-alignment score of the prefixes `X[0..i)` and `Y[0..j)`: some alignment of
the prefixes has that score and no alignment has a larger one; in particular the
bottom-right cell `S[rows-1][cols-1]` is the optimal score of `X` with `Y`. -/
theorem sequential_optimal_exact {R : Type} [LinearOrderedRing R] (si : SequenceInfo R)
    (S0 : Nat → Nat → R) (hX : si.rows = si.X.length + 1) (hY : si.cols = si.Y.length + 1)
    (hr : si.rows < 4294967296) (hc : si.cols < 4294967296) :
    (∀ i j, i < si.rows → j < si.cols →
      IsOptimalScore si (si.X.take i) (si.Y.take j)
        ((gpsa_sequential (exactOps R) si S0).1.S i j)) ∧
    IsOptimalScore si si.X si.Y
      ((gpsa_sequential (exactOps R) si S0).1.S (si.rows - 1) (si.cols - 1)) := by
  have key := gpsa_sequential_S (exactOps R) si S0 hr.le hc.le (by omega) (by omega)
  have h : ∀ i j, i < si.rows → j < si.cols →
      IsOptimalScore si (si.X.take i) (si.Y.take j)
        ((gpsa_sequential (exactOps R) si S0).1.S i j) := by
    intro i j hi hj
    rw [key, if_pos ⟨hi, hj⟩]
    exact specCell_optimal si i j (by omega) (by omega)
  refine ⟨h, ?_⟩
  have := h (si.rows - 1) (si.cols - 1) (by omega) (by omega)
  rw [hX, hY] at this
  simp only [Nat.add_sub_cancel, List.take_length] at this
  rw [hX, hY]
  simpa using this


/-! ## Binary32 arithmetic on integer-valued cells -/

theorem excessBits_of_lt (fuel : Nat) {n : Nat} (h : n < 16777216) : excessBits fuel n = 0 := by
  cases fuel with
  | zero => rfl
  | succ f => simp [excessBits, h]

/-- Natural numbers up to `2^24` are binary32 values: rounding leaves them unchanged. -/
theorem roundNat_of_le {n : Nat} (h : n ≤ 16777216) : roundNat n = n := by
  rcases Nat.lt_or_ge n 16777216 with h1 | h1
  · unfold roundNat
    simp [excessBits_of_lt n h1, Nat.mod_one]
  · have : n = 16777216 := by omega
    subst this
    rfl

/-- Integers of magnitude up to `2^24` are binary32 values. -/
theorem round24_of_abs_le {x : Int} (h1 : -16777216 ≤ x) (h2 : x ≤ 16777216) :
    round24 x = x := by
  unfold round24
  rw [roundNat_of_le (by omega)]
  split <;> omega

theorem stdMax3_binary32 (a b c : Int) : stdMax3 binary32Ops a b c = max (max a b) c := by
  have h : ∀ x y : Int, (if decide (x < y) = true then y else x) = max x y := by
    intro x y
    rcases lt_or_le x y with h | h
    · simp [h, max_eq_right h.le]
    · simp [not_lt.2 h, max_eq_left h]
  simp only [stdMax3, binary32Ops, h]

theorem specCell_succ {α : Type} (F : FloatOps α) (si : SequenceInfo α) (i j : Nat) :
    specCell F si (i + 1) (j + 1) =
      stdMax3 F (F.add (specCell F si i j) (subst si i j))
        (F.add (specCell F si i (j + 1)) si.gap_penalty)
        (F.add (specCell F si (i + 1) j) si.gap_penalty) := rfl

/-- With integer scores of magnitude at most `M` and `(i + j) * M ≤ 2^24`, no operation of
the binary32 computation of `S[i][j]` rounds: the cell is the one of the arithmetic without
rounding, and its magnitude is at most `(i + j) * M`. -/
theorem specCell_binary32_exact (si : SequenceInfo Int) (M : Int) (hM : 1 ≤ M)
    (hm : -M ≤ si.match_score ∧ si.match_score ≤ M)
    (hs : -M ≤ si.mismatch_score ∧ si.mismatch_score ≤ M)
    (hg : -M ≤ si.gap_penalty ∧ si.gap_penalty ≤ M) :
    ∀ i j : Nat, ((i + j : Nat) : Int) * M ≤ 16777216 →
      specCell binary32Ops si i j = specCell (exactOps Int) si i j ∧
      -(((i + j : Nat) : Int) * M) ≤ specCell (exactOps Int) si i j ∧
      specCell (exactOps Int) si i j ≤ ((i + j : Nat) : Int) * M := by
  have hsub : ∀ i j, -M ≤ subst si i j ∧ subst si i j ≤ M := by
    intro i j
    unfold subst
    split
    · exact hm
    · exact hs
  have hedge : ∀ k : Nat, (k : Int) * M ≤ 16777216 →
      binary32Ops.mul (binary32Ops.ofUInt k) si.gap_penalty = (k : Int) * si.gap_penalty ∧
      -((k : Int) * M) ≤ (k : Int) * si.gap_penalty ∧
      (k : Int) * si.gap_penalty ≤ (k : Int) * M := by
    intro k hk
    have hk0 : (0 : Int) ≤ k := Int.ofNat_nonneg k
    have hkM : (k : Int) ≤ (k : Int) * M := by nlinarith
    have b1 : -((k : Int) * M) ≤ (k : Int) * si.gap_penalty := by nlinarith [hg.1]
    have b2 : (k : Int) * si.gap_penalty ≤ (k : Int) * M := by nlinarith [hg.2]
    refine ⟨?_, b1, b2⟩
    show round24 (round24 (k : Int) * si.gap_penalty) = _
    have ek : round24 (k : Int) = k := round24_of_abs_le (by omega) (by omega)
    rw [ek, round24_of_abs_le (by omega) (by omega)]
  intro i
  induction i with
  | zero =>
    intro j hj
    have e : ((0 + j : Nat) : Int) = (j : Int) := by simp
    rw [e] at hj ⊢
    exact hedge j hj
  | succ i ihi =>
    intro j
    induction j with
    | zero =>
      intro hj
      have e : ((i + 1 + 0 : Nat) : Int) = ((i + 1 : Nat) : Int) := by simp
      rw [e] at hj ⊢
      rw [specCell_col, specCell_col]
      exact hedge (i + 1) hj
    | succ j ihj =>
      intro hj
      have e : ((i + 1 + (j + 1) : Nat) : Int) * M = ((i + j : Nat) : Int) * M + 2 * M := by
        push_cast; ring
      have e1 : ((i + (j + 1) : Nat) : Int) * M = ((i + j : Nat) : Int) * M + M := by
        push_cast; ring
      have e2 : ((i + 1 + j : Nat) : Int) * M = ((i + j : Nat) : Int) * M + M := by
        push_cast; ring
      rw [e] at hj ⊢
      obtain ⟨a1, a2, a3⟩ := ihi j (by omega)
      obtain ⟨b1, b2, b3⟩ := ihi (j + 1) (by rw [e1]; omega)
      obtain ⟨c1, c2, c3⟩ := ihj (by rw [e2]; omega)
      rw [e1] at b2 b3
      rw [e2] at c2 c3
      have hsij := hsub i j
      have key : specCell (exactOps Int) si (i + 1) (j + 1) =
          max (max (specCell (exactOps Int) si i j + subst si i j)
            (specCell (exactOps Int) si i (j + 1) + si.gap_penalty))
            (specCell (exactOps Int) si (i + 1) j + si.gap_penalty) := by
        rw [specCell_succ, stdMax3_exact]
        rfl
      have keyb : specCell binary32Ops si (i + 1) (j + 1) =
          max (max (specCell (exactOps Int) si i j + subst si i j)
            (specCell (exactOps Int) si i (j + 1) + si.gap_penalty))
            (specCell (exactOps Int) si (i + 1) j + si.gap_penalty) := by
        rw [specCell_succ, stdMax3_binary32, a1, b1, c1]
        show max (max (round24 _) (round24 _)) (round24 _) = _
        rw [round24_of_abs_le (by omega) (by omega), round24_of_abs_le (by omega) (by omega),
          round24_of_abs_le (by omega) (by omega)]
      rw [keyb, key]
      refine ⟨rfl, ?_, ?_⟩
      · exact le_trans (le_trans (by omega) (le_max_left _ _)) (le_max_left _ _)
      · exact max_le (max_le (by omega) (by omega)) (by omega)

/-- An optimal score is unique. -/
theorem isOptimalScore_unique {R : Type} [LinearOrderedRing R] (si : SequenceInfo R)
    (X Y : List Char) (v w : R) (hv : IsOptimalScore si X Y v) (hw : IsOptimalScore si X Y w) :
    v = w := by
  obtain ⟨⟨A, hA, rfl⟩, hv2⟩ := hv
  obtain ⟨⟨B, hB, rfl⟩, hw2⟩ := hw
  exact le_antisymm (hw2 A hA) (hv2 B hB)

/-- Claim C3, counterexample.  With `X = "AAA"`, `Y` empty and `gap_penalty = 16777215`
(a binary32 value), the optimal score is the score `3 * 16777215 = 50331645` of the only
alignment, three gap columns.  The bottom-right cell `S[3][0]` left by `gpsa_sequential` in
binary32 is the rounded product `50331644`, which is not the optimal score. -/
theorem gpsa_sequential_rounded_score :
    (gpsa_sequential binary32Ops ⟨['A', 'A', 'A'], [], 4, 1, 2, -1, 16777215⟩
      (fun _ _ => 0)).1.S (4 - 1) (1 - 1) = 50331644 ∧
    IsOptimalScore (⟨['A', 'A', 'A'], [], 4, 1, 2, -1, 16777215⟩ : SequenceInfo Int)
      ['A', 'A', 'A'] [] 50331645 ∧
    ¬ IsOptimalScore (⟨['A', 'A', 'A'], [], 4, 1, 2, -1, 16777215⟩ : SequenceInfo Int)
      ['A', 'A', 'A'] [] 50331644 := by
  have h : IsOptimalScore (⟨['A', 'A', 'A'], [], 4, 1, 2, -1, 16777215⟩ : SequenceInfo Int)
      ['A', 'A', 'A'] [] 50331645 :=
    specCell_optimal (⟨['A', 'A', 'A'], [], 4, 1, 2, -1, 16777215⟩ : SequenceInfo Int) 3 0
      (by decide) (by decide)
  refine ⟨rfl, h, ?_⟩
  intro h2
  have := isOptimalScore_unique _ _ _ _ _ h h2
  omega

/-- Claim C3, amended.  For integer scores `match_score`, `mismatch_score`, `gap_penalty`
of magnitude at most `M`, with `M ≥ 1` and `(len(X) + len(Y)) * M ≤ 2^24`, no operation of
the binary32 computation rounds, and every cell `S[i][j]` left by `gpsa_sequential` is the
optimal global-alignment score of the prefixes `X[0..i)` and `Y[0..j)`: some alignment of
the prefixes has that score and no alignment has a larger one; in particular the
bottom-right cell `S[rows-1][cols-1]` is the optimal score of `X` with `Y`. -/
theorem gpsa_sequential_optimal (si : SequenceInfo Int) (S0 : Nat → Nat → Int) (M : Int)
    (hX : si.rows = si.X.length + 1) (hY : si.cols = si.Y.length + 1) (hM : 1 ≤ M)
    (hm : |si.match_score| ≤ M) (hs : |si.mismatch_score| ≤ M) (hg : |si.gap_penalty| ≤ M)
    (hN : ((si.X.length + si.Y.length : Nat) : Int) * M ≤ 16777216) :
    (∀ i j, i < si.rows → j < si.cols →
      IsOptimalScore si (si.X.take i) (si.Y.take j)
        ((gpsa_sequential binary32Ops si S0).1.S i j)) ∧
    IsOptimalScore si si.X si.Y
      ((gpsa_sequential binary32Ops si S0).1.S (si.rows - 1) (si.cols - 1)) := by
  have hlen : ((si.X.length + si.Y.length : Nat) : Int) ≤ 16777216 := by
    have h0 : (0 : Int) ≤ ((si.X.length + si.Y.length : Nat) : Int) := Int.ofNat_nonneg _
    nlinarith
  have hlen2 : si.X.length + si.Y.length ≤ 16777216 := by exact_mod_cast hlen
  have key := gpsa_sequential_S binary32Ops si S0 (by omega) (by omega) (by omega) (by omega)
  have h : ∀ i j, i < si.rows → j < si.cols →
      IsOptimalScore si (si.X.take i) (si.Y.take j)
        ((gpsa_sequential binary32Ops si S0).1.S i j) := by
    intro i j hi hj
    have hij : ((i + j : Nat) : Int) ≤ ((si.X.length + si.Y.length : Nat) : Int) := by
      exact_mod_cast (show i + j ≤ si.X.length + si.Y.length by omega)
    have hb : ((i + j : Nat) : Int) * M ≤ 16777216 := by nlinarith
    rw [key, if_pos ⟨hi, hj⟩,
      (specCell_binary32_exact si M hM (abs_le.1 hm) (abs_le.1 hs) (abs_le.1 hg) i j hb).1]
    exact specCell_optimal si i j (by omega) (by omega)
  refine ⟨h, ?_⟩
  have := h (si.rows - 1) (si.cols - 1) (by omega) (by omega)
  rw [hX, hY] at this
  simp only [Nat.add_sub_cancel, List.take_length] at this
  rw [hX, hY]
  simpa using this

/-- The optimal score of `AC` with `AC` under the scheme `2, -1, -1` is the cell `S[2][2]`
of the binary32 run, 4. -/
theorem gpsa_sequential_optimal_witness :
    IsOptimalScore (⟨['A', 'C'], ['A', 'C'], 3, 3, 2, -1, -1⟩ : SequenceInfo Int)
      ['A', 'C'] ['A', 'C']
      ((gpsa_sequential binary32Ops ⟨['A', 'C'], ['A', 'C'], 3, 3, 2, -1, -1⟩
        (fun _ _ => 0)).1.S (3 - 1) (3 - 1)) ∧
    (gpsa_sequential binary32Ops ⟨['A', 'C'], ['A', 'C'], 3, 3, 2, -1, -1⟩
        (fun _ _ => 0)).1.S 2 2 = 4 :=
  ⟨(gpsa_sequential_optimal (⟨['A', 'C'], ['A', 'C'], 3, 3, 2, -1, -1⟩ : SequenceInfo Int)
    (fun _ _ => 0) 2 rfl rfl (by decide) (by decide) (by decide) (by decide) (by decide)).2,
    rfl⟩

/-! ## Block-size resolution -/

/-- Claim C6, counterexample.  For `grain_size = 2^32 + 4` and `block_size_x = 8` the
effective block size is `4`, not `grain_size`: the conversion to `unsigned int` keeps the
low 32 bits only. -/
theorem resolveBlockSize_not_grain_size :
    resolveBlockSize 4294967300 8 = 4 ∧ ((resolveBlockSize 4294967300 8 : Nat) : Int) ≠ 4294967300 := by
  decide

/-- Claim C6, amended.  For `0 ≤ grain_size < 2^32` and every `int` `block_size_x`, the
effective block size is `grain_size` if `grain_size > 1`, otherwise `block_size_x` if
`block_size_x > 1`, otherwise `64`. -/
theorem resolveBlockSize_policy (grain_size block_size_x : Int) (hg0 : 0 ≤ grain_size)
    (hg : grain_size < 4294967296) (hx0 : -2147483648 ≤ block_size_x)
    (hx : block_size_x < 2147483648) :
    ((resolveBlockSize grain_size block_size_x : Nat) : Int) =
      if grain_size > 1 then grain_size else if block_size_x > 1 then block_size_x else 64 := by
  unfold resolveBlockSize
  have e0 : grain_size % 4294967296 = grain_size := Int.emod_eq_of_lt hg0 hg
  simp only [e0]
  by_cases h1 : grain_size > 1
  · have : ¬ (grain_size.toNat ≤ 1) := by omega
    simp only [this, false_and, if_false, h1, if_true]
    omega
  · have h1' : grain_size.toNat ≤ 1 := by omega
    by_cases h2 : block_size_x > 1
    · have e1 : block_size_x % 4294967296 = block_size_x :=
        Int.emod_eq_of_lt (by omega) (by omega)
      have : ¬ (block_size_x.toNat ≤ 1) := by omega
      simp only [h1', h2, and_self, if_true, e1, this, if_false, h1]
      omega
    · simp only [h2, and_false, if_false, h1', if_true, h1]
      rfl

/-- The three examples of the block-size policy: `(4, 8)` gives `4`, `(1, 8)` gives `8`,
`(1, 1)` gives `64`. -/
theorem resolveBlockSize_policy_witness :
    ((resolveBlockSize 4 8 : Nat) : Int) = 4 ∧ ((resolveBlockSize 1 8 : Nat) : Int) = 8 ∧
      ((resolveBlockSize 1 1 : Nat) : Int) = 64 :=
  ⟨resolveBlockSize_policy 4 8 (by decide) (by decide) (by decide) (by decide),
    resolveBlockSize_policy 1 8 (by decide) (by decide) (by decide) (by decide),
    resolveBlockSize_policy 1 1 (by decide) (by decide) (by decide) (by decide)⟩

/-- Claim C7, the code at the failing input.  A negative `grain_size` is not treated as
unset: `grain_size = -1` resolves to `4294967295` whether `block_size_x` is `8` (the claim:
`8`) or `1` (the claim: `64`).  A negative `block_size_x` does fall back: `(1, -5)` gives
`64`. -/
theorem resolveBlockSize_negative_grain :
    resolveBlockSize (-1) 8 = 4294967295 ∧ resolveBlockSize (-1) 1 = 4294967295 ∧
      resolveBlockSize 1 (-5) = 64 := by
  decide

/-! ## The worked example -/

/-- Claim C9.  With `match_score = 2`, `mismatch_score = -1`, `gap_penalty = -1` and
`X = Y = "AC"`, each of `gpsa_sequential`, `gpsa_taskloop` and `gpsa_tasks` (default tuning
`1, 1, 1`; for `gpsa_tasks` any fuel from 2 on) leaves the matrix
`[[0,-1,-2],[-1,2,1],[-2,1,4]]`, whose bottom-right cell is `4`, and returns `visited = 9`,
whatever the matrix held before. -/
theorem gpsa_example_AC (S0 : Nat → Nat → Int) (fuel : Nat) :
    readMatrix (gpsa_sequential (exactOps Int) ⟨['A', 'C'], ['A', 'C'], 3, 3, 2, -1, -1⟩ S0).1.S
        3 3 = [[0, -1, -2], [-1, 2, 1], [-2, 1, 4]] ∧
    (gpsa_sequential (exactOps Int) ⟨['A', 'C'], ['A', 'C'], 3, 3, 2, -1, -1⟩ S0).1.S 2 2 = 4 ∧
    (gpsa_sequential (exactOps Int) ⟨['A', 'C'], ['A', 'C'], 3, 3, 2, -1, -1⟩ S0).2 = 9 ∧
    readMatrix (gpsa_taskloop (exactOps Int) ⟨['A', 'C'], ['A', 'C'], 3, 3, 2, -1, -1⟩ S0
        1 1 1).1.S 3 3 = [[0, -1, -2], [-1, 2, 1], [-2, 1, 4]] ∧
    (gpsa_taskloop (exactOps Int) ⟨['A', 'C'], ['A', 'C'], 3, 3, 2, -1, -1⟩ S0 1 1 1).2 = 9 ∧
    (gpsa_tasks (exactOps Int) ⟨['A', 'C'], ['A', 'C'], 3, 3, 2, -1, -1⟩ (fuel + 2) S0
        1 1 1).map (fun r => (readMatrix r.1.S 3 3, r.2)) =
      some ([[0, -1, -2], [-1, 2, 1], [-2, 1, 4]], 9) :=
  ⟨rfl, rfl, rfl, rfl, rfl, rfl⟩


/-! ## The wavefront loops as a fold over `waveCells` -/

theorem forLt_ucounted {σ : Type} (step : Nat → σ → σ) (lo hi : Nat) (s : σ × Nat) :
    forLt lo hi (fun k s => (step k s.1, uadd s.2 1)) s =
      ((List.range' lo (hi - lo)).foldl (fun m k => step k m) s.1,
        if hi - lo = 0 then s.2 else (s.2 + (hi - lo)) % 4294967296) := by
  unfold forLt
  generalize hi - lo = n
  induction n generalizing lo s with
  | zero => simp
  | succ n ih =>
    have h := ih (lo + 1) (step lo s.1, uadd s.2 1)
    simp only [List.range'_succ, List.foldl_cons] at h ⊢
    rw [h, if_neg (Nat.succ_ne_zero n)]
    congr 1
    unfold uadd
    split
    · next h => subst h; rfl
    · omega

theorem fillBlock_eq {α : Type} (F : FloatOps α) (si : SequenceInfo α)
    (rs re cs ce : Nat) (m : Mem α) :
    fillBlock F si rs re cs ce m =
      (runCells F si (cellsOf rs re cs ce) m, ((re - rs) * (ce - cs)) % 4294967296) := by
  have hin : ∀ i (s : Mem α × Nat),
      forLt cs ce (fun j s => (cellUpdate F si s.1 i j, uadd s.2 1)) s =
        (runCells F si ((List.range' cs (ce - cs)).map (fun j => (i, j))) s.1,
          if ce - cs = 0 then s.2 else (s.2 + (ce - cs)) % 4294967296) := by
    intro i s
    rw [forLt_ucounted (fun j m => cellUpdate F si m i j), foldl_cells_map]
  unfold fillBlock
  simp only [hin]
  unfold forLt cellsOf
  generalize re - rs = n
  generalize ce - cs = w
  have gen : ∀ (n rs : Nat) (s : Mem α × Nat), s.2 < 4294967296 →
      List.foldl (fun s k =>
        (runCells F si ((List.range' cs w).map (fun j => (k, j))) s.1,
          if w = 0 then s.2 else (s.2 + w) % 4294967296)) s (List.range' rs n) =
      (runCells F si ((List.range' rs n).flatMap
          (fun i => (List.range' cs w).map (fun j => (i, j)))) s.1,
        (s.2 + n * w) % 4294967296) := by
    intro n
    induction n with
    | zero =>
      intro rs s hs
      simp [runCells, Nat.mod_eq_of_lt hs]
    | succ n ih =>
      intro rs s hs
      simp only [List.range'_succ, List.foldl_cons, List.flatMap_cons, runCells_append]
      rw [ih]
      · congr 1
        rw [Nat.succ_mul]
        split
        · next h => subst h; simp
        · simp only [Nat.mod_add_mod]
          congr 1
          omega
      · show (if w = 0 then s.2 else (s.2 + w) % 4294967296) < 4294967296
        split <;> omega
  rw [gen n rs (m, 0) (by show (0 : Nat) < 4294967296; decide)]
  simp

theorem blockBody_eq {α : Type} (F : FloatOps α) (si : SequenceInfo α)
    (bs d br : Nat) (s : Mem α × Nat) :
    blockBody F si bs d br s =
      (runCells F si (blockCells si.rows si.cols bs d br) s.1,
        s.2 + (blockCells si.rows si.cols bs d br).length % 4294967296) := by
  unfold blockBody blockCells
  simp only
  split
  · simp [runCells]
  · simp only [fillBlock_eq, length_cellsOf]

theorem foldl_run_counted {α : Type} (F : FloatOps α) (si : SequenceInfo α)
    (f : Nat → List (Nat × Nat)) (L : List Nat) (s : Mem α × Nat) :
    L.foldl (fun s k => (runCells F si (f k) s.1, s.2 + (f k).length)) s =
      (runCells F si (L.flatMap f) s.1, s.2 + (L.flatMap f).length) := by
  induction L generalizing s with
  | nil => simp [runCells]
  | cons a L ih =>
    simp only [List.foldl_cons, ih, List.flatMap_cons, runCells_append, List.length_append]
    congr 1
    omega

/-- The `block_row` loop ends, given fuel, unless `last = 2^32 - 1`. -/
theorem forLe_eq {σ : Type} (body : Nat → σ → σ) (last : Nat) (hlast : last < 4294967295) :
    ∀ (fuel first : Nat) (s : σ), last + 1 - first < fuel →
      forLe fuel first last body s =
        some ((List.range' first (last + 1 - first)).foldl (fun s k => body k s) s) := by
  intro fuel
  induction fuel with
  | zero => intro first s h; omega
  | succ fuel ih =>
    intro first s h
    unfold forLe
    split
    · next hle =>
      have e : uadd first 1 = first + 1 := uadd_of_lt (by omega)
      rw [e, ih (first + 1) _ (by omega)]
      have : last + 1 - first = (last + 1 - (first + 1)) + 1 := by omega
      rw [this, List.range'_succ, List.foldl_cons]
    · next hle =>
      have : last + 1 - first = 0 := by omega
      rw [this]; rfl

/-- The `block_row` loop never ends when `last = 2^32 - 1`. -/
theorem forLe_diverges {σ : Type} (body : Nat → σ → σ) :
    ∀ (fuel first : Nat) (s : σ), first < 4294967296 →
      forLe fuel first 4294967295 body s = none := by
  intro fuel
  induction fuel with
  | zero => intro first s _; rfl
  | succ fuel ih =>
    intro first s h
    unfold forLe
    rw [if_pos (by omega)]
    exact ih _ _ (by unfold uadd; omega)

theorem foldlM_some {σ : Type} (f : σ → Nat → Option σ) (g : σ → Nat → σ) (L : List Nat)
    (h : ∀ d ∈ L, ∀ s, f s d = some (g s d)) (s : σ) :
    L.foldlM f s = some (L.foldl g s) := by
  induction L generalizing s with
  | nil => rfl
  | cons a L ih =>
    rw [List.foldlM_cons, h a (List.mem_cons_self _ _)]
    exact ih (fun d hd => h d (List.mem_cons_of_mem _ hd)) _

/-- When every `block_row` loop ends and no `local_count` wraps, the block-diagonal loop
applies the cell formula along `waveCells` and adds their number to `visited`. -/
theorem wavefront_eq {α : Type} (F : FloatOps α) (si : SequenceInfo α) (bs fuel : Nat)
    (s : Mem α × Nat)
    (hend : ∀ d, d < usub (uadd (numBlocks si.rows bs) (numBlocks si.cols bs)) 1 →
      lastBlockRow (numBlocks si.rows bs) d < 4294967295 ∧
      lastBlockRow (numBlocks si.rows bs) d + 1 - firstBlockRow (numBlocks si.cols bs) d < fuel)
    (hcnt : ∀ d br, (blockCells si.rows si.cols bs d br).length < 4294967296) :
    wavefront F si bs fuel s =
      some (runCells F si (waveCells si.rows si.cols bs) s.1,
        s.2 + (waveCells si.rows si.cols bs).length) := by
  unfold wavefront
  simp only
  rw [foldlM_some _ (fun s d =>
    (runCells F si (diagCells si.rows si.cols bs d) s.1,
      s.2 + (diagCells si.rows si.cols bs d).length))]
  · rw [foldl_run_counted]; rfl
  · intro d hd s
    have hd' := (List.mem_range'_1.1 hd).2
    obtain ⟨h1, h2⟩ := hend d (by omega)
    rw [forLe_eq _ _ h1 _ _ _ h2]
    have : (fun s k => blockBody F si bs d k s) =
        (fun (s : Mem α × Nat) k => (runCells F si (blockCells si.rows si.cols bs d k) s.1,
          s.2 + (blockCells si.rows si.cols bs d k).length)) := by
      funext s k
      rw [blockBody_eq, Nat.mod_eq_of_lt (hcnt d k)]
    rw [this, foldl_run_counted]
    rfl

/-! ## The taskloop -/

/-- Without a block row, `last_block_row` is `0 - 1 = 2^32 - 1` on every diagonal. -/
theorem lastBlockRow_zero (d : Nat) : lastBlockRow 0 d = 4294967295 := by
  unfold lastBlockRow
  rw [if_neg (Nat.not_lt_zero d)]
  decide

/-- A taskloop up to `last = 2^32 - 1` runs no iteration: `last + 1` is `0`. -/
theorem forTaskloop_wrapped {σ : Type} (first : Nat) (body : Nat → σ → σ) (s : σ) :
    forTaskloop first 4294967295 body s = s := by
  have h : uadd 4294967295 1 = 0 := by decide
  unfold forTaskloop forLt
  rw [h, Nat.zero_sub]
  rfl

theorem foldl_const {σ β : Type} (f : σ → β → σ) (h : ∀ s b, f s b = s) (L : List β) (s : σ) :
    L.foldl f s = s := by
  induction L generalizing s with
  | nil => rfl
  | cons a L ih => rw [List.foldl_cons, h, ih]

/-- Without a block row (`rows ≤ 1`), the block-diagonal loop of `gpsa_taskloop` runs no
block: every taskloop in it has `last_block_row = 2^32 - 1` and no iteration. -/
theorem wavefrontTaskloop_no_block_rows {α : Type} (F : FloatOps α) (si : SequenceInfo α)
    (bs : Nat) (s : Mem α × Nat) (h0 : numBlocks si.rows bs = 0) :
    wavefrontTaskloop F si bs s = s := by
  unfold wavefrontTaskloop
  simp only [h0, lastBlockRow_zero, forTaskloop_wrapped]
  exact foldl_const _ (fun _ _ => rfl) _ _

/-- When every `block_row` loop of `gpsa_tasks` ends before `2^32 - 1`, the two
block-diagonal loops run the same blocks in the same order. -/
theorem wavefront_eq_taskloop {α : Type} (F : FloatOps α) (si : SequenceInfo α) (bs fuel : Nat)
    (s : Mem α × Nat)
    (hend : ∀ d, d < usub (uadd (numBlocks si.rows bs) (numBlocks si.cols bs)) 1 →
      lastBlockRow (numBlocks si.rows bs) d < 4294967295 ∧
      lastBlockRow (numBlocks si.rows bs) d + 1 - firstBlockRow (numBlocks si.cols bs) d < fuel) :
    wavefront F si bs fuel s = some (wavefrontTaskloop F si bs s) := by
  unfold wavefront wavefrontTaskloop
  simp only
  apply foldlM_some
  intro d hd s
  have hd2 := (List.mem_range'_1.1 hd).2
  obtain ⟨h1, h2⟩ := hend d (by omega)
  rw [forLe_eq _ _ h1 _ _ _ h2]
  unfold forTaskloop forLt
  rw [uadd_of_lt (by omega)]

theorem foldl_writes {α : Type} (f : Mem α × Nat → Nat → Mem α × Nat)
    (hf : ∀ s k, ∃ L, (f s k).1.writes = s.1.writes ++ L) :
    ∀ (Ks : List Nat) (s : Mem α × Nat), ∃ L, (Ks.foldl f s).1.writes = s.1.writes ++ L := by
  intro Ks
  induction Ks with
  | nil => intro s; exact ⟨[], (List.append_nil _).symm⟩
  | cons k Ks ih =>
    intro s
    obtain ⟨L1, h1⟩ := hf s k
    obtain ⟨L2, h2⟩ := ih (f s k)
    exact ⟨L1 ++ L2, by rw [List.foldl_cons, h2, h1, List.append_assoc]⟩

theorem foldl_taskloop_writes {α : Type} (F : FloatOps α) (si : SequenceInfo α) (bs : Nat)
    (first last : Nat → Nat) (Ds : List Nat) (s : Mem α × Nat) :
    ∃ L, (Ds.foldl (fun s d => forTaskloop (first d) (last d) (blockBody F si bs d) s)
      s).1.writes = s.1.writes ++ L := by
  refine foldl_writes
    (fun s d => forTaskloop (first d) (last d) (blockBody F si bs d) s) ?_ Ds s
  intro s d
  exact foldl_writes (fun s k => blockBody F si bs d k s)
    (fun s k => ⟨_, by
      show (blockBody F si bs d k s).1.writes = _
      rw [blockBody_eq, runCells_writes]⟩) _ s

theorem wavefrontTaskloop_def {α : Type} (F : FloatOps α) (si : SequenceInfo α) (bs : Nat)
    (s : Mem α × Nat) :
    wavefrontTaskloop F si bs s =
      (List.range' 0 (usub (uadd (numBlocks si.rows bs) (numBlocks si.cols bs)) 1)).foldl
        (fun s d => forTaskloop (firstBlockRow (numBlocks si.cols bs) d)
          (lastBlockRow (numBlocks si.rows bs) d) (blockBody F si bs d) s) s := rfl

/-- The block-diagonal loop of `gpsa_taskloop` only appends to the write log. -/
theorem wavefrontTaskloop_writes {α : Type} (F : FloatOps α) (si : SequenceInfo α) (bs : Nat)
    (s : Mem α × Nat) : ∃ L, (wavefrontTaskloop F si bs s).1.writes = s.1.writes ++ L := by
  rw [wavefrontTaskloop_def]
  exact foldl_taskloop_writes F si bs (firstBlockRow (numBlocks si.cols bs))
    (lastBlockRow (numBlocks si.rows bs))
    (List.range' 0 (usub (uadd (numBlocks si.rows bs) (numBlocks si.cols bs)) 1)) s


/-! ## Block arithmetic without wrap-around -/

theorem div_eq_iff_block {bs x k : Nat} (hbs : 0 < bs) :
    x / bs = k ↔ k * bs ≤ x ∧ x < k * bs + bs := by
  constructor
  · rintro rfl
    exact ⟨Nat.div_mul_le_self x bs, Nat.lt_div_mul_add hbs⟩
  · rintro ⟨h1, h2⟩
    exact Nat.div_eq_of_lt_le h1 (by rw [Nat.succ_mul]; exact h2)

theorem numBlocks_eq {n bs : Nat} (hbs : 2 ≤ bs) (hn : 2 ≤ n) (h : n + bs ≤ 4294967296) :
    numBlocks n bs = (n - 2) / bs + 1 := by
  unfold numBlocks
  have a1 : usub n 1 = n - 1 := usub_one (by omega) (by omega)
  have a2 : uadd (n - 1) bs = n - 1 + bs := uadd_of_lt (by omega)
  have a3 : usub (n - 1 + bs) 1 = n - 1 + bs - 1 := usub_one (by omega) (by omega)
  have : n - 1 + bs - 1 = (n - 2) + bs := by omega
  rw [a1, a2, a3, this, Nat.add_div_right _ (by omega)]

theorem numBlocks_small {n bs : Nat} (hbs : 2 ≤ bs) (hn : n ≤ 1) (h : bs < 4294967296) :
    numBlocks n bs = 0 := by
  unfold numBlocks
  apply Nat.div_eq_of_lt
  unfold usub uadd
  omega

theorem block_mul_le {bs n k : Nat} (hk : k ≤ n / bs) : k * bs ≤ n :=
  le_trans (Nat.mul_le_mul_right bs hk) (Nat.div_mul_le_self n bs)

theorem two_mul_le_block {bs : Nat} (hbs : 2 ≤ bs) (k : Nat) : k * 2 ≤ k * bs :=
  Nat.mul_le_mul_left k hbs

/-- On the blocks of the grid, the cells of a block are those whose block coordinates
are the block's. -/
theorem blockCells_eq {rows cols bs d br : Nat} (hbs : 2 ≤ bs)
    (hrb : rows + bs ≤ 4294967296) (hcb : cols + bs ≤ 4294967296)
    (hr2 : 2 ≤ rows) (hc2 : 2 ≤ cols)
    (hbr : br ≤ (rows - 2) / bs) (hd : br ≤ d) (hbc : d - br ≤ (cols - 2) / bs) :
    blockCells rows cols bs d br =
      cellsOf (br * bs + 1) (min (br * bs + 1 + bs) rows)
        ((d - br) * bs + 1) (min ((d - br) * bs + 1 + bs) cols) := by
  have hp := block_mul_le hbr
  have hq := block_mul_le hbc
  have hp2 := two_mul_le_block hbs br
  have hq2 := two_mul_le_block hbs (d - br)
  have e1 : usub d br = d - br := usub_of_le hd (by omega)
  have e2 : umul br bs = br * bs := umul_of_lt (by omega)
  have e3 : umul (d - br) bs = (d - br) * bs := umul_of_lt (by omega)
  have e4 : uadd (br * bs) 1 = br * bs + 1 := uadd_of_lt (by omega)
  have e5 : uadd ((d - br) * bs) 1 = (d - br) * bs + 1 := uadd_of_lt (by omega)
  have e6 : uadd (br * bs + 1) bs = br * bs + 1 + bs := uadd_of_lt (by omega)
  have e7 : uadd ((d - br) * bs + 1) bs = (d - br) * bs + 1 + bs := uadd_of_lt (by omega)
  unfold blockCells
  simp only [e1, e2, e3, e4, e5, e6, e7]
  rw [if_neg (by omega)]
  congr 1
  · split <;> omega
  · split <;> omega

theorem mem_blockCells {rows cols bs d br : Nat} {c : Nat × Nat} (hbs : 2 ≤ bs)
    (hrb : rows + bs ≤ 4294967296) (hcb : cols + bs ≤ 4294967296)
    (hr2 : 2 ≤ rows) (hc2 : 2 ≤ cols)
    (hbr : br ≤ (rows - 2) / bs) (hd : br ≤ d) (hbc : d - br ≤ (cols - 2) / bs) :
    c ∈ blockCells rows cols bs d br ↔
      (1 ≤ c.1 ∧ c.1 < rows ∧ (c.1 - 1) / bs = br) ∧
      (1 ≤ c.2 ∧ c.2 < cols ∧ (c.2 - 1) / bs = d - br) := by
  rw [blockCells_eq hbs hrb hcb hr2 hc2 hbr hd hbc, mem_cellsOf,
    div_eq_iff_block (by omega : 0 < bs), div_eq_iff_block (by omega : 0 < bs)]
  omega

theorem firstBlockRow_eq {nbc d : Nat} (hd : d < 4294967295) :
    firstBlockRow nbc d = if d < nbc then 0 else d - nbc + 1 := by
  unfold firstBlockRow
  split
  · rfl
  · rw [usub_of_le (by omega) (by omega), uadd_of_lt (by omega)]

theorem lastBlockRow_eq {nbr d : Nat} (h1 : 1 ≤ nbr) (h2 : nbr < 4294967296) :
    lastBlockRow nbr d = if d < nbr then d else nbr - 1 := by
  unfold lastBlockRow
  split
  · rfl
  · rw [usub_one h1 h2]


/-! ## The cells of the diagonals -/

theorem rowBlocks_small (rows : Nat) {bs : Nat} (hbs : 2 ≤ bs) :
    (rows - 2) / bs * 2 ≤ rows - 2 :=
  le_trans (two_mul_le_block hbs _) (Nat.div_mul_le_self _ _)

/-- The number of block diagonals when there is at least one block row. -/
theorem diagBound_eq {rows cols bs : Nat} (hbs : 2 ≤ bs)
    (hrb : rows + bs ≤ 4294967296) (hcb : cols + bs ≤ 4294967296) (hr2 : 2 ≤ rows) :
    usub (uadd (numBlocks rows bs) (numBlocks cols bs)) 1 =
      (rows - 2) / bs + numBlocks cols bs ∧
    numBlocks cols bs = (if 2 ≤ cols then (cols - 2) / bs + 1 else 0) := by
  have hR := rowBlocks_small rows hbs
  have hC := rowBlocks_small cols hbs
  have hnr := numBlocks_eq hbs hr2 hrb
  have hnc : numBlocks cols bs = (if 2 ≤ cols then (cols - 2) / bs + 1 else 0) := by
    split
    · next h => exact numBlocks_eq hbs h hcb
    · next h => exact numBlocks_small hbs (by omega) (by omega)
  refine ⟨?_, hnc⟩
  rw [hnr, hnc]
  have a1 : uadd ((rows - 2) / bs + 1) (if 2 ≤ cols then (cols - 2) / bs + 1 else 0) =
      (rows - 2) / bs + 1 + (if 2 ≤ cols then (cols - 2) / bs + 1 else 0) :=
    uadd_of_lt (by split <;> omega)
  rw [a1, usub_one (by omega) (by split <;> omega)]
  omega

theorem mem_diagCells {rows cols bs d : Nat} {c : Nat × Nat} (hbs : 2 ≤ bs)
    (hrb : rows + bs ≤ 4294967296) (hcb : cols + bs ≤ 4294967296) (hr2 : 2 ≤ rows)
    (hd : d < usub (uadd (numBlocks rows bs) (numBlocks cols bs)) 1) :
    c ∈ diagCells rows cols bs d ↔
      (1 ≤ c.1 ∧ c.1 < rows) ∧ (1 ≤ c.2 ∧ c.2 < cols) ∧ (c.1 - 1) / bs + (c.2 - 1) / bs = d := by
  have hR := rowBlocks_small rows hbs
  have hC := rowBlocks_small cols hbs
  obtain ⟨hb, hnc⟩ := diagBound_eq hbs hrb hcb hr2
  have hnr := numBlocks_eq hbs hr2 hrb
  rw [hb] at hd
  unfold diagCells
  rw [firstBlockRow_eq (by split at hnc <;> omega), lastBlockRow_eq (by omega) (by omega), hnr]
  simp only [List.mem_flatMap, List.mem_range'_1]
  by_cases hc2 : 2 ≤ cols
  · rw [if_pos hc2] at hnc
    rw [hnc] at hd ⊢
    constructor
    · rintro ⟨br, ⟨h1, h2⟩, hmem⟩
      have hbr : br ≤ (rows - 2) / bs := by split_ifs at h1 h2 <;> omega
      have hbd : br ≤ d := by split_ifs at h1 h2 <;> omega
      have hbc : d - br ≤ (cols - 2) / bs := by split_ifs at h1 h2 <;> omega
      rw [mem_blockCells hbs hrb hcb hr2 hc2 hbr hbd hbc] at hmem
      omega
    · rintro ⟨hi, hj, hsum⟩
      have hbr : (c.1 - 1) / bs ≤ (rows - 2) / bs := Nat.div_le_div_right (by omega)
      have hbc : (c.2 - 1) / bs ≤ (cols - 2) / bs := Nat.div_le_div_right (by omega)
      have hle : (c.1 - 1) / bs ≤ d := hsum ▸ Nat.le_add_right _ _
      have hsub : d - (c.1 - 1) / bs = (c.2 - 1) / bs := by
        rw [← hsum]; exact Nat.add_sub_cancel_left _ _
      have hmem := (mem_blockCells (c := c) hbs hrb hcb hr2 hc2 hbr hle (hsub ▸ hbc)).2
        ⟨⟨hi.1, hi.2, rfl⟩, ⟨hj.1, hj.2, hsub.symm⟩⟩
      generalize (c.1 - 1) / bs = p at *
      generalize (c.2 - 1) / bs = q at *
      generalize (rows - 2) / bs = R at *
      generalize (cols - 2) / bs = C at *
      refine ⟨p, ⟨?_, ?_⟩, hmem⟩
      · split_ifs <;> omega
      · split_ifs <;> omega
  · rw [if_neg hc2] at hnc
    rw [hnc] at hd ⊢
    constructor
    · rintro ⟨br, ⟨h1, h2⟩, -⟩
      split_ifs at h1 h2 <;> omega
    · rintro ⟨-, hj, -⟩
      omega

/-- The cells of the diagonals before `d` are the interior cells of block diagonal
index below `d`. -/
theorem mem_prevDiags {rows cols bs d : Nat} {c : Nat × Nat} (hbs : 2 ≤ bs)
    (hrb : rows + bs ≤ 4294967296) (hcb : cols + bs ≤ 4294967296) (hr2 : 2 ≤ rows)
    (hd : d ≤ usub (uadd (numBlocks rows bs) (numBlocks cols bs)) 1) :
    c ∈ (List.range' 0 d).flatMap (diagCells rows cols bs) ↔
      (1 ≤ c.1 ∧ c.1 < rows) ∧ (1 ≤ c.2 ∧ c.2 < cols) ∧ (c.1 - 1) / bs + (c.2 - 1) / bs < d := by
  simp only [List.mem_flatMap, List.mem_range'_1]
  constructor
  · rintro ⟨k, ⟨-, hk⟩, hmem⟩
    rw [mem_diagCells hbs hrb hcb hr2 (by omega)] at hmem
    omega
  · rintro ⟨hi, hj, hlt⟩
    refine ⟨(c.1 - 1) / bs + (c.2 - 1) / bs, ⟨Nat.zero_le _, by rw [Nat.zero_add]; exact hlt⟩, ?_⟩
    rw [mem_diagCells hbs hrb hcb hr2 (lt_of_lt_of_le hlt hd)]
    exact ⟨hi, hj, rfl⟩

/-- The block-diagonal loop visits exactly the interior cells. -/
theorem mem_waveCells {rows cols bs : Nat} {c : Nat × Nat} (hbs : 2 ≤ bs)
    (hrb : rows + bs ≤ 4294967296) (hcb : cols + bs ≤ 4294967296) (hr2 : 2 ≤ rows) :
    c ∈ waveCells rows cols bs ↔ (1 ≤ c.1 ∧ c.1 < rows) ∧ (1 ≤ c.2 ∧ c.2 < cols) := by
  unfold waveCells
  rw [mem_prevDiags hbs hrb hcb hr2 (le_refl _)]
  obtain ⟨hb, hnc⟩ := diagBound_eq hbs hrb hcb hr2
  rw [hb, hnc]
  constructor
  · rintro ⟨hi, hj, -⟩
    exact ⟨hi, hj⟩
  · rintro ⟨hi, hj⟩
    refine ⟨hi, hj, ?_⟩
    have hbr : (c.1 - 1) / bs ≤ (rows - 2) / bs := Nat.div_le_div_right (by omega)
    have hbc : (c.2 - 1) / bs ≤ (cols - 2) / bs := Nat.div_le_div_right (by omega)
    rw [if_pos (by omega)]
    generalize (c.1 - 1) / bs = p at *
    generalize (c.2 - 1) / bs = q at *
    generalize (rows - 2) / bs = R at *
    generalize (cols - 2) / bs = C at *
    omega


/-! ## The wavefront order is a schedule -/

/-- A coordinate `x` of block `k` and its predecessor `x - 1`: the predecessor lies in the
same block, or in block `k - 1`, or is the boundary coordinate `0`. -/
theorem pred_block {bs k x : Nat} (hbs : 2 ≤ bs) (h1 : k * bs + 1 ≤ x)
    (h2 : x < k * bs + 1 + bs) :
    (x - 1) / bs = k ∧ (x - 1 - 1) / bs ≤ k ∧
      (k * bs + 1 ≤ x - 1 ∨ (k = 0 ∧ x - 1 = 0) ∨ (1 ≤ x - 1 ∧ (x - 1 - 1) / bs < k)) := by
  have hbs0 : 0 < bs := by omega
  have e : (x - 1) / bs = k := (div_eq_iff_block hbs0).2 ⟨by omega, by omega⟩
  refine ⟨e, ?_, ?_⟩
  · rw [← e]; exact Nat.div_le_div_right (by omega)
  · by_cases hx : k * bs + 1 ≤ x - 1
    · exact Or.inl hx
    · right
      rcases Nat.eq_zero_or_pos k with hk | hk
      · left
        subst hk
        simp only [Nat.zero_mul] at h1 h2 hx
        exact ⟨rfl, by omega⟩
      · right
        have h3 : 1 * 2 ≤ k * bs := Nat.mul_le_mul hk hbs
        refine ⟨by omega, (Nat.div_lt_iff_lt_mul hbs0).2 (by omega)⟩

theorem sched_waveCells {rows cols bs : Nat} (hbs : 2 ≤ bs)
    (hrb : rows + bs ≤ 4294967296) (hcb : cols + bs ≤ 4294967296) (hr2 : 2 ≤ rows) :
    Sched (boundaryCells rows cols) (waveCells rows cols bs) := by
  have hR := rowBlocks_small rows hbs
  have hC := rowBlocks_small cols hbs
  obtain ⟨hb, hnc⟩ := diagBound_eq hbs hrb hcb hr2
  have hnr := numBlocks_eq hbs hr2 hrb
  unfold waveCells
  apply sched_flatMap_range'
  intro d hd
  rw [Nat.zero_add]
  have hprev : ∀ c : Nat × Nat, c ∈ (List.range' 0 d).flatMap (diagCells rows cols bs) ↔
      (1 ≤ c.1 ∧ c.1 < rows) ∧ (1 ≤ c.2 ∧ c.2 < cols) ∧ (c.1 - 1) / bs + (c.2 - 1) / bs < d :=
    fun c => mem_prevDiags hbs hrb hcb hr2 hd.le
  generalize (List.range' 0 d).flatMap (diagCells rows cols bs) = P at hprev ⊢
  rw [hb] at hd
  show Sched _ ((List.range' _ _).flatMap _)
  apply sched_flatMap_range'
  intro k hk
  apply sched_mono (W := boundaryCells rows cols ++ P) (fun x hx => List.mem_append_left _ hx)
  have hfirst := @firstBlockRow_eq (numBlocks cols bs) d (by split_ifs at hnc <;> omega)
  have hlast := @lastBlockRow_eq (numBlocks rows bs) d (by omega) (by omega)
  rw [hfirst, hlast, hnr] at hk
  rw [hfirst]
  by_cases hc2 : 2 ≤ cols
  · rw [if_pos hc2] at hnc
    rw [hnc] at hd hk ⊢
    generalize hbr : (if d < (cols - 2) / bs + 1 then 0 else d - ((cols - 2) / bs + 1) + 1) + k
      = br at hk ⊢
    have h1 : br ≤ (rows - 2) / bs := by split_ifs at hk hbr <;> omega
    have h2 : br ≤ d := by split_ifs at hk hbr <;> omega
    have h3 : d - br ≤ (cols - 2) / bs := by split_ifs at hk hbr <;> omega
    rw [blockCells_eq hbs hrb hcb hr2 hc2 h1 h2 h3]
    have hp := block_mul_le h1
    have hq := block_mul_le h3
    apply sched_cellsOf
    · exact le_trans (min_le_right _ _) (by omega)
    · exact le_trans (min_le_right _ _) (by omega)
    · omega
    · omega
    · intro i j hi1 hi2 hj1 hj2
      rw [lt_min_iff] at hi2 hj2
      obtain ⟨a1, a2, a3⟩ := pred_block hbs hi1 hi2.1
      obtain ⟨b1, b2, b3⟩ := pred_block hbs hj1 hj2.1
      simp only [List.mem_append, mem_boundaryCells, hprev]
      generalize (i - 1) / bs = qi at *
      generalize (j - 1) / bs = qj at *
      generalize (i - 1 - 1) / bs = qi' at *
      generalize (j - 1 - 1) / bs = qj' at *
      generalize br * bs = pr at *
      generalize (d - br) * bs = pc at *
      omega
  · rw [if_neg hc2] at hnc
    rw [hnc] at hd hk
    split_ifs at hk <;> omega


/-! ## Every interior cell is visited once -/

theorem nodup_cellsOf (rs re cs ce : Nat) : (cellsOf rs re cs ce).Nodup := by
  unfold cellsOf
  rw [List.nodup_flatMap]
  constructor
  · intro i _
    exact (List.nodup_range' _ _).map (fun a b h => (Prod.mk.inj h).2)
  · apply List.Nodup.pairwise_of_forall_ne (List.nodup_range' _ _)
    intro a _ b _ hne c h1 h2
    simp only [List.mem_map] at h1 h2
    obtain ⟨x, -, rfl⟩ := h1
    obtain ⟨y, -, h⟩ := h2
    exact hne (Prod.mk.inj h).1.symm

theorem nodup_blockCells (rows cols bs d br : Nat) : (blockCells rows cols bs d br).Nodup := by
  unfold blockCells
  simp only
  split
  · exact List.nodup_nil
  · exact nodup_cellsOf _ _ _ _

theorem nodup_diagCells {rows cols bs d : Nat} (hbs : 2 ≤ bs)
    (hrb : rows + bs ≤ 4294967296) (hcb : cols + bs ≤ 4294967296) (hr2 : 2 ≤ rows)
    (hd : d < usub (uadd (numBlocks rows bs) (numBlocks cols bs)) 1) :
    (diagCells rows cols bs d).Nodup := by
  have hR := rowBlocks_small rows hbs
  have hC := rowBlocks_small cols hbs
  obtain ⟨hb, hnc⟩ := diagBound_eq hbs hrb hcb hr2
  have hnr := numBlocks_eq hbs hr2 hrb
  rw [hb] at hd
  unfold diagCells
  rw [List.nodup_flatMap]
  refine ⟨fun br _ => nodup_blockCells _ _ _ _ _, ?_⟩
  apply List.Nodup.pairwise_of_forall_ne (List.nodup_range' _ _)
  intro a ha b hb' hne c h1 h2
  rw [firstBlockRow_eq (by split_ifs at hnc <;> omega), lastBlockRow_eq (by omega) (by omega),
    hnr, List.mem_range'_1] at ha hb'
  by_cases hc2 : 2 ≤ cols
  · rw [if_pos hc2] at hnc
    rw [hnc] at hd ha hb'
    have fa : a ≤ (rows - 2) / bs ∧ a ≤ d ∧ d - a ≤ (cols - 2) / bs := by
      split_ifs at ha <;> omega
    have fb : b ≤ (rows - 2) / bs ∧ b ≤ d ∧ d - b ≤ (cols - 2) / bs := by
      split_ifs at hb' <;> omega
    rw [mem_blockCells hbs hrb hcb hr2 hc2 fa.1 fa.2.1 fa.2.2] at h1
    rw [mem_blockCells hbs hrb hcb hr2 hc2 fb.1 fb.2.1 fb.2.2] at h2
    exact hne (h1.1.2.2.symm.trans h2.1.2.2)
  · rw [if_neg hc2] at hnc
    rw [hnc] at hd ha
    split_ifs at ha <;> omega

theorem nodup_waveCells {rows cols bs : Nat} (hbs : 2 ≤ bs)
    (hrb : rows + bs ≤ 4294967296) (hcb : cols + bs ≤ 4294967296) (hr2 : 2 ≤ rows) :
    (waveCells rows cols bs).Nodup := by
  unfold waveCells
  rw [List.nodup_flatMap]
  constructor
  · intro d hd
    exact nodup_diagCells hbs hrb hcb hr2 (by have := (List.mem_range'_1.1 hd).2; omega)
  · apply List.Nodup.pairwise_of_forall_ne (List.nodup_range' _ _)
    intro a ha b hb hne c h1 h2
    rw [mem_diagCells hbs hrb hcb hr2 (by have := (List.mem_range'_1.1 ha).2; omega)] at h1
    rw [mem_diagCells hbs hrb hcb hr2 (by have := (List.mem_range'_1.1 hb).2; omega)] at h2
    exact hne (h1.2.2.symm.trans h2.2.2)

/-- The block-diagonal loop visits `(rows - 1) * (cols - 1)` cells. -/
theorem length_waveCells {rows cols bs : Nat} (hbs : 2 ≤ bs)
    (hrb : rows + bs ≤ 4294967296) (hcb : cols + bs ≤ 4294967296) (hr2 : 2 ≤ rows) :
    (waveCells rows cols bs).length = (rows - 1) * (cols - 1) := by
  have hperm : (waveCells rows cols bs).Perm (cellsOf 1 rows 1 cols) := by
    rw [List.perm_ext_iff_of_nodup (nodup_waveCells hbs hrb hcb hr2) (nodup_cellsOf _ _ _ _)]
    intro c
    rw [mem_waveCells hbs hrb hcb hr2, mem_cellsOf]
  rw [hperm.length_eq, length_cellsOf]

/-- The number of cells of a block, whatever its coordinates, is at most
`block_size * block_size` and at most `rows * cols`. -/
theorem length_blockCells_le (rows cols bs d br : Nat) :
    (blockCells rows cols bs d br).length ≤ bs * bs ∧
      (blockCells rows cols bs d br).length ≤ rows * cols := by
  unfold blockCells
  simp only
  split
  · simp
  · rw [length_cellsOf]
    constructor
    · apply Nat.mul_le_mul
      · unfold uadd; split <;> omega
      · unfold uadd; split <;> omega
    · apply Nat.mul_le_mul
      · split <;> omega
      · split <;> omega


/-! ## The wavefront fillers against the sequential filler -/

theorem resolveBlockSize_ge_two (grain_size block_size_x : Int) :
    2 ≤ resolveBlockSize grain_size block_size_x := by
  unfold resolveBlockSize
  simp only
  split_ifs <;> omega

theorem resolveBlockSize_lt (grain_size block_size_x : Int) :
    resolveBlockSize grain_size block_size_x < 4294967296 := by
  unfold resolveBlockSize
  simp only
  split_ifs <;> omega

/-- With at least two rows and no wrap-around, every `block_row` loop ends before
`2^32 - 1`, within `rows` steps. -/
theorem block_row_loops_end {rows cols bs fuel : Nat} (hbs : 2 ≤ bs)
    (hrb : rows + bs ≤ 4294967296) (hcb : cols + bs ≤ 4294967296) (hr2 : 2 ≤ rows)
    (hfuel : rows ≤ fuel) :
    ∀ d, d < usub (uadd (numBlocks rows bs) (numBlocks cols bs)) 1 →
      lastBlockRow (numBlocks rows bs) d < 4294967295 ∧
      lastBlockRow (numBlocks rows bs) d + 1 - firstBlockRow (numBlocks cols bs) d < fuel := by
  have hR := rowBlocks_small rows hbs
  obtain ⟨hb, hnc⟩ := diagBound_eq hbs hrb hcb hr2
  have hnr := numBlocks_eq hbs hr2 hrb
  intro d hd
  rw [hb] at hd
  rw [lastBlockRow_eq (by omega) (by omega), hnr]
  generalize (rows - 2) / bs = R at *
  generalize firstBlockRow (numBlocks cols bs) d = f
  split_ifs <;> omega

/-- With at least two rows and no wrap-around, the block-diagonal loop of `gpsa_tasks` ends
and stores the values of the specification along `waveCells`. -/
theorem wavefront_correct {α : Type} (F : FloatOps α) (si : SequenceInfo α) (bs fuel : Nat)
    (S : Nat → Nat → α) (hbs : 2 ≤ bs) (hrb : si.rows + bs ≤ 4294967296)
    (hcb : si.cols + bs ≤ 4294967296) (hr2 : 2 ≤ si.rows) (hfuel : si.rows ≤ fuel)
    (hcnt : bs * bs < 4294967296 ∨ si.rows * si.cols < 4294967296) :
    wavefront F si bs fuel (initBoundary F si (⟨S, []⟩, 0)) =
      some (setSpec F si (boundaryCells si.rows si.cols ++ waveCells si.rows si.cols bs) ⟨S, []⟩,
        si.rows - 1 + si.cols + (si.rows - 1) * (si.cols - 1)) := by
  have hR := rowBlocks_small si.rows hbs
  obtain ⟨hb, hnc⟩ := diagBound_eq hbs hrb hcb hr2
  have hnr := numBlocks_eq hbs hr2 hrb
  rw [wavefront_eq F si bs fuel]
  · rw [initBoundary_eq, length_waveCells hbs hrb hcb hr2]
    simp only [Nat.zero_add]
    rw [runCells_eq_setSpec, ← setSpec_append]
    · exact agrees_setSpec F si _ _ (by intro c hc; simp at hc)
    · rw [setSpec_writes]
      simpa using sched_waveCells hbs hrb hcb hr2
  · intro d hd
    rw [hb] at hd
    rw [lastBlockRow_eq (by omega) (by omega), hnr]
    generalize (si.rows - 2) / bs = R at *
    generalize firstBlockRow (numBlocks si.cols bs) d = f
    split_ifs <;> omega
  · intro d br
    have := length_blockCells_le si.rows si.cols bs d br
    omega

/-- With one row and at most one block column there is no diagonal: the block-diagonal
loop of `gpsa_tasks` ends at once. -/
theorem wavefront_single_row {α : Type} (F : FloatOps α) (si : SequenceInfo α)
    (bs fuel : Nat) (s : Mem α × Nat) (hbs : 2 ≤ bs) (hcb : si.cols + bs ≤ 4294967296)
    (hr : si.rows = 1) (hc2 : 2 ≤ si.cols) (hc : si.cols ≤ bs + 1) :
    wavefront F si bs fuel s = some s := by
  have h1 : numBlocks si.rows bs = 0 := numBlocks_small hbs (by omega) (by omega)
  have h2 : numBlocks si.cols bs = 1 := by
    rw [numBlocks_eq hbs hc2 hcb, Nat.div_eq_of_lt (by omega)]
  unfold wavefront
  simp only [h1, h2]
  rfl

/-- The interior cells in row-major order and in wavefront order are the same cells. -/
theorem mem_waveCells_iff_sequential {rows cols bs : Nat} (c : Nat × Nat) (hbs : 2 ≤ bs)
    (hrb : rows + bs ≤ 4294967296) (hcb : cols + bs ≤ 4294967296) (hr2 : 2 ≤ rows) :
    c ∈ boundaryCells rows cols ++ waveCells rows cols bs ↔
      c ∈ boundaryCells rows cols ++ cellsOf 1 rows 1 cols := by
  simp only [List.mem_append, mem_waveCells hbs hrb hcb hr2, mem_cellsOf]

/-- Refinement of the sequential filler by the loops of `gpsa_tasks`.  When the
block-diagonal loop has a block row (`rows ≥ 2`) or no diagonal at all (`rows = 1`, `2 ≤ cols ≤
block_size + 1`), no `unsigned int` expression wraps (`rows + block_size ≤ 2^32`,
`cols + block_size ≤ 2^32`, fewer than `2^32` cells per block) and the fuel is at least
`rows`, the loops started after the boundary loops return the matrix and the count of
`gpsa_sequential`. -/
theorem wavefront_refines_sequential {α : Type} (F : FloatOps α) (si : SequenceInfo α)
    (bs fuel : Nat) (S : Nat → Nat → α) (hbs : 2 ≤ bs) (hrb : si.rows + bs ≤ 4294967296)
    (hcb : si.cols + bs ≤ 4294967296)
    (hshape : 2 ≤ si.rows ∨ (si.rows = 1 ∧ 2 ≤ si.cols ∧ si.cols ≤ bs + 1))
    (hfuel : si.rows ≤ fuel)
    (hcnt : bs * bs < 4294967296 ∨ si.rows * si.cols < 4294967296) :
    ∃ r, wavefront F si bs fuel (initBoundary F si (⟨S, []⟩, 0)) = some r ∧
      r.1.S = (gpsa_sequential F si S).1.S ∧ r.2 = (gpsa_sequential F si S).2 := by
  rcases hshape with hr2 | ⟨hr1, hc2, hc⟩
  · refine ⟨_, wavefront_correct F si bs fuel S hbs hrb hcb hr2 hfuel hcnt, ?_, ?_⟩
    · rw [gpsa_sequential_eq F si S (by omega) (by omega)]
      funext a b
      simp only [setSpec_S, mem_waveCells_iff_sequential (a, b) hbs hrb hcb hr2]
    · rw [gpsa_sequential_eq F si S (by omega) (by omega)]
  · refine ⟨_, wavefront_single_row F si bs fuel _ hbs hcb hr1 hc2 hc, ?_, ?_⟩
    · rw [gpsa_sequential_eq F si S (by omega) (by omega), initBoundary_eq]
      funext a b
      simp only [setSpec_S, List.mem_append, mem_cellsOf]
      have : ¬ ((1 ≤ a ∧ a < si.rows) ∧ 1 ≤ b ∧ b < si.cols) := by omega
      simp only [this, or_false]
    · rw [gpsa_sequential_eq F si S (by omega) (by omega), initBoundary_eq, hr1]
      simp


theorem gpsa_taskloop_def {α : Type} (F : FloatOps α) (si : SequenceInfo α)
    (S : Nat → Nat → α) (grain_size block_size_x block_size_y : Int) :
    gpsa_taskloop F si S grain_size block_size_x block_size_y =
      wavefrontTaskloop F si (resolveBlockSize grain_size block_size_x)
        (initBoundary F si (⟨S, []⟩, 0)) := rfl

theorem gpsa_tasks_def {α : Type} (F : FloatOps α) (si : SequenceInfo α) (fuel : Nat)
    (S : Nat → Nat → α) (grain_size block_size_x block_size_y : Int) :
    gpsa_tasks F si fuel S grain_size block_size_x block_size_y =
      wavefront F si (resolveBlockSize grain_size block_size_x) fuel
        (initBoundary F si (⟨S, []⟩, 0)) := rfl

/-- With one row, `gpsa_taskloop` runs the boundary loops only. -/
theorem gpsa_taskloop_single_row {α : Type} (F : FloatOps α) (si : SequenceInfo α)
    (S : Nat → Nat → α) (grain_size block_size_x block_size_y : Int) (hr : si.rows ≤ 1) :
    gpsa_taskloop F si S grain_size block_size_x block_size_y =
      initBoundary F si (⟨S, []⟩, 0) := by
  rw [gpsa_taskloop_def]
  exact wavefrontTaskloop_no_block_rows F si (resolveBlockSize grain_size block_size_x) _
    (numBlocks_small (resolveBlockSize_ge_two _ _) hr (resolveBlockSize_lt _ _))

/-- With one row, `gpsa_sequential` runs the boundary loops only. -/
theorem gpsa_sequential_single_row {α : Type} (F : FloatOps α) (si : SequenceInfo α)
    (S : Nat → Nat → α) (hr : si.rows ≤ 1) :
    gpsa_sequential F si S = initBoundary F si (⟨S, []⟩, 0) := by
  unfold gpsa_sequential forLt
  have : si.rows - 1 = 0 := by omega
  simp only [this]
  rfl

/-- Where the block-diagonal loop of `gpsa_tasks` ends (at least two rows, or one row and
at most one block column, and no wrap-around of `rows + block_size`, `cols + block_size`),
it returns the state that the loop of `gpsa_taskloop` returns. -/
theorem wavefront_returns_taskloop {α : Type} (F : FloatOps α) (si : SequenceInfo α)
    (bs fuel : Nat) (s : Mem α × Nat) (hbs : 2 ≤ bs) (hrb : si.rows + bs ≤ 4294967296)
    (hcb : si.cols + bs ≤ 4294967296)
    (hshape : 2 ≤ si.rows ∨ (si.rows = 1 ∧ 2 ≤ si.cols ∧ si.cols ≤ bs + 1))
    (hfuel : si.rows ≤ fuel) :
    wavefront F si bs fuel s = some (wavefrontTaskloop F si bs s) := by
  rcases hshape with hr2 | ⟨hr1, hc2, hc⟩
  · exact wavefront_eq_taskloop F si bs fuel s (block_row_loops_end hbs hrb hcb hr2 hfuel)
  · rw [wavefront_single_row F si bs fuel s hbs hcb hr1 hc2 hc,
      wavefrontTaskloop_no_block_rows F si bs s (numBlocks_small hbs (by omega) (by omega))]

/-! ## Runs that do not end -/

/-- Without a block row (`num_blocks_rows = 0`) every diagonal has
`last_block_row = 0 - 1 = 2^32 - 1`; if the block-diagonal loop of `gpsa_tasks` is entered
at all, its first `block_row` loop never ends. -/
theorem wavefront_diverges {α : Type} (F : FloatOps α) (si : SequenceInfo α) (bs fuel : Nat)
    (s : Mem α × Nat) (h0 : numBlocks si.rows bs = 0)
    (hb : 0 < usub (uadd 0 (numBlocks si.cols bs)) 1) :
    wavefront F si bs fuel s = none := by
  unfold wavefront
  simp only [h0]
  obtain ⟨n, hn⟩ : ∃ n, usub (uadd 0 (numBlocks si.cols bs)) 1 = n + 1 :=
    ⟨usub (uadd 0 (numBlocks si.cols bs)) 1 - 1, by omega⟩
  rw [hn, List.range'_succ, List.foldlM_cons]
  have hlast : lastBlockRow 0 0 = 4294967295 := by decide
  have hfirst : firstBlockRow (numBlocks si.cols bs) 0 < 4294967296 := by
    unfold firstBlockRow uadd
    split <;> omega
  rw [hlast, forLe_diverges _ _ _ _ hfirst]
  rfl

/-- Claim C1, the code at the failing input.  For two empty sequences (`rows = cols = 1`)
and the default tuning, `gpsa_sequential` stores to `S[0][0]` and returns `visited = 1`, and
so does `gpsa_taskloop`, whose taskloops run no iteration; `gpsa_tasks` does not return: no
amount of fuel gives a result. -/
theorem gpsa_wavefront_empty_sequences {α : Type} (F : FloatOps α)
    (match_score mismatch_score gap_penalty : α) (S : Nat → Nat → α) (fuel : Nat) :
    (gpsa_sequential F ⟨[], [], 1, 1, match_score, mismatch_score, gap_penalty⟩ S).2 = 1 ∧
    (gpsa_sequential F ⟨[], [], 1, 1, match_score, mismatch_score, gap_penalty⟩ S).1.writes =
      [(0, 0)] ∧
    gpsa_taskloop F ⟨[], [], 1, 1, match_score, mismatch_score, gap_penalty⟩ S 1 1 1 =
      gpsa_sequential F ⟨[], [], 1, 1, match_score, mismatch_score, gap_penalty⟩ S ∧
    gpsa_tasks F ⟨[], [], 1, 1, match_score, mismatch_score, gap_penalty⟩ fuel S 1 1 1 =
      none := by
  have h0 : numBlocks 1 (resolveBlockSize 1 1) = 0 := by decide
  have hb : 0 < usub (uadd 0 (numBlocks 1 (resolveBlockSize 1 1))) 1 := by decide
  have hw := wavefront_diverges F ⟨[], [], 1, 1, match_score, mismatch_score, gap_penalty⟩
    (resolveBlockSize 1 1) fuel
    (initBoundary F ⟨[], [], 1, 1, match_score, mismatch_score, gap_penalty⟩ (⟨S, []⟩, 0)) h0 hb
  refine ⟨rfl, rfl, ?_, hw⟩
  rw [gpsa_taskloop_single_row F _ S 1 1 1 (le_refl 1),
    gpsa_sequential_single_row F _ S (le_refl 1)]

/-- Claim C5, the code at the failing inputs.  With `rows = cols = 1` and the default
block size 64 there is no block (`num_blocks_rows = num_blocks_cols = 0`), but the bound
`num_blocks_rows + num_blocks_cols - 1` of the block-diagonal loop wraps to `2^32 - 1` and
`last_block_row` of diagonal 0 is `2^32 - 1`, so the loop body is entered; `gpsa_tasks`
never returns, while `gpsa_taskloop`, whose taskloops run no iteration, stores to `S[0][0]`
only and returns `1`.  The same happens with `rows = 1` and `cols = 66` (two block columns):
the bound is `1`, `last_block_row` is `2^32 - 1`, `gpsa_tasks` never returns and
`gpsa_taskloop` stores to the boundary only and returns `66`. -/
theorem gpsa_wavefront_boundary_only {α : Type} (F : FloatOps α)
    (match_score mismatch_score gap_penalty : α) (S : Nat → Nat → α) (fuel : Nat) :
    resolveBlockSize 1 1 = 64 ∧ numBlocks 1 64 = 0 ∧
    usub (uadd (numBlocks 1 64) (numBlocks 1 64)) 1 = 4294967295 ∧
    lastBlockRow (numBlocks 1 64) 0 = 4294967295 ∧
    gpsa_tasks F ⟨[], [], 1, 1, match_score, mismatch_score, gap_penalty⟩ fuel S 1 1 1 =
      none ∧
    (gpsa_taskloop F ⟨[], [], 1, 1, match_score, mismatch_score, gap_penalty⟩ S 1 1 1).1.writes =
      [(0, 0)] ∧
    (gpsa_taskloop F ⟨[], [], 1, 1, match_score, mismatch_score, gap_penalty⟩ S 1 1 1).2 = 1 ∧
    usub (uadd (numBlocks 1 64) (numBlocks 66 64)) 1 = 1 ∧
    gpsa_tasks F ⟨[], List.replicate 65 'A', 1, 66, match_score, mismatch_score, gap_penalty⟩
      fuel S 1 1 1 = none ∧
    (gpsa_taskloop F ⟨[], List.replicate 65 'A', 1, 66, match_score, mismatch_score,
      gap_penalty⟩ S 1 1 1).1.writes = boundaryCells 1 66 ∧
    (gpsa_taskloop F ⟨[], List.replicate 65 'A', 1, 66, match_score, mismatch_score,
      gap_penalty⟩ S 1 1 1).2 = 66 := by
  have h0 : numBlocks 1 (resolveBlockSize 1 1) = 0 := by decide
  have hb : 0 < usub (uadd 0 (numBlocks 1 (resolveBlockSize 1 1))) 1 := by decide
  have hb2 : 0 < usub (uadd 0 (numBlocks 66 (resolveBlockSize 1 1))) 1 := by decide
  have hw := wavefront_diverges F ⟨[], [], 1, 1, match_score, mismatch_score, gap_penalty⟩
    (resolveBlockSize 1 1) fuel
    (initBoundary F ⟨[], [], 1, 1, match_score, mismatch_score, gap_penalty⟩ (⟨S, []⟩, 0)) h0 hb
  have hw2 := wavefront_diverges F
    ⟨[], List.replicate 65 'A', 1, 66, match_score, mismatch_score, gap_penalty⟩
    (resolveBlockSize 1 1) fuel
    (initBoundary F ⟨[], List.replicate 65 'A', 1, 66, match_score, mismatch_score,
      gap_penalty⟩ (⟨S, []⟩, 0)) h0 hb2
  have ht := gpsa_taskloop_single_row F
    ⟨[], [], 1, 1, match_score, mismatch_score, gap_penalty⟩ S 1 1 1 (le_refl 1)
  have ht2 := gpsa_taskloop_single_row F
    ⟨[], List.replicate 65 'A', 1, 66, match_score, mismatch_score, gap_penalty⟩ S 1 1 1
    (le_refl 1)
  refine ⟨by decide, by decide, by decide, by decide, hw, ?_, ?_, by decide, hw2, ?_, ?_⟩
  · rw [ht]; rfl
  · rw [ht]; rfl
  · rw [ht2, initBoundary_eq, setSpec_writes]; rfl
  · rw [ht2, initBoundary_eq]; rfl

/-- Both wavefront fillers agree with `gpsa_sequential`, for every scoring scheme and every
interpretation of the cell arithmetic, whenever the grid has at least two rows (or one row
and at most one block column) and no `unsigned int` expression wraps: with
`block_size` the resolved block size, `rows + block_size ≤ 2^32`, `cols + block_size ≤ 2^32`
and fewer than `2^32` cells per block. -/
theorem gpsa_parallel_eq_sequential {α : Type} (F : FloatOps α) (si : SequenceInfo α)
    (fuel : Nat) (S : Nat → Nat → α) (grain_size block_size_x block_size_y : Int)
    (hrb : si.rows + resolveBlockSize grain_size block_size_x ≤ 4294967296)
    (hcb : si.cols + resolveBlockSize grain_size block_size_x ≤ 4294967296)
    (hshape : 2 ≤ si.rows ∨ (si.rows = 1 ∧ 2 ≤ si.cols ∧
      si.cols ≤ resolveBlockSize grain_size block_size_x + 1))
    (hfuel : si.rows ≤ fuel)
    (hcnt : resolveBlockSize grain_size block_size_x * resolveBlockSize grain_size block_size_x
        < 4294967296 ∨ si.rows * si.cols < 4294967296) :
    ∃ r, gpsa_taskloop F si S grain_size block_size_x block_size_y = r ∧
      gpsa_tasks F si fuel S grain_size block_size_x block_size_y = some r ∧
      r.1.S = (gpsa_sequential F si S).1.S ∧ r.2 = (gpsa_sequential F si S).2 := by
  obtain ⟨r, h1, h2, h3⟩ := wavefront_refines_sequential F si
    (resolveBlockSize grain_size block_size_x) fuel S
    (resolveBlockSize_ge_two grain_size block_size_x) hrb hcb hshape hfuel hcnt
  have h4 := wavefront_returns_taskloop F si (resolveBlockSize grain_size block_size_x) fuel
    (initBoundary F si (⟨S, []⟩, 0)) (resolveBlockSize_ge_two grain_size block_size_x)
    hrb hcb hshape hfuel
  rw [h1] at h4
  exact ⟨r, (Option.some.inj h4).symm, h1, h2, h3⟩

/-! ## Degenerate dimensions -/

theorem forLe_writes {α : Type} (body : Nat → Mem α × Nat → Mem α × Nat) (last : Nat)
    (hbody : ∀ k s, ∃ L, (body k s).1.writes = s.1.writes ++ L) :
    ∀ (fuel first : Nat) (s r : Mem α × Nat), forLe fuel first last body s = some r →
      ∃ L, r.1.writes = s.1.writes ++ L := by
  intro fuel
  induction fuel with
  | zero => intro first s r h; simp [forLe] at h
  | succ fuel ih =>
    intro first s r h
    unfold forLe at h
    split at h
    · obtain ⟨L2, h2⟩ := ih _ _ _ h
      obtain ⟨L1, h1⟩ := hbody first s
      exact ⟨L1 ++ L2, by rw [h2, h1, List.append_assoc]⟩
    · refine ⟨[], ?_⟩
      cases h
      simp

/-- The block-diagonal loop only appends to the write log. -/
theorem wavefront_writes {α : Type} (F : FloatOps α) (si : SequenceInfo α) (bs fuel : Nat)
    (s r : Mem α × Nat) (h : wavefront F si bs fuel s = some r) :
    ∃ L, r.1.writes = s.1.writes ++ L := by
  unfold wavefront at h
  simp only at h
  generalize List.range' 0 _ = Ds at h
  induction Ds generalizing s with
  | nil =>
    refine ⟨[], ?_⟩
    cases h
    simp
  | cons d Ds ih =>
    rw [List.foldlM_cons] at h
    cases hs : forLe fuel (firstBlockRow (numBlocks si.cols bs) d)
        (lastBlockRow (numBlocks si.rows bs) d) (blockBody F si bs d) s with
    | none => rw [hs] at h; cases h
    | some s2 =>
      rw [hs] at h
      obtain ⟨L2, h2⟩ := ih s2 h
      obtain ⟨L1, h1⟩ := forLe_writes (blockBody F si bs d) _
        (fun k s => ⟨_, by rw [blockBody_eq, runCells_writes]⟩) _ _ _ _ hs
      exact ⟨L1 ++ L2, by rw [h2, h1, List.append_assoc]⟩

/-- Claim C8, counterexample.  With `rows = 0` and `cols = 2` nothing is rejected: each of
the three functions stores to `S[0][0]` and `S[0][1]` (the cell `S[0][1]`, initially 7,
becomes `-1`) and returns `visited = 2`. -/
theorem gpsa_zero_rows_not_rejected :
    (gpsa_sequential (exactOps Int) ⟨[], ['A'], 0, 2, 2, -1, -1⟩ (fun _ _ => 7)).1.writes =
      [(0, 0), (0, 1)] ∧
    (gpsa_sequential (exactOps Int) ⟨[], ['A'], 0, 2, 2, -1, -1⟩ (fun _ _ => 7)).1.S 0 1 = -1 ∧
    (gpsa_sequential (exactOps Int) ⟨[], ['A'], 0, 2, 2, -1, -1⟩ (fun _ _ => 7)).2 = 2 ∧
    (gpsa_taskloop (exactOps Int) ⟨[], ['A'], 0, 2, 2, -1, -1⟩ (fun _ _ => 7) 1 1 1).1.writes =
      [(0, 0), (0, 1)] ∧
    (gpsa_taskloop (exactOps Int) ⟨[], ['A'], 0, 2, 2, -1, -1⟩ (fun _ _ => 7) 1 1 1).1.S 0 1 =
      -1 ∧
    (gpsa_taskloop (exactOps Int) ⟨[], ['A'], 0, 2, 2, -1, -1⟩ (fun _ _ => 7) 1 1 1).2 = 2 ∧
    (gpsa_tasks (exactOps Int) ⟨[], ['A'], 0, 2, 2, -1, -1⟩ 1 (fun _ _ => 7) 1 1 1).map
      (fun r => (r.1.writes, r.1.S 0 1, r.2)) = some ([(0, 0), (0, 1)], -1, 2) := by
  decide

/-- Claim C8, amended.  With `rows = 0` or `cols = 0` no function rejects the call.
`gpsa_sequential` runs its boundary loops: the cells stored to are `S[i][0]` for
`1 ≤ i < rows` and `S[0][j]` for `j < cols`, with the values `i * gap_penalty` and
`j * gap_penalty`, every other cell keeps its contents, and the returned count is the number
of these cells (`cols` when `rows = 0`, `rows - 1` when `cols = 0`).  `gpsa_taskloop` and
`gpsa_tasks` run the same boundary loops first: the write log of `gpsa_taskloop` starts with
these cells, and so does the one of `gpsa_tasks` whenever it returns. -/
theorem gpsa_degenerate_dimensions {α : Type} (F : FloatOps α) (si : SequenceInfo α)
    (S : Nat → Nat → α) (hr : si.rows < 4294967296) (hc : si.cols < 4294967296)
    (h0 : si.rows = 0 ∨ si.cols = 0) :
    (gpsa_sequential F si S).1.writes = boundaryCells si.rows si.cols ∧
    (gpsa_sequential F si S).2 = si.rows - 1 + si.cols ∧
    (∀ i, 1 ≤ i → i < si.rows →
      (gpsa_sequential F si S).1.S i 0 = F.mul (F.ofUInt i) si.gap_penalty) ∧
    (∀ j, j < si.cols →
      (gpsa_sequential F si S).1.S 0 j = F.mul (F.ofUInt j) si.gap_penalty) ∧
    (∀ a b, (a, b) ∉ boundaryCells si.rows si.cols → (gpsa_sequential F si S).1.S a b = S a b) ∧
    (∀ grain_size block_size_x block_size_y,
      ∃ L, (gpsa_taskloop F si S grain_size block_size_x block_size_y).1.writes =
        boundaryCells si.rows si.cols ++ L) ∧
    (∀ fuel grain_size block_size_x block_size_y r,
      gpsa_tasks F si fuel S grain_size block_size_x block_size_y = some r →
        ∃ L, r.1.writes = boundaryCells si.rows si.cols ++ L) := by
  have hnil : cellsOf 1 si.rows 1 si.cols = [] := by
    apply List.eq_nil_iff_forall_not_mem.2
    intro c hc
    rw [mem_cellsOf] at hc
    omega
  have heq := gpsa_sequential_eq F si S hr.le hc.le
  rw [hnil, List.append_nil] at heq
  have hpar : ∀ fuel bs r, wavefront F si bs fuel (initBoundary F si (⟨S, []⟩, 0)) = some r →
      ∃ L, r.1.writes = boundaryCells si.rows si.cols ++ L := by
    intro fuel bs r h
    obtain ⟨L, hL⟩ := wavefront_writes F si bs fuel _ r h
    rw [initBoundary_eq, setSpec_writes] at hL
    exact ⟨L, by simpa using hL⟩
  refine ⟨?_, ?_, ?_, ?_, ?_, ?_, ?_⟩
  · rw [heq, setSpec_writes]; rfl
  · rw [heq]
    have : (si.rows - 1) * (si.cols - 1) = 0 := by
      rcases h0 with h | h <;> simp [h]
    omega
  · intro i h1 h2
    rw [heq, setSpec_S, if_pos (mem_boundaryCells.2 (Or.inl ⟨rfl, h1, h2⟩)), specCell_col]
  · intro j h
    rw [heq, setSpec_S, if_pos (mem_boundaryCells.2 (Or.inr ⟨rfl, h⟩))]
    rfl
  · intro a b hab
    rw [heq, setSpec_S, if_neg hab]
  · intro g bx bsy
    obtain ⟨L, hL⟩ := wavefrontTaskloop_writes F si (resolveBlockSize g bx)
      (initBoundary F si (⟨S, []⟩, 0))
    refine ⟨L, ?_⟩
    rw [gpsa_taskloop_def, hL, initBoundary_eq]
    simp [setSpec_writes]
  · intro fuel g bx _ r h
    unfold gpsa_tasks at h
    exact hpar fuel (resolveBlockSize g bx) r h

/-- The boundary-only run with `rows = 0`, `cols = 2`: two cells stored, count 2. -/
theorem gpsa_degenerate_dimensions_witness :
    (gpsa_sequential (exactOps Int) ⟨[], ['A'], 0, 2, 2, -1, -1⟩ (fun _ _ => 7)).1.writes =
      boundaryCells 0 2 ∧
    (gpsa_sequential (exactOps Int) ⟨[], ['A'], 0, 2, 2, -1, -1⟩ (fun _ _ => 7)).2 = 0 - 1 + 2 :=
  ⟨(gpsa_degenerate_dimensions (exactOps Int) ⟨[], ['A'], 0, 2, 2, -1, -1⟩ (fun _ _ => 7)
      (by decide) (by decide) (Or.inl rfl)).1,
    (gpsa_degenerate_dimensions (exactOps Int) ⟨[], ['A'], 0, 2, 2, -1, -1⟩ (fun _ _ => 7)
      (by decide) (by decide) (Or.inl rfl)).2.1⟩

/-! ## The tuning parameters -/

/-- Claim C11.  The parameter `block_size_y` has no effect: two runs of `gpsa_taskloop`
(of `gpsa_tasks`) that differ only in `block_size_y` are the same run, with square blocks
of side `resolveBlockSize grain_size block_size_x`; they return the same matrix and the
same visited count (for `gpsa_tasks`, or both do not return). -/
theorem block_size_y_unused {α : Type} (F : FloatOps α) (si : SequenceInfo α) (fuel : Nat)
    (S : Nat → Nat → α) (grain_size block_size_x y1 y2 : Int) :
    gpsa_taskloop F si S grain_size block_size_x y1 =
      gpsa_taskloop F si S grain_size block_size_x y2 ∧
    gpsa_tasks F si fuel S grain_size block_size_x y1 =
      gpsa_tasks F si fuel S grain_size block_size_x y2 ∧
    gpsa_taskloop F si S grain_size block_size_x y1 =
      wavefrontTaskloop F si (resolveBlockSize grain_size block_size_x)
        (initBoundary F si (⟨S, []⟩, 0)) ∧
    gpsa_tasks F si fuel S grain_size block_size_x y1 =
      wavefront F si (resolveBlockSize grain_size block_size_x) fuel
        (initBoundary F si (⟨S, []⟩, 0)) :=
  ⟨rfl, rfl, rfl, rfl⟩

/-! ## More runs that do not end -/

/-- Claim C17, the code at the failing input.  For two empty sequences (`rows = cols = 1`)
and every tuning, `num_blocks_rows = num_blocks_cols = 0`, the block-diagonal loop does not
run `0` times: its bound `num_blocks_rows + num_blocks_cols - 1` is `2^32 - 1`.  In
`gpsa_tasks` its first `block_row` loop never ends, so `gpsa_tasks` does not return, whatever
the fuel; `gpsa_taskloop` returns, with the result of `gpsa_sequential`. -/
theorem gpsa_wavefront_never_returns {α : Type} (F : FloatOps α)
    (match_score mismatch_score gap_penalty : α) (S : Nat → Nat → α) (fuel : Nat)
    (grain_size block_size_x block_size_y : Int) :
    numBlocks 1 (resolveBlockSize grain_size block_size_x) = 0 ∧
    usub (uadd (numBlocks 1 (resolveBlockSize grain_size block_size_x))
      (numBlocks 1 (resolveBlockSize grain_size block_size_x))) 1 = 4294967295 ∧
    gpsa_tasks F ⟨[], [], 1, 1, match_score, mismatch_score, gap_penalty⟩ fuel S
      grain_size block_size_x block_size_y = none ∧
    gpsa_taskloop F ⟨[], [], 1, 1, match_score, mismatch_score, gap_penalty⟩ S
      grain_size block_size_x block_size_y =
      gpsa_sequential F ⟨[], [], 1, 1, match_score, mismatch_score, gap_penalty⟩ S := by
  have h0 : numBlocks 1 (resolveBlockSize grain_size block_size_x) = 0 :=
    numBlocks_small (resolveBlockSize_ge_two _ _) (le_refl 1) (resolveBlockSize_lt _ _)
  have hb : usub (uadd 0 (numBlocks 1 (resolveBlockSize grain_size block_size_x))) 1 =
      4294967295 := by rw [h0]; decide
  have hw := wavefront_diverges F ⟨[], [], 1, 1, match_score, mismatch_score, gap_penalty⟩
    (resolveBlockSize grain_size block_size_x) fuel
    (initBoundary F ⟨[], [], 1, 1, match_score, mismatch_score, gap_penalty⟩ (⟨S, []⟩, 0))
    h0 (by rw [hb]; decide)
  refine ⟨h0, ?_, hw, ?_⟩
  · rw [h0]; decide
  · rw [gpsa_taskloop_single_row F _ S grain_size block_size_x block_size_y (le_refl 1),
      gpsa_sequential_single_row F _ S (le_refl 1)]

/-- Claim C16, the code at the failing input.  With `rows = 1`, `cols = 4` and block size 2
there are `0` block rows and `2` block columns, so `d = 0` is a diagonal of the claim
(`0 ≤ d ≤ 0 + 2 - 2`).  The claim's range `[max(0, d - 2 + 1), min(d, 0 - 1)]` is `[0, -1]`,
empty; the code iterates `[first_block_row, last_block_row] = [0, 2^32 - 1]`, and for
`block_row = 3` in it `block_col = d - block_row` is `2^32 - 3`, not below `2`. -/
theorem diagonal_range_without_block_rows :
    numBlocks 1 2 = 0 ∧ numBlocks 4 2 = 2 ∧
    firstBlockRow (numBlocks 4 2) 0 = 0 ∧ lastBlockRow (numBlocks 1 2) 0 = 4294967295 ∧
    max (0 : Int) (0 - 2 + 1) = 0 ∧ min (0 : Int) (0 - 1) = -1 ∧
    usub 0 3 = 4294967293 := by
  decide

/-! ## A block with `row_start = 0` -/

theorem forLeState_zero {σ : Type} (k last : Nat) (body : Nat → σ → σ) (s : σ) :
    forLeState 0 k last body s = s := rfl

theorem forLeState_succ {σ : Type} (n k last : Nat) (body : Nat → σ → σ) (s : σ) :
    forLeState (n + 1) k last body s =
      if k ≤ last then forLeState n (uadd k 1) last body (body k s) else s := rfl

attribute [irreducible] forLeState

/-- When the loop ends within the fuel, its result is the state observed by `forLeState`. -/
theorem forLeState_of_forLe {σ : Type} (body : Nat → σ → σ) (last : Nat) :
    ∀ (fuel first : Nat) (s r : σ), forLe fuel first last body s = some r →
      forLeState fuel first last body s = r := by
  intro fuel
  induction fuel with
  | zero => intro first s r h; simp [forLe] at h
  | succ fuel ih =>
    intro first s r h
    unfold forLe at h
    rw [forLeState_succ]
    split
    · next hle => rw [if_pos hle] at h; exact ih _ _ _ h
    · next hle => rw [if_neg hle] at h; exact (Option.some.inj h)

/-- Iterations that leave the state unchanged can be skipped. -/
theorem forLeState_skip {σ : Type} (body : Nat → σ → σ) (last : Nat) (s : σ)
    (hlast : last < 4294967296) :
    ∀ (n f first : Nat), first + n ≤ last →
      (∀ k, first ≤ k → k < first + n → body k s = s) →
      forLeState (n + f) first last body s = forLeState f (first + n) last body s := by
  intro n
  induction n with
  | zero => intro f first _ _; simp
  | succ n ih =>
    intro f first hle hid
    have e : n + 1 + f = (n + f) + 1 := by omega
    have e2 : first + 1 + n = first + (n + 1) := by omega
    rw [e, forLeState_succ, if_pos (show first ≤ last by omega),
      hid first (le_refl _) (by omega),
      uadd_of_lt (show first + 1 < 4294967296 by omega),
      ih f (first + 1) (by omega) (fun k h1 h2 => hid k (by omega) (by omega)), e2]

theorem blockBody_skipped {α : Type} (F : FloatOps α) (si : SequenceInfo α)
    (hr : si.rows = 1) (s : Mem α × Nat) (k : Nat) (hk : k < 1431655765) :
    blockBody F si 3 0 k s = s := by
  have h : uadd (umul k 3) 1 ≥ si.rows := by
    have h1 : k * 3 < 4294967296 := by omega
    have h2 : k * 3 + 1 < 4294967296 := by omega
    rw [hr, umul_of_lt h1, uadd_of_lt h2]
    omega
  unfold blockBody
  simp only
  rw [if_pos (Or.inl h)]

/-- With `rows = 1`, `cols = 5` and block size 3, the first `1431655765` iterations of the
`block_row` loop of diagonal 0 are skipped by the out-of-range guard; in the next one
`row_start = 1431655765 * 3 + 1` wraps to `0`, the guard lets the block through, and the
cell formula runs at `(0, 2)`, `(0, 3)`, `(0, 4)`. -/
theorem block_row_loop_reaches_row_zero {α : Type} (F : FloatOps α) (si : SequenceInfo α)
    (hr : si.rows = 1) (hc : si.cols = 5) (s : Mem α × Nat) :
    forLeState (1431655765 + 1) 0 4294967295 (blockBody F si 3 0) s =
      (runCells F si [(0, 2), (0, 3), (0, 4)] s.1, s.2 + 3) := by
  have hb : blockCells 1 5 3 0 1431655765 = [(0, 2), (0, 3), (0, 4)] := by decide
  have hskip := forLeState_skip (blockBody F si 3 0) 4294967295 s (by omega) 1431655765 1 0
    (by omega) (fun k _ hk => blockBody_skipped F si hr s k (by omega))
  rw [hskip, Nat.zero_add, forLeState_succ 0,
    if_pos (show 1431655765 ≤ 4294967295 by omega), forLeState_zero,
    blockBody_eq, hr, hc, hb]
  rfl

/-- Claim C12, the code at the failing input.  For `X` empty, `Y = "ACGT"` (`rows = 1`,
`cols = 5`) and `grain_size = 3`, `gpsa_sequential` and `gpsa_taskloop` store to each of the
five cells once and return `visited = 5`.  `gpsa_tasks` stores to them once in its boundary
loops; then its `block_row` loop of diagonal 0, which never ends, stores to `(0, 2)`,
`(0, 3)` and `(0, 4)` again in the block of `block_row = 1431655765`: after `1431655766`
iterations the cell `(0, 2)` has been stored to twice, and no visited count is returned. -/
theorem gpsa_tasks_writes_twice {α : Type} (F : FloatOps α)
    (match_score mismatch_score gap_penalty : α) (S : Nat → Nat → α) (fuel : Nat) :
    (gpsa_sequential F ⟨[], ['A', 'C', 'G', 'T'], 1, 5, match_score, mismatch_score,
      gap_penalty⟩ S).1.writes = [(0, 0), (0, 1), (0, 2), (0, 3), (0, 4)] ∧
    (gpsa_sequential F ⟨[], ['A', 'C', 'G', 'T'], 1, 5, match_score, mismatch_score,
      gap_penalty⟩ S).2 = 1 * 5 ∧
    (gpsa_taskloop F ⟨[], ['A', 'C', 'G', 'T'], 1, 5, match_score, mismatch_score,
      gap_penalty⟩ S 3 1 1).1.writes = [(0, 0), (0, 1), (0, 2), (0, 3), (0, 4)] ∧
    (gpsa_taskloop F ⟨[], ['A', 'C', 'G', 'T'], 1, 5, match_score, mismatch_score,
      gap_penalty⟩ S 3 1 1).2 = 1 * 5 ∧
    ((forLeState (1431655765 + 1) (firstBlockRow (numBlocks 5 (resolveBlockSize 3 1)) 0)
      (lastBlockRow (numBlocks 1 (resolveBlockSize 3 1)) 0)
      (blockBody F ⟨[], ['A', 'C', 'G', 'T'], 1, 5, match_score, mismatch_score, gap_penalty⟩
        (resolveBlockSize 3 1) 0)
      (initBoundary F ⟨[], ['A', 'C', 'G', 'T'], 1, 5, match_score, mismatch_score,
        gap_penalty⟩ (⟨S, []⟩, 0))).1.writes).count (0, 2) = 2 ∧
    gpsa_tasks F ⟨[], ['A', 'C', 'G', 'T'], 1, 5, match_score, mismatch_score, gap_penalty⟩
      fuel S 3 1 1 = none := by
  have h0 : numBlocks 1 (resolveBlockSize 3 1) = 0 := by decide
  have hb : 0 < usub (uadd 0 (numBlocks 5 (resolveBlockSize 3 1))) 1 := by decide
  have hw := wavefront_diverges F
    ⟨[], ['A', 'C', 'G', 'T'], 1, 5, match_score, mismatch_score, gap_penalty⟩
    (resolveBlockSize 3 1) fuel
    (initBoundary F ⟨[], ['A', 'C', 'G', 'T'], 1, 5, match_score, mismatch_score,
      gap_penalty⟩ (⟨S, []⟩, 0)) h0 hb
  have ht := gpsa_taskloop_single_row F
    ⟨[], ['A', 'C', 'G', 'T'], 1, 5, match_score, mismatch_score, gap_penalty⟩ S 3 1 1
    (le_refl 1)
  have e1 : firstBlockRow (numBlocks 5 (resolveBlockSize 3 1)) 0 = 0 := by decide
  have e2 : lastBlockRow (numBlocks 1 (resolveBlockSize 3 1)) 0 = 4294967295 := by decide
  have e3 : resolveBlockSize 3 1 = 3 := by decide
  refine ⟨rfl, rfl, ?_, ?_, ?_, hw⟩
  · rw [ht]; rfl
  · rw [ht]; rfl
  · rw [e1, e2, e3, block_row_loop_reaches_row_zero F _ rfl rfl]
    rfl

/-- Claim C18, the code at the failing input.  For `X` empty, `Y = "ACGT"` (`rows = 1`,
`cols = 5`) and `grain_size = 3`, `gpsa_tasks` has `num_blocks_rows = 0`,
`num_blocks_cols = 2`, one diagonal, and on it `first_block_row = 0`,
`last_block_row = 2^32 - 1`.  Its `block_row` loop never ends, and after `1431655766`
iterations it has evaluated the cell formula at `(0, 2)`, `(0, 3)`, `(0, 4)`: the block of
`block_row = 1431655765` has `row_start = 1431655765 * 3 + 1 = 0` in `unsigned int`.  There
`i = 0`, and `i - 1` is `2^32 - 1`. -/
theorem cell_formula_at_row_zero {α : Type} (F : FloatOps α)
    (match_score mismatch_score gap_penalty : α) (S : Nat → Nat → α) (fuel : Nat) :
    resolveBlockSize 3 1 = 3 ∧ numBlocks 1 3 = 0 ∧ numBlocks 5 3 = 2 ∧
    usub (uadd (numBlocks 1 3) (numBlocks 5 3)) 1 = 1 ∧
    firstBlockRow (numBlocks 5 3) 0 = 0 ∧ lastBlockRow (numBlocks 1 3) 0 = 4294967295 ∧
    uadd (umul 1431655765 3) 1 = 0 ∧
    (forLeState (1431655765 + 1) 0 4294967295
      (blockBody F ⟨[], ['A', 'C', 'G', 'T'], 1, 5, match_score, mismatch_score, gap_penalty⟩
        3 0)
      (initBoundary F ⟨[], ['A', 'C', 'G', 'T'], 1, 5, match_score, mismatch_score,
        gap_penalty⟩ (⟨S, []⟩, 0))).1.writes =
      [(0, 0), (0, 1), (0, 2), (0, 3), (0, 4), (0, 2), (0, 3), (0, 4)] ∧
    usub 0 1 = 4294967295 ∧
    gpsa_tasks F ⟨[], ['A', 'C', 'G', 'T'], 1, 5, match_score, mismatch_score, gap_penalty⟩
      fuel S 3 1 1 = none := by
  have h0 : numBlocks 1 (resolveBlockSize 3 1) = 0 := by decide
  have hb : 0 < usub (uadd 0 (numBlocks 5 (resolveBlockSize 3 1))) 1 := by decide
  have hw := wavefront_diverges F
    ⟨[], ['A', 'C', 'G', 'T'], 1, 5, match_score, mismatch_score, gap_penalty⟩
    (resolveBlockSize 3 1) fuel
    (initBoundary F ⟨[], ['A', 'C', 'G', 'T'], 1, 5, match_score, mismatch_score,
      gap_penalty⟩ (⟨S, []⟩, 0)) h0 hb
  refine ⟨by decide, by decide, by decide, by decide, by decide, by decide, by decide, ?_,
    by decide, hw⟩
  rw [block_row_loop_reaches_row_zero F _ rfl rfl]
  rfl

/-- Claim C13, the code at the failing input.  In the run of `gpsa_tasks` for `X` empty,
`Y = "ACGT"` (`rows = 1`, `cols = 5`) and `grain_size = 3`, the block of `block_row = 1431655765` on
diagonal 0 stores to the boundary cell `S[0][2]`, which held `2 * gap_penalty`, the maximum
of `S[2^32-1][1] + mismatch_score`, `S[2^32-1][2] + gap_penalty` and
`S[0][1] + gap_penalty`: it reads the cells `(2^32-1, 1)` and `(2^32-1, 2)`, which are
neither boundary cells nor cells of a block of an earlier diagonal and still hold their
initial contents. -/
theorem block_reads_outside_grid {α : Type} (F : FloatOps α)
    (match_score mismatch_score gap_penalty : α) (S : Nat → Nat → α) :
    (initBoundary F ⟨[], ['A', 'C', 'G', 'T'], 1, 5, match_score, mismatch_score,
      gap_penalty⟩ (⟨S, []⟩, 0)).1.S 0 2 = F.mul (F.ofUInt 2) gap_penalty ∧
    (forLeState (1431655765 + 1) 0 4294967295
      (blockBody F ⟨[], ['A', 'C', 'G', 'T'], 1, 5, match_score, mismatch_score, gap_penalty⟩
        3 0)
      (initBoundary F ⟨[], ['A', 'C', 'G', 'T'], 1, 5, match_score, mismatch_score,
        gap_penalty⟩ (⟨S, []⟩, 0))).1.S 0 2 =
      stdMax3 F (F.add (S 4294967295 1) mismatch_score) (F.add (S 4294967295 2) gap_penalty)
        (F.add (F.mul (F.ofUInt 1) gap_penalty) gap_penalty) ∧
    (4294967295, 1) ∉ boundaryCells 1 5 ∧ (4294967295, 2) ∉ boundaryCells 1 5 ∧
    (0, 2) ∈ boundaryCells 1 5 := by
  refine ⟨rfl, ?_, by decide, by decide, by decide⟩
  rw [block_row_loop_reaches_row_zero F _ rfl rfl]
  rfl

/-! ## Exchange of the two sequences -/

theorem specCell_succ_exact {R : Type} [LinearOrderedRing R] (si : SequenceInfo R)
    (i j : Nat) :
    specCell (exactOps R) si (i + 1) (j + 1) =
      max (max (specCell (exactOps R) si i j + subst si i j)
        (specCell (exactOps R) si i (j + 1) + si.gap_penalty))
        (specCell (exactOps R) si (i + 1) j + si.gap_penalty) := by
  show specRow (exactOps R) si (specCell (exactOps R) si i) i (j + 1) = _
  simp only [specRow, stdMax3_exact]
  rfl

theorem subst_swap {α : Type} (si : SequenceInfo α) (i j : Nat) :
    subst si.swap j i = subst si i j := by
  unfold subst SequenceInfo.swap
  simp only [eq_comm]

/-- When `<` is a strict total order on the cells, `std::max` of three cells does not
depend on the order of its last two arguments. -/
theorem stdMax3_comm {α : Type} (F : FloatOps α) (hirr : ∀ a, F.lt a a = false)
    (htrans : ∀ a b c, F.lt a b = true → F.lt b c = true → F.lt a c = true)
    (htot : ∀ a b, F.lt a b = true ∨ a = b ∨ F.lt b a = true) (a b c : α) :
    stdMax3 F a b c = stdMax3 F a c b := by
  have hasym : ∀ x y, F.lt x y = true → F.lt y x = false := by
    intro x y h
    cases h2 : F.lt y x with
    | false => rfl
    | true =>
      have h3 := htrans x y x h h2
      rw [hirr] at h3
      exact h3.symm
  unfold stdMax3
  simp only
  cases hab : F.lt a b <;> cases hac : F.lt a c
  · simp [hab, hac]
  · have hcb : F.lt c b = false := by
      cases h : F.lt c b with
      | false => rfl
      | true =>
        have h3 := htrans a c b hac h
        rw [hab] at h3
        exact h3.symm
    simp [hac, hcb]
  · have hbc : F.lt b c = false := by
      cases h : F.lt b c with
      | false => rfl
      | true =>
        have h3 := htrans a b c hab h
        rw [hac] at h3
        exact h3.symm
    simp [hab, hbc]
  · rcases htot b c with h | h | h
    · simp [h, hasym b c h]
    · subst h
      simp [hirr]
    · simp [h, hasym c b h]

/-- The matrix of the specification for `(Y, X)` is the transpose of the one for `(X, Y)`,
in every arithmetic in which `std::max` does not depend on the order of its last two
arguments. -/
theorem specCell_swap {α : Type} (F : FloatOps α) (si : SequenceInfo α)
    (hsymm : ∀ a b c, stdMax3 F a b c = stdMax3 F a c b) :
    ∀ i j, specCell F si.swap j i = specCell F si i j := by
  intro i
  induction i with
  | zero =>
    intro j
    rw [specCell_col]
    rfl
  | succ i ihi =>
    intro j
    induction j with
    | zero =>
      rw [specCell_col]
      rfl
    | succ j ihj =>
      rw [specCell_succ, specCell_succ, ihi j, ihi (j + 1), ihj, subst_swap, hsymm]
      rfl

/-- In arithmetic without rounding a value is the optimal score of `(X, Y)` exactly when it
is the optimal score of `(Y, X)`. -/
theorem isOptimalScore_swap {R : Type} [LinearOrderedRing R] (si : SequenceInfo R) (v : R) :
    IsOptimalScore si si.X si.Y v ↔ IsOptimalScore si.swap si.Y si.X v := by
  have hsymm : ∀ a b c : R, stdMax3 (exactOps R) a b c = stdMax3 (exactOps R) a c b := by
    intro a b c
    rw [stdMax3_exact, stdMax3_exact, max_assoc, max_assoc, max_comm b c]
  have o1 := specCell_optimal si si.X.length si.Y.length (le_refl _) (le_refl _)
  have o2 := specCell_optimal si.swap si.Y.length si.X.length (le_refl _) (le_refl _)
  rw [specCell_swap (exactOps R) si hsymm] at o2
  rw [List.take_length, List.take_length] at o1
  have o3 : IsOptimalScore si.swap si.Y si.X
      (specCell (exactOps R) si si.X.length si.Y.length) := by
    have e1 : si.swap.X = si.Y := rfl
    have e2 : si.swap.Y = si.X := rfl
    rw [e1, e2, List.take_length, List.take_length] at o2
    exact o2
  constructor
  · intro hv
    rw [isOptimalScore_unique si _ _ _ _ hv o1]
    exact o3
  · intro hv
    rw [isOptimalScore_unique si.swap _ _ _ _ hv o3]
    exact o1

/-- Claim C20.  In every arithmetic in which `<` is a strict total order on the cells (the
binary32 arithmetic of the code on the values that are not NaN, and arithmetic without
rounding), the matrix `T` that `gpsa_sequential` leaves for the exchanged pair `(Y, X)` is
the transpose of the matrix `S` it leaves for `(X, Y)`: `T[j][i] = S[i][j]` for
`i ≤ len(X)`, `j ≤ len(Y)`; in particular the bottom-right cells, which the caller reads as
the optimal scores of `(Y, X)` and of `(X, Y)`, are equal. -/
theorem gpsa_sequential_transpose {α : Type} (F : FloatOps α) (si : SequenceInfo α)
    (S0 T0 : Nat → Nat → α) (hirr : ∀ a, F.lt a a = false)
    (htrans : ∀ a b c, F.lt a b = true → F.lt b c = true → F.lt a c = true)
    (htot : ∀ a b, F.lt a b = true ∨ a = b ∨ F.lt b a = true)
    (hX : si.rows = si.X.length + 1) (hY : si.cols = si.Y.length + 1)
    (hr : si.rows < 4294967296) (hc : si.cols < 4294967296) :
    (∀ i j, i ≤ si.X.length → j ≤ si.Y.length →
      (gpsa_sequential F si.swap T0).1.S j i = (gpsa_sequential F si S0).1.S i j) ∧
    (gpsa_sequential F si.swap T0).1.S (si.swap.rows - 1) (si.swap.cols - 1) =
      (gpsa_sequential F si S0).1.S (si.rows - 1) (si.cols - 1) := by
  have hs : si.swap.rows = si.cols ∧ si.swap.cols = si.rows := ⟨rfl, rfl⟩
  have key := gpsa_sequential_S F si S0 hr.le hc.le (by omega) (by omega)
  have keyT := gpsa_sequential_S F si.swap T0 (by rw [hs.1]; omega)
    (by rw [hs.2]; omega) (by rw [hs.1]; omega) (by rw [hs.2]; omega)
  have h : ∀ i j, i < si.rows → j < si.cols →
      (gpsa_sequential F si.swap T0).1.S j i = (gpsa_sequential F si S0).1.S i j := by
    intro i j hi hj
    rw [keyT, key, if_pos (show j < si.swap.rows ∧ i < si.swap.cols from ⟨hj, hi⟩),
      if_pos ⟨hi, hj⟩, specCell_swap F si (stdMax3_comm F hirr htrans htot)]
  refine ⟨fun i j hi hj => h i j (by omega) (by omega), ?_⟩
  rw [hs.1, hs.2]
  exact h _ _ (by omega) (by omega)

/-- The binary32 matrices for `(AAA, A)` and `(A, AAA)` with `gap_penalty = 16777215`, where
products and sums round, agree at the cells `(3, 1)` and `(1, 3)`. -/
theorem gpsa_sequential_transpose_witness :
    (gpsa_sequential binary32Ops
      (SequenceInfo.swap ⟨['A', 'A', 'A'], ['A'], 4, 2, 2, -1, 16777215⟩) (fun _ _ => 5)).1.S 1 3 =
    (gpsa_sequential binary32Ops ⟨['A', 'A', 'A'], ['A'], 4, 2, 2, -1, 16777215⟩
      (fun _ _ => 0)).1.S 3 1 :=
  (gpsa_sequential_transpose binary32Ops ⟨['A', 'A', 'A'], ['A'], 4, 2, 2, -1, 16777215⟩
    (fun _ _ => 0) (fun _ _ => 5)
    (fun a => decide_eq_false (lt_irrefl a))
    (fun _ _ _ h1 h2 => decide_eq_true (lt_trans (of_decide_eq_true h1) (of_decide_eq_true h2)))
    (fun a b => (lt_trichotomy a b).imp decide_eq_true (Or.imp id decide_eq_true))
    rfl rfl (by decide) (by decide)).1 3 1 (by decide) (by decide)

/-! ## The block decomposition -/

/-- Claim C15, counterexample.  With `rows = cols = 2` and `block_size = 2^32 - 1` there is
one block row, `ceil(1 / block_size) = 1`, and block `(0, 0)` has `row_start = 1 < rows`;
but `row_start + block_size` wraps to `0`, the code's `row_end` is `0` and not
`min(row_start + block_size, rows) = 2`, and the block covers no cell: the interior cell
`(1, 1)` is in no block. -/
theorem block_range_wraps :
    numBlocks 2 4294967295 = 1 ∧ (2 - 1 + 4294967295 - 1) / 4294967295 = 1 ∧
    uadd (umul 0 4294967295) 1 = 1 ∧
    (if uadd 1 4294967295 < 2 then uadd 1 4294967295 else 2) = 0 ∧
    min (1 + 4294967295) 2 = 2 ∧
    blockCells 2 2 4294967295 0 0 = [] ∧
    waveCells 2 2 4294967295 = [] := by
  decide

theorem numBlocks_ceil {n bs : Nat} (hbs : 2 ≤ bs) (hn : 1 ≤ n) (h : n + bs ≤ 4294967296) :
    numBlocks n bs = (n - 1 + bs - 1) / bs ∧ n - 1 ≤ numBlocks n bs * bs ∧
      numBlocks n bs * bs < n - 1 + bs := by
  have key : numBlocks n bs = (n - 1 + bs - 1) / bs := by
    rcases Nat.lt_or_ge n 2 with h1 | h2
    · rw [numBlocks_small hbs (by omega) (by omega)]
      exact (Nat.div_eq_of_lt (by omega)).symm
    · rw [numBlocks_eq hbs h2 h]
      have : n - 1 + bs - 1 = (n - 2) + bs := by omega
      rw [this, Nat.add_div_right _ (by omega)]
  refine ⟨key, ?_, ?_⟩
  · rw [key]
    have := Nat.lt_div_mul_add (a := n - 1 + bs - 1) (b := bs) (by omega)
    generalize (n - 1 + bs - 1) / bs * bs = p at *
    omega
  · rw [key]
    have := Nat.div_mul_le_self (n - 1 + bs - 1) bs
    generalize (n - 1 + bs - 1) / bs * bs = p at *
    omega

/-- Claim C15, amended.  When `rows + block_size ≤ 2^32` and `cols + block_size ≤ 2^32`
(no `unsigned int` expression wraps), the code's `num_blocks_rows` and `num_blocks_cols`
are `ceil((rows-1)/block_size)` and `ceil((cols-1)/block_size)`, and every block
`(block_row, block_col)` of that grid has `row_start = block_row * block_size + 1 < rows`
and `col_start = block_col * block_size + 1 < cols`, covers the non-empty range
`[row_start, min(row_start + block_size, rows)) x [col_start, min(col_start + block_size,
cols))` of at most `block_size * block_size` cells, with a full side except possibly in
the last block row or column; the blocks partition the interior: a cell lies in a block
exactly when it is an interior cell, and then in one block only. -/
theorem block_decomposition {rows cols bs : Nat} (hbs : 2 ≤ bs) (hr1 : 1 ≤ rows)
    (hc1 : 1 ≤ cols) (hrb : rows + bs ≤ 4294967296) (hcb : cols + bs ≤ 4294967296) :
    (numBlocks rows bs = (rows - 1 + bs - 1) / bs ∧ rows - 1 ≤ numBlocks rows bs * bs ∧
      numBlocks rows bs * bs < rows - 1 + bs) ∧
    (numBlocks cols bs = (cols - 1 + bs - 1) / bs ∧ cols - 1 ≤ numBlocks cols bs * bs ∧
      numBlocks cols bs * bs < cols - 1 + bs) ∧
    (∀ br bc, br < numBlocks rows bs → bc < numBlocks cols bs →
      usub (br + bc) br = bc ∧
      uadd (umul br bs) 1 = br * bs + 1 ∧ br * bs + 1 < rows ∧
      uadd (umul bc bs) 1 = bc * bs + 1 ∧ bc * bs + 1 < cols ∧
      blockCells rows cols bs (br + bc) br =
        cellsOf (br * bs + 1) (min (br * bs + 1 + bs) rows)
          (bc * bs + 1) (min (bc * bs + 1 + bs) cols) ∧
      blockCells rows cols bs (br + bc) br ≠ [] ∧
      (blockCells rows cols bs (br + bc) br).length ≤ bs * bs ∧
      (br + 1 < numBlocks rows bs → min (br * bs + 1 + bs) rows - (br * bs + 1) = bs) ∧
      (bc + 1 < numBlocks cols bs → min (bc * bs + 1 + bs) cols - (bc * bs + 1) = bs)) ∧
    (∀ c : Nat × Nat, ((1 ≤ c.1 ∧ c.1 < rows) ∧ (1 ≤ c.2 ∧ c.2 < cols)) ↔
      ∃ br bc, br < numBlocks rows bs ∧ bc < numBlocks cols bs ∧
        c ∈ blockCells rows cols bs (br + bc) br) ∧
    (∀ (c : Nat × Nat) (br bc br2 bc2 : Nat), br < numBlocks rows bs →
      bc < numBlocks cols bs → br2 < numBlocks rows bs → bc2 < numBlocks cols bs →
      c ∈ blockCells rows cols bs (br + bc) br → c ∈ blockCells rows cols bs (br2 + bc2) br2 →
      br = br2 ∧ bc = bc2) := by
  have hcr := numBlocks_ceil hbs hr1 hrb
  have hcc := numBlocks_ceil hbs hc1 hcb
  -- a block exists only when there are at least two rows and two columns
  have hex : ∀ br bc, br < numBlocks rows bs → bc < numBlocks cols bs →
      2 ≤ rows ∧ 2 ≤ cols ∧ br ≤ (rows - 2) / bs ∧ bc ≤ (cols - 2) / bs := by
    intro br bc hbr hbc
    have h2r : 2 ≤ rows := by
      by_contra hlt
      rw [numBlocks_small hbs (by omega) (by omega)] at hbr
      omega
    have h2c : 2 ≤ cols := by
      by_contra hlt
      rw [numBlocks_small hbs (by omega) (by omega)] at hbc
      omega
    rw [numBlocks_eq hbs h2r hrb] at hbr
    rw [numBlocks_eq hbs h2c hcb] at hbc
    exact ⟨h2r, h2c, by omega, by omega⟩
  have hmem : ∀ (c : Nat × Nat) br bc, br < numBlocks rows bs → bc < numBlocks cols bs →
      (c ∈ blockCells rows cols bs (br + bc) br ↔
        (1 ≤ c.1 ∧ c.1 < rows ∧ (c.1 - 1) / bs = br) ∧
        (1 ≤ c.2 ∧ c.2 < cols ∧ (c.2 - 1) / bs = bc)) := by
    intro c br bc hbr hbc
    obtain ⟨h2r, h2c, h3, h4⟩ := hex br bc hbr hbc
    have e : br + bc - br = bc := by omega
    rw [mem_blockCells hbs hrb hcb h2r h2c h3 (by omega) (by rw [e]; exact h4), e]
  refine ⟨hcr, hcc, ?_, ?_, ?_⟩
  · intro br bc hbr hbc
    obtain ⟨h2r, h2c, h3, h4⟩ := hex br bc hbr hbc
    have hp := block_mul_le h3
    have hq := block_mul_le h4
    have hp2 := two_mul_le_block hbs br
    have hq2 := two_mul_le_block hbs bc
    have e : br + bc - br = bc := by omega
    have hb := blockCells_eq hbs hrb hcb h2r h2c h3 (show br ≤ br + bc by omega)
      (by rw [e]; exact h4)
    rw [e] at hb
    have hnr := numBlocks_eq hbs h2r hrb
    have hnc := numBlocks_eq hbs h2c hcb
    refine ⟨(usub_of_le (by omega) (by omega)).trans e, ?_, by omega, ?_, by omega, hb,
      ?_, ?_, ?_, ?_⟩
    · rw [umul_of_lt (by omega), uadd_of_lt (by omega)]
    · rw [umul_of_lt (by omega), uadd_of_lt (by omega)]
    · intro hnil
      have hin : (br * bs + 1, bc * bs + 1) ∈ blockCells rows cols bs (br + bc) br := by
        rw [hb, mem_cellsOf]
        simp only [lt_min_iff]
        omega
      rw [hnil] at hin
      exact List.not_mem_nil _ hin
    · exact (length_blockCells_le rows cols bs (br + bc) br).1
    · intro hlast
      rw [hnr] at hlast
      have : (br + 1) * bs ≤ rows - 2 := block_mul_le (by omega)
      rw [Nat.add_mul, Nat.one_mul] at this
      rw [min_eq_left (by omega)]
      omega
    · intro hlast
      rw [hnc] at hlast
      have : (bc + 1) * bs ≤ cols - 2 := block_mul_le (by omega)
      rw [Nat.add_mul, Nat.one_mul] at this
      rw [min_eq_left (by omega)]
      omega
  · intro c
    constructor
    · rintro ⟨hi, hj⟩
      have h2r : 2 ≤ rows := by omega
      have h2c : 2 ≤ cols := by omega
      have hbr : (c.1 - 1) / bs ≤ (rows - 2) / bs := Nat.div_le_div_right (by omega)
      have hbc : (c.2 - 1) / bs ≤ (cols - 2) / bs := Nat.div_le_div_right (by omega)
      have b1 : (c.1 - 1) / bs < numBlocks rows bs := by
        rw [numBlocks_eq hbs h2r hrb]; exact Nat.lt_succ_of_le hbr
      have b2 : (c.2 - 1) / bs < numBlocks cols bs := by
        rw [numBlocks_eq hbs h2c hcb]; exact Nat.lt_succ_of_le hbc
      exact ⟨_, _, b1, b2, (hmem c _ _ b1 b2).2 ⟨⟨hi.1, hi.2, rfl⟩, ⟨hj.1, hj.2, rfl⟩⟩⟩
    · rintro ⟨br, bc, hbr, hbc, hc⟩
      rw [hmem c br bc hbr hbc] at hc
      exact ⟨⟨hc.1.1, hc.1.2.1⟩, ⟨hc.2.1, hc.2.2.1⟩⟩
  · intro c br bc br2 bc2 h1 h2 h3 h4 hc hc2
    rw [hmem c br bc h1 h2] at hc
    rw [hmem c br2 bc2 h3 h4] at hc2
    exact ⟨hc.1.2.2.symm.trans hc2.1.2.2, hc.2.2.2.symm.trans hc2.2.2.2⟩

/-- The decomposition of a 6 x 4 grid into blocks of side 2: three block rows, two block
columns, and block `(2, 1)` is the single cell `(5, 3)`. -/
theorem block_decomposition_witness :
    numBlocks 6 2 = (6 - 1 + 2 - 1) / 2 ∧
    blockCells 6 4 2 (2 + 1) 2 = cellsOf (2 * 2 + 1) (min (2 * 2 + 1 + 2) 6)
      (1 * 2 + 1) (min (1 * 2 + 1 + 2) 4) :=
  ⟨(@block_decomposition 6 4 2 (by decide) (by decide) (by decide)
      (by decide) (by decide)).1.1,
    ((@block_decomposition 6 4 2 (by decide) (by decide) (by decide)
      (by decide) (by decide)).2.2.1 2 1 (by decide) (by decide)).2.2.2.2.2.1⟩

/-! ## Independence of the blocks of a diagonal -/

theorem diagCells_eq_blockRows (rows cols bs d : Nat) :
    diagCells rows cols bs d = (blockRows rows cols bs d).flatMap (blockCells rows cols bs d) :=
  rfl

/-- The block rows of a diagonal name blocks of the grid. -/
theorem blockRows_bounds {rows cols bs d br : Nat} (hbs : 2 ≤ bs)
    (hrb : rows + bs ≤ 4294967296) (hcb : cols + bs ≤ 4294967296) (hr2 : 2 ≤ rows)
    (hd : d < usub (uadd (numBlocks rows bs) (numBlocks cols bs)) 1)
    (hbr : br ∈ blockRows rows cols bs d) :
    2 ≤ cols ∧ br ≤ (rows - 2) / bs ∧ br ≤ d ∧ d - br ≤ (cols - 2) / bs := by
  have hR := rowBlocks_small rows hbs
  have hC := rowBlocks_small cols hbs
  obtain ⟨hb, hnc⟩ := diagBound_eq hbs hrb hcb hr2
  have hnr := numBlocks_eq hbs hr2 hrb
  rw [hb] at hd
  unfold blockRows at hbr
  rw [firstBlockRow_eq (by split_ifs at hnc <;> omega), lastBlockRow_eq (by omega) (by omega),
    hnr, List.mem_range'_1] at hbr
  by_cases hc2 : 2 ≤ cols
  · rw [if_pos hc2] at hnc
    rw [hnc] at hd hbr
    refine ⟨hc2, ?_⟩
    split_ifs at hbr <;> omega
  · rw [if_neg hc2] at hnc
    rw [hnc] at hd hbr
    split_ifs at hbr <;> omega

/-- A block of diagonal `d` is a schedule after the boundary and the blocks of the
diagonals before `d`. -/
theorem sched_block {rows cols bs d br : Nat} (P : List (Nat × Nat)) (hbs : 2 ≤ bs)
    (hrb : rows + bs ≤ 4294967296) (hcb : cols + bs ≤ 4294967296) (hr2 : 2 ≤ rows)
    (hd : d < usub (uadd (numBlocks rows bs) (numBlocks cols bs)) 1)
    (hbr : br ∈ blockRows rows cols bs d)
    (hprev : ∀ c : Nat × Nat, c ∈ P ↔
      (1 ≤ c.1 ∧ c.1 < rows) ∧ (1 ≤ c.2 ∧ c.2 < cols) ∧ (c.1 - 1) / bs + (c.2 - 1) / bs < d) :
    Sched (boundaryCells rows cols ++ P) (blockCells rows cols bs d br) := by
  obtain ⟨hc2, h1, h2, h3⟩ := blockRows_bounds hbs hrb hcb hr2 hd hbr
  rw [blockCells_eq hbs hrb hcb hr2 hc2 h1 h2 h3]
  have hp := block_mul_le h1
  have hq := block_mul_le h3
  apply sched_cellsOf
  · exact le_trans (min_le_right _ _) (by omega)
  · exact le_trans (min_le_right _ _) (by omega)
  · omega
  · omega
  · intro i j hi1 hi2 hj1 hj2
    rw [lt_min_iff] at hi2 hj2
    obtain ⟨a1, a2, a3⟩ := pred_block hbs hi1 hi2.1
    obtain ⟨b1, b2, b3⟩ := pred_block hbs hj1 hj2.1
    simp only [List.mem_append, mem_boundaryCells, hprev]
    generalize (i - 1) / bs = qi at *
    generalize (j - 1) / bs = qj at *
    generalize (i - 1 - 1) / bs = qi' at *
    generalize (j - 1 - 1) / bs = qj' at *
    generalize br * bs = pr at *
    generalize (d - br) * bs = pc at *
    omega

theorem sched_flatMap_list (W : List (Nat × Nat)) (f : Nat → List (Nat × Nat)) (L : List Nat)
    (h : ∀ k ∈ L, Sched W (f k)) : Sched W (L.flatMap f) := by
  induction L with
  | nil => exact sched_nil W
  | cons a L ih =>
    rw [List.flatMap_cons, sched_append]
    refine ⟨h a (List.mem_cons_self _ _), ?_⟩
    exact sched_mono (fun x hx => List.mem_append_left _ hx)
      (ih (fun k hk => h k (List.mem_cons_of_mem _ hk)))

/-- The cell formula along a list depends only on the cells it reads and stores to. -/
theorem runCells_congr {α : Type} (F : FloatOps α) (si : SequenceInfo α)
    (A : Nat × Nat → Prop) (L : List (Nat × Nat)) :
    ∀ (m m2 : Mem α), (∀ c ∈ L, ∀ x ∈ readsOf c, A x) →
      (∀ x, A x → m.S x.1 x.2 = m2.S x.1 x.2) →
      ∀ x, A x → (runCells F si L m).S x.1 x.2 = (runCells F si L m2).S x.1 x.2 := by
  induction L with
  | nil => intro m m2 _ h x hx; exact h x hx
  | cons c L ih =>
    intro m m2 hA h x hx
    have hc := hA c (List.mem_cons_self _ _)
    have r1 := h _ (hc (usub c.1 1, usub c.2 1) (by simp [readsOf]))
    have r2 := h _ (hc (usub c.1 1, c.2) (by simp [readsOf]))
    have r3 := h _ (hc (c.1, usub c.2 1) (by simp [readsOf]))
    simp only at r1 r2 r3
    have step : ∀ y, A y → (cellUpdate F si m c.1 c.2).S y.1 y.2 =
        (cellUpdate F si m2 c.1 c.2).S y.1 y.2 := by
      intro y hy
      simp only [cellUpdate, setCell, r1, r2, r3]
      split
      · rfl
      · exact h y hy
    exact ih _ _ (fun c2 hc2 => hA c2 (List.mem_cons_of_mem _ hc2)) step x hx

/-- Two distinct blocks of a diagonal: the cells of one are neither cells of the other nor
read by the other. -/
theorem blocks_disjoint {rows cols bs d br br2 : Nat} (hbs : 2 ≤ bs)
    (hrb : rows + bs ≤ 4294967296) (hcb : cols + bs ≤ 4294967296) (hr2 : 2 ≤ rows)
    (hd : d < usub (uadd (numBlocks rows bs) (numBlocks cols bs)) 1)
    (hbr : br ∈ blockRows rows cols bs d) (hbr2 : br2 ∈ blockRows rows cols bs d)
    (hne : br ≠ br2) (c : Nat × Nat) (hc : c ∈ blockCells rows cols bs d br) :
    c ∉ blockCells rows cols bs d br2 ∧ ∀ x ∈ readsOf c, x ∉ blockCells rows cols bs d br2 := by
  obtain ⟨hc2, h1, h2, h3⟩ := blockRows_bounds hbs hrb hcb hr2 hd hbr
  obtain ⟨-, k1, k2, k3⟩ := blockRows_bounds hbs hrb hcb hr2 hd hbr2
  rw [mem_blockCells hbs hrb hcb hr2 hc2 h1 h2 h3] at hc
  have e1 : usub c.1 1 = c.1 - 1 := usub_one hc.1.1 (by omega)
  have e2 : usub c.2 1 = c.2 - 1 := usub_one hc.2.1 (by omega)
  have m1 : (c.1 - 1 - 1) / bs ≤ (c.1 - 1) / bs := Nat.div_le_div_right (by omega)
  have m2 : (c.2 - 1 - 1) / bs ≤ (c.2 - 1) / bs := Nat.div_le_div_right (by omega)
  constructor
  · rw [mem_blockCells hbs hrb hcb hr2 hc2 k1 k2 k3]
    intro h
    exact hne (hc.1.2.2.symm.trans h.1.2.2)
  · intro x hx
    simp only [readsOf, e1, e2, List.mem_cons, List.mem_singleton, List.not_mem_nil,
      or_false] at hx
    rw [mem_blockCells hbs hrb hcb hr2 hc2 k1 k2 k3]
    intro h
    rcases hx with rfl | rfl | rfl <;>
    · simp only at h
      generalize (c.1 - 1) / bs = q1 at *
      generalize (c.2 - 1) / bs = q2 at *
      generalize (c.1 - 1 - 1) / bs = q3 at *
      generalize (c.2 - 1 - 1) / bs = q4 at *
      omega

/-- Runs of the cell formula along two lists commute on the matrix when neither list
stores to a cell that the other reads or stores to. -/
theorem runCells_comm {α : Type} (F : FloatOps α) (si : SequenceInfo α)
    (L1 L2 : List (Nat × Nat))
    (h12 : ∀ c ∈ L1, c ∉ L2 ∧ ∀ x ∈ readsOf c, x ∉ L2)
    (h21 : ∀ c ∈ L2, c ∉ L1 ∧ ∀ x ∈ readsOf c, x ∉ L1) (m : Mem α) :
    (runCells F si L1 (runCells F si L2 m)).S = (runCells F si L2 (runCells F si L1 m)).S := by
  funext a b
  by_cases h1 : (a, b) ∈ L1
  · have hA := runCells_congr F si (fun x => x ∉ L2) L1 (runCells F si L2 m) m
      (fun c hc => (h12 c hc).2) (fun x hx => runCells_frame F si L2 m x.1 x.2 hx)
      (a, b) (h12 _ h1).1
    simp only at hA
    rw [hA, runCells_frame F si L2 _ a b (h12 _ h1).1]
  · by_cases h2 : (a, b) ∈ L2
    · have hA := runCells_congr F si (fun x => x ∉ L1) L2 (runCells F si L1 m) m
        (fun c hc => (h21 c hc).2) (fun x hx => runCells_frame F si L1 m x.1 x.2 hx)
        (a, b) h1
      simp only at hA
      rw [hA, runCells_frame F si L1 _ a b h1]
    · rw [runCells_frame F si L1 _ a b h1, runCells_frame F si L2 _ a b h2,
        runCells_frame F si L2 _ a b h2, runCells_frame F si L1 _ a b h1]

theorem foldl_run_summed {α : Type} (F : FloatOps α) (si : SequenceInfo α)
    (f : Nat → List (Nat × Nat)) (g : Nat → Nat) (L : List Nat) (s : Mem α × Nat) :
    L.foldl (fun s k => (runCells F si (f k) s.1, s.2 + g k)) s =
      (runCells F si (L.flatMap f) s.1, s.2 + (L.map g).sum) := by
  induction L generalizing s with
  | nil => simp [runCells]
  | cons a L ih =>
    simp only [List.foldl_cons, ih, List.flatMap_cons, runCells_append, List.map_cons,
      List.sum_cons]
    congr 1
    omega

/-- The run `wavefrontInOrder` applies the cell formula along `waveCellsInOrder` and adds
the `local_count`s of its blocks to `visited`. -/
theorem wavefrontInOrder_eq {α : Type} (F : FloatOps α) (si : SequenceInfo α) (bs : Nat)
    (order : Nat → List Nat) (s : Mem α × Nat) :
    wavefrontInOrder F si bs order s =
      (runCells F si (waveCellsInOrder si.rows si.cols bs order) s.1,
        s.2 + waveCountInOrder si.rows si.cols bs order) := by
  unfold wavefrontInOrder waveCellsInOrder waveCountInOrder
  have hbody : ∀ d, (fun (s : Mem α × Nat) k => blockBody F si bs d k s) =
      (fun (s : Mem α × Nat) k => (runCells F si (blockCells si.rows si.cols bs d k) s.1,
        s.2 + (blockCells si.rows si.cols bs d k).length % 4294967296)) := by
    intro d
    funext s k
    rw [blockBody_eq]
  simp only [hbody, foldl_run_summed]

/-- In any order of the blocks within the diagonals, the visited cells are those of the
code's order. -/
theorem waveCellsInOrder_perm (rows cols bs : Nat) (order : Nat → List Nat)
    (hperm : ∀ d, d < usub (uadd (numBlocks rows bs) (numBlocks cols bs)) 1 →
      (order d).Perm (blockRows rows cols bs d)) (n : Nat)
    (hn : n ≤ usub (uadd (numBlocks rows bs) (numBlocks cols bs)) 1) :
    ((List.range' 0 n).flatMap
      (fun d => (order d).flatMap (blockCells rows cols bs d))).Perm
      ((List.range' 0 n).flatMap (diagCells rows cols bs)) := by
  apply List.Perm.flatMap_left
  intro d hd
  have hd2 := (List.mem_range'_1.1 hd).2
  rw [diagCells_eq_blockRows]
  exact List.Perm.flatMap_right _ (hperm d (by omega))

/-- In any order of the blocks within the diagonals, the `local_count`s add up to the same
number. -/
theorem waveCountInOrder_perm (rows cols bs : Nat) (order : Nat → List Nat)
    (hperm : ∀ d, d < usub (uadd (numBlocks rows bs) (numBlocks cols bs)) 1 →
      (order d).Perm (blockRows rows cols bs d)) :
    waveCountInOrder rows cols bs order =
      waveCountInOrder rows cols bs (blockRows rows cols bs) := by
  unfold waveCountInOrder
  exact congrArg List.sum (List.map_congr_left (fun d hd =>
    ((hperm d (by have := (List.mem_range'_1.1 hd).2; omega)).map _).sum_eq))

theorem waveCellsInOrder_blockRows (rows cols bs : Nat) :
    waveCellsInOrder rows cols bs (blockRows rows cols bs) = waveCells rows cols bs := rfl

theorem sched_waveCellsInOrder {rows cols bs : Nat} (order : Nat → List Nat) (hbs : 2 ≤ bs)
    (hrb : rows + bs ≤ 4294967296) (hcb : cols + bs ≤ 4294967296) (hr2 : 2 ≤ rows)
    (hperm : ∀ d, d < usub (uadd (numBlocks rows bs) (numBlocks cols bs)) 1 →
      (order d).Perm (blockRows rows cols bs d)) :
    Sched (boundaryCells rows cols) (waveCellsInOrder rows cols bs order) := by
  unfold waveCellsInOrder
  apply sched_flatMap_range'
  intro d hd
  rw [Nat.zero_add]
  apply sched_flatMap_list
  intro br hbr
  refine sched_block _ hbs hrb hcb hr2 hd ((hperm d hd).mem_iff.1 hbr) ?_
  intro c
  rw [(waveCellsInOrder_perm rows cols bs order hperm d hd.le).mem_iff]
  exact mem_prevDiags hbs hrb hcb hr2 hd.le

/-- With at least two rows and no wrap-around of `rows + block_size`, `cols + block_size`,
`wavefrontInOrder` stores the values of the specification along `waveCellsInOrder`,
whatever the order within the diagonals. -/
theorem wavefrontInOrder_correct {α : Type} (F : FloatOps α) (si : SequenceInfo α) (bs : Nat)
    (order : Nat → List Nat) (S : Nat → Nat → α) (hbs : 2 ≤ bs)
    (hrb : si.rows + bs ≤ 4294967296) (hcb : si.cols + bs ≤ 4294967296) (hr2 : 2 ≤ si.rows)
    (hperm : ∀ d, d < usub (uadd (numBlocks si.rows bs) (numBlocks si.cols bs)) 1 →
      (order d).Perm (blockRows si.rows si.cols bs d)) :
    wavefrontInOrder F si bs order (initBoundary F si (⟨S, []⟩, 0)) =
      (setSpec F si (boundaryCells si.rows si.cols ++ waveCellsInOrder si.rows si.cols bs order)
          ⟨S, []⟩,
        si.rows - 1 + si.cols + waveCountInOrder si.rows si.cols bs order) := by
  rw [wavefrontInOrder_eq F si bs order, initBoundary_eq]
  simp only [Nat.zero_add]
  rw [runCells_eq_setSpec, ← setSpec_append]
  · exact agrees_setSpec F si _ _ (by intro c hc; simp at hc)
  · rw [setSpec_writes]
    simpa using sched_waveCellsInOrder order hbs hrb hcb hr2 hperm

/-- When every `block_row` loop of `gpsa_tasks` ends, its block-diagonal loop is the run
of the blocks in the order `blockRows`. -/
theorem wavefront_eq_inOrder {α : Type} (F : FloatOps α) (si : SequenceInfo α) (bs fuel : Nat)
    (s : Mem α × Nat)
    (hend : ∀ d, d < usub (uadd (numBlocks si.rows bs) (numBlocks si.cols bs)) 1 →
      lastBlockRow (numBlocks si.rows bs) d < 4294967295 ∧
      lastBlockRow (numBlocks si.rows bs) d + 1 - firstBlockRow (numBlocks si.cols bs) d < fuel) :
    wavefront F si bs fuel s =
      some (wavefrontInOrder F si bs (blockRows si.rows si.cols bs) s) := by
  unfold wavefront wavefrontInOrder
  simp only
  apply foldlM_some
  intro d hd s
  have hd2 := (List.mem_range'_1.1 hd).2
  obtain ⟨h1, h2⟩ := hend d (by omega)
  rw [forLe_eq _ _ h1 _ _ _ h2]
  rfl

/-- With at least two rows and no wrap-around of `rows + block_size`, `cols + block_size`,
the block-diagonal loop of `gpsa_taskloop`, started after the boundary loops, stores the
values of the specification along `waveCells`; the count it adds does not depend on the
initial matrix. -/
theorem wavefrontTaskloop_correct {α : Type} (F : FloatOps α) (si : SequenceInfo α) (bs : Nat)
    (S : Nat → Nat → α) (hbs : 2 ≤ bs) (hrb : si.rows + bs ≤ 4294967296)
    (hcb : si.cols + bs ≤ 4294967296) (hr2 : 2 ≤ si.rows) :
    wavefrontTaskloop F si bs (initBoundary F si (⟨S, []⟩, 0)) =
      (setSpec F si (boundaryCells si.rows si.cols ++ waveCells si.rows si.cols bs) ⟨S, []⟩,
        si.rows - 1 + si.cols +
          waveCountInOrder si.rows si.cols bs (blockRows si.rows si.cols bs)) := by
  have hend := @block_row_loops_end si.rows si.cols bs si.rows hbs hrb hcb hr2 (le_refl _)
  have h1 := wavefront_eq_taskloop F si bs si.rows (initBoundary F si (⟨S, []⟩, 0)) hend
  have h2 := wavefront_eq_inOrder F si bs si.rows (initBoundary F si (⟨S, []⟩, 0)) hend
  rw [h1] at h2
  rw [Option.some.inj h2,
    wavefrontInOrder_correct F si bs _ S hbs hrb hcb hr2 (fun d _ => List.Perm.refl _),
    waveCellsInOrder_blockRows]

/-- Without wrap-around of `rows + block_size` and `cols + block_size`, `gpsa_taskloop`
leaves the matrix of the specification in the grid, and its count does not depend on the
initial matrix. -/
theorem gpsa_taskloop_grid {α : Type} (F : FloatOps α) (si : SequenceInfo α)
    (S : Nat → Nat → α) (grain_size block_size_x block_size_y : Int)
    (hr1 : 1 ≤ si.rows)
    (hrb : si.rows + resolveBlockSize grain_size block_size_x ≤ 4294967296)
    (hcb : si.cols + resolveBlockSize grain_size block_size_x ≤ 4294967296) :
    (∀ i j, i < si.rows → j < si.cols →
      (gpsa_taskloop F si S grain_size block_size_x block_size_y).1.S i j =
        specCell F si i j) ∧
    (gpsa_taskloop F si S grain_size block_size_x block_size_y).2 =
      si.rows - 1 + si.cols + (if 2 ≤ si.rows then
        waveCountInOrder si.rows si.cols (resolveBlockSize grain_size block_size_x)
          (blockRows si.rows si.cols (resolveBlockSize grain_size block_size_x)) else 0) := by
  have hbs := resolveBlockSize_ge_two grain_size block_size_x
  by_cases hr2 : 2 ≤ si.rows
  · rw [gpsa_taskloop_def, wavefrontTaskloop_correct F si _ S hbs hrb hcb hr2, if_pos hr2]
    refine ⟨?_, rfl⟩
    intro i j hi hj
    have hmem : (i, j) ∈ boundaryCells si.rows si.cols ++
        waveCells si.rows si.cols (resolveBlockSize grain_size block_size_x) := by
      rw [List.mem_append, mem_boundaryCells, mem_waveCells hbs hrb hcb hr2]
      simp only
      omega
    show (setSpec F si _ ⟨S, []⟩).S i j = _
    rw [setSpec_S, if_pos hmem]
  · rw [gpsa_taskloop_single_row F si S grain_size block_size_x block_size_y (by omega),
      initBoundary_eq, if_neg hr2]
    refine ⟨?_, by simp⟩
    intro i j hi hj
    have hmem : (i, j) ∈ boundaryCells si.rows si.cols := by
      rw [mem_boundaryCells]
      simp only
      omega
    show (setSpec F si _ _).S i j = _
    rw [setSpec_S, if_pos hmem]

/-- Claim C14, counterexample.  With `rows = cols = 65538` and `block_size = 2^32 - 2^16`
(`grain_size = 4294901760`), `rows - 1 + block_size - 1` wraps to `0`, so
`num_blocks_rows = num_blocks_cols = 0`, the block-diagonal loop has `2^32 - 1` diagonals
and on diagonal 0 `block_row` runs from `1` to `last_block_row = 2^32 - 1`.  The distinct
block rows `65536` and `131072` of that diagonal both have `row_start = col_start = 1` and
both cover the whole interior: the cell `(1, 1)` is stored to by both blocks.  `gpsa_tasks`
does not return on this input. -/
theorem blocks_overlap_after_wrap :
    resolveBlockSize 4294901760 1 = 4294901760 ∧
    numBlocks 65538 4294901760 = 0 ∧
    (0 : Nat) < usub (uadd (numBlocks 65538 4294901760) (numBlocks 65538 4294901760)) 1 ∧
    firstBlockRow (numBlocks 65538 4294901760) 0 = 1 ∧
    lastBlockRow (numBlocks 65538 4294901760) 0 = 4294967295 ∧
    65536 ∈ blockRows 65538 65538 4294901760 0 ∧
    131072 ∈ blockRows 65538 65538 4294901760 0 ∧
    blockCells 65538 65538 4294901760 0 65536 = cellsOf 1 65538 1 65538 ∧
    blockCells 65538 65538 4294901760 0 131072 = cellsOf 1 65538 1 65538 ∧
    (1, 1) ∈ blockCells 65538 65538 4294901760 0 65536 ∧
    (1, 1) ∈ blockCells 65538 65538 4294901760 0 131072 ∧
    ∀ fuel, gpsa_tasks (exactOps Int)
      ⟨List.replicate 65537 'A', List.replicate 65537 'A', 65538, 65538, 2, -1, -1⟩ fuel
      (fun _ _ => 0) 4294901760 1 1 = none := by
  have e0 : resolveBlockSize 4294901760 1 = 4294901760 := by decide
  have e1 : numBlocks 65538 4294901760 = 0 := by decide
  have e2 : firstBlockRow 0 0 = 1 := by decide
  have e3 : lastBlockRow 0 0 = 4294967295 := by decide
  have hrows : ∀ k, 1 ≤ k → k < 4294967296 → k ∈ blockRows 65538 65538 4294901760 0 := by
    intro k h1 h2
    unfold blockRows
    rw [e1, e2, e3, List.mem_range'_1]
    omega
  have b1 : blockCells 65538 65538 4294901760 0 65536 = cellsOf 1 65538 1 65538 := by
    unfold blockCells
    have r1 : uadd (umul 65536 4294901760) 1 = 1 := by decide
    have r2 : uadd (umul (usub 0 65536) 4294901760) 1 = 1 := by decide
    have r3 : uadd 1 4294901760 = 4294901761 := by decide
    simp only [r1, r2, r3]
    rw [if_neg (by omega), if_neg (by omega)]
  have b2 : blockCells 65538 65538 4294901760 0 131072 = cellsOf 1 65538 1 65538 := by
    unfold blockCells
    have r1 : uadd (umul 131072 4294901760) 1 = 1 := by decide
    have r2 : uadd (umul (usub 0 131072) 4294901760) 1 = 1 := by decide
    have r3 : uadd 1 4294901760 = 4294901761 := by decide
    simp only [r1, r2, r3]
    rw [if_neg (by omega), if_neg (by omega)]
  have hm : ((1, 1) : Nat × Nat) ∈ cellsOf 1 65538 1 65538 := by
    rw [mem_cellsOf]
    simp only
    omega
  have hw := fun fuel => wavefront_diverges (exactOps Int)
    ⟨List.replicate 65537 'A', List.replicate 65537 'A', 65538, 65538, 2, -1, -1⟩
    4294901760 fuel
    (initBoundary (exactOps Int)
      ⟨List.replicate 65537 'A', List.replicate 65537 'A', 65538, 65538, 2, -1, -1⟩
      (⟨fun _ _ => 0, []⟩, 0)) e1 (by rw [e1]; decide)
  refine ⟨e0, e1, by rw [e1]; decide, by rw [e1]; exact e2, by rw [e1]; exact e3,
    hrows _ (by omega) (by omega), hrows _ (by omega) (by omega), b1, b2, ?_, ?_, ?_⟩
  · rw [b1]; exact hm
  · rw [b2]; exact hm
  · intro fuel
    rw [gpsa_tasks_def, e0]
    exact hw fuel

/-- Claim C14, amended.  Blocks on the same diagonal are independent when the grid has at
least two rows (or one row and `2 ≤ cols ≤ block_size + 1`, where there is no diagonal) and
neither `rows + block_size` nor `cols + block_size` exceeds `2^32`.  Then any two distinct
blocks of a diagonal are such that the cells one stores to are neither stored to nor read by
the other, and their fills commute on the matrix and on the count; and running the blocks
of each diagonal in any permutation `order d` of the `block_row` order (diagonals
ascending) leaves the matrix and the visited count that `gpsa_taskloop` returns, which
`gpsa_tasks` returns too. -/
theorem blocks_of_a_diagonal_commute {α : Type} (F : FloatOps α) (si : SequenceInfo α)
    (fuel : Nat) (S : Nat → Nat → α) (grain_size block_size_x block_size_y : Int)
    (order : Nat → List Nat)
    (hrb : si.rows + resolveBlockSize grain_size block_size_x ≤ 4294967296)
    (hcb : si.cols + resolveBlockSize grain_size block_size_x ≤ 4294967296)
    (hshape : 2 ≤ si.rows ∨ (si.rows = 1 ∧ 2 ≤ si.cols ∧
      si.cols ≤ resolveBlockSize grain_size block_size_x + 1))
    (hfuel : si.rows ≤ fuel)
    (hperm : ∀ d, d < usub (uadd (numBlocks si.rows (resolveBlockSize grain_size block_size_x))
        (numBlocks si.cols (resolveBlockSize grain_size block_size_x))) 1 →
      (order d).Perm (blockRows si.rows si.cols (resolveBlockSize grain_size block_size_x) d)) :
    (∀ d br br2,
      d < usub (uadd (numBlocks si.rows (resolveBlockSize grain_size block_size_x))
        (numBlocks si.cols (resolveBlockSize grain_size block_size_x))) 1 →
      br ∈ blockRows si.rows si.cols (resolveBlockSize grain_size block_size_x) d →
      br2 ∈ blockRows si.rows si.cols (resolveBlockSize grain_size block_size_x) d →
      br ≠ br2 →
      (∀ c ∈ blockCells si.rows si.cols (resolveBlockSize grain_size block_size_x) d br,
        c ∉ blockCells si.rows si.cols (resolveBlockSize grain_size block_size_x) d br2 ∧
        ∀ x ∈ readsOf c,
          x ∉ blockCells si.rows si.cols (resolveBlockSize grain_size block_size_x) d br2) ∧
      ∀ s : Mem α × Nat,
        (blockBody F si (resolveBlockSize grain_size block_size_x) d br
          (blockBody F si (resolveBlockSize grain_size block_size_x) d br2 s)).1.S =
        (blockBody F si (resolveBlockSize grain_size block_size_x) d br2
          (blockBody F si (resolveBlockSize grain_size block_size_x) d br s)).1.S ∧
        (blockBody F si (resolveBlockSize grain_size block_size_x) d br
          (blockBody F si (resolveBlockSize grain_size block_size_x) d br2 s)).2 =
        (blockBody F si (resolveBlockSize grain_size block_size_x) d br2
          (blockBody F si (resolveBlockSize grain_size block_size_x) d br s)).2) ∧
    gpsa_tasks F si fuel S grain_size block_size_x block_size_y =
      some (gpsa_taskloop F si S grain_size block_size_x block_size_y) ∧
    (wavefrontInOrder F si (resolveBlockSize grain_size block_size_x) order
        (initBoundary F si (⟨S, []⟩, 0))).1.S =
      (gpsa_taskloop F si S grain_size block_size_x block_size_y).1.S ∧
    (wavefrontInOrder F si (resolveBlockSize grain_size block_size_x) order
        (initBoundary F si (⟨S, []⟩, 0))).2 =
      (gpsa_taskloop F si S grain_size block_size_x block_size_y).2 := by
  have hbs := resolveBlockSize_ge_two grain_size block_size_x
  have hret := wavefront_returns_taskloop F si (resolveBlockSize grain_size block_size_x) fuel
    (initBoundary F si (⟨S, []⟩, 0)) hbs hrb hcb hshape hfuel
  rw [gpsa_tasks_def, gpsa_taskloop_def]
  refine ⟨?_, hret, ?_⟩
  · intro d br br2 hd hbr hbr2 hne
    rcases hshape with hr2 | ⟨hr1, hc2, hc⟩
    · have d12 := blocks_disjoint hbs hrb hcb hr2 hd hbr hbr2 hne
      have d21 := blocks_disjoint hbs hrb hcb hr2 hd hbr2 hbr (Ne.symm hne)
      refine ⟨d12, fun s => ?_⟩
      simp only [blockBody_eq]
      exact ⟨runCells_comm F si _ _ d12 d21 s.1, by omega⟩
    · have h1 : numBlocks si.rows (resolveBlockSize grain_size block_size_x) = 0 :=
        numBlocks_small hbs (by omega) (by omega)
      have h2 : numBlocks si.cols (resolveBlockSize grain_size block_size_x) = 1 := by
        rw [numBlocks_eq hbs hc2 hcb, Nat.div_eq_of_lt (by omega)]
      rw [h1, h2] at hd
      have : usub (uadd 0 1) 1 = 0 := by decide
      omega
  · rcases hshape with hr2 | ⟨hr1, hc2, hc⟩
    · rw [wavefrontTaskloop_correct F si _ S hbs hrb hcb hr2,
        wavefrontInOrder_correct F si _ order S hbs hrb hcb hr2 hperm,
        waveCountInOrder_perm _ _ _ order hperm]
      refine ⟨?_, rfl⟩
      have hp : (waveCellsInOrder si.rows si.cols (resolveBlockSize grain_size block_size_x)
          order).Perm (waveCells si.rows si.cols (resolveBlockSize grain_size block_size_x)) :=
        waveCellsInOrder_perm si.rows si.cols _ order hperm _ (le_refl _)
      have key : ∀ a b, (setSpec F si (boundaryCells si.rows si.cols ++
          waveCellsInOrder si.rows si.cols (resolveBlockSize grain_size block_size_x) order)
            ⟨S, []⟩).S a b =
          (setSpec F si (boundaryCells si.rows si.cols ++
            waveCells si.rows si.cols (resolveBlockSize grain_size block_size_x))
              ⟨S, []⟩).S a b := by
        intro a b
        rw [setSpec_S, setSpec_S]
        simp only [List.mem_append, hp.mem_iff]
      exact funext fun a => funext fun b => key a b
    · have h1 : numBlocks si.rows (resolveBlockSize grain_size block_size_x) = 0 :=
        numBlocks_small hbs (by omega) (by omega)
      have h2 : numBlocks si.cols (resolveBlockSize grain_size block_size_x) = 1 := by
        rw [numBlocks_eq hbs hc2 hcb, Nat.div_eq_of_lt (by omega)]
      have hb0 : usub (uadd (numBlocks si.rows (resolveBlockSize grain_size block_size_x))
          (numBlocks si.cols (resolveBlockSize grain_size block_size_x))) 1 = 0 := by
        rw [h1, h2]; decide
      rw [wavefrontTaskloop_no_block_rows F si _ _ h1]
      unfold wavefrontInOrder
      rw [hb0]
      exact ⟨rfl, rfl⟩

/-- A 4 x 4 grid in blocks of side 2, the two blocks of the middle diagonal exchanged:
the matrix and the count are those of `gpsa_taskloop`, which `gpsa_tasks` returns too. -/
theorem blocks_of_a_diagonal_commute_witness :
    gpsa_tasks (exactOps Int) ⟨['A', 'C', 'G'], ['A', 'G', 'G'], 4, 4, 2, -1, -1⟩ 4
        (fun _ _ => 0) 2 1 1 =
      some (gpsa_taskloop (exactOps Int) ⟨['A', 'C', 'G'], ['A', 'G', 'G'], 4, 4, 2, -1, -1⟩
        (fun _ _ => 0) 2 1 1) ∧
      (wavefrontInOrder (exactOps Int) ⟨['A', 'C', 'G'], ['A', 'G', 'G'], 4, 4, 2, -1, -1⟩
        (resolveBlockSize 2 1) (fun d => (blockRows 4 4 (resolveBlockSize 2 1) d).reverse)
        (initBoundary (exactOps Int) ⟨['A', 'C', 'G'], ['A', 'G', 'G'], 4, 4, 2, -1, -1⟩
          (⟨fun _ _ => 0, []⟩, 0))).1.S =
        (gpsa_taskloop (exactOps Int) ⟨['A', 'C', 'G'], ['A', 'G', 'G'], 4, 4, 2, -1, -1⟩
          (fun _ _ => 0) 2 1 1).1.S ∧
      (wavefrontInOrder (exactOps Int) ⟨['A', 'C', 'G'], ['A', 'G', 'G'], 4, 4, 2, -1, -1⟩
        (resolveBlockSize 2 1) (fun d => (blockRows 4 4 (resolveBlockSize 2 1) d).reverse)
        (initBoundary (exactOps Int) ⟨['A', 'C', 'G'], ['A', 'G', 'G'], 4, 4, 2, -1, -1⟩
          (⟨fun _ _ => 0, []⟩, 0))).2 =
        (gpsa_taskloop (exactOps Int) ⟨['A', 'C', 'G'], ['A', 'G', 'G'], 4, 4, 2, -1, -1⟩
          (fun _ _ => 0) 2 1 1).2 :=
  (blocks_of_a_diagonal_commute (exactOps Int)
    ⟨['A', 'C', 'G'], ['A', 'G', 'G'], 4, 4, 2, -1, -1⟩ 4 (fun _ _ => 0) 2 1 1
    (fun d => (blockRows 4 4 (resolveBlockSize 2 1) d).reverse)
    (by decide) (by decide) (Or.inl (by decide)) (by decide)
    (fun _ _ => List.reverse_perm _)).2

/-! ## Initial contents of the matrix -/

/-- Claim C19, counterexample.  With `X = Y = "A"` (`rows = cols = 2`) and
`grain_size = 2^32 - 1`, `row_start + block_size` wraps to `0`, the only block is empty and
`gpsa_taskloop` and `gpsa_tasks` return with the interior cell `S[1][1]` never stored to
(`visited = 3`): it holds 7 when the matrix held 7 everywhere and 8 when it held 8, while
`gpsa_sequential` leaves 2 in both cases. -/
theorem gpsa_wavefront_keeps_initial_cell :
    (gpsa_tasks (exactOps Int) ⟨['A'], ['A'], 2, 2, 2, -1, -1⟩ 2 (fun _ _ => 7)
      4294967295 1 1).map (fun r => (r.1.S 1 1, r.1.writes, r.2)) =
        some (7, [(1, 0), (0, 0), (0, 1)], 3) ∧
    (gpsa_tasks (exactOps Int) ⟨['A'], ['A'], 2, 2, 2, -1, -1⟩ 2 (fun _ _ => 8)
      4294967295 1 1).map (fun r => (r.1.S 1 1, r.1.writes, r.2)) =
        some (8, [(1, 0), (0, 0), (0, 1)], 3) ∧
    (fun r : Mem Int × Nat => (r.1.S 1 1, r.1.writes, r.2))
      (gpsa_taskloop (exactOps Int) ⟨['A'], ['A'], 2, 2, 2, -1, -1⟩ (fun _ _ => 7)
        4294967295 1 1) = (7, [(1, 0), (0, 0), (0, 1)], 3) ∧
    (fun r : Mem Int × Nat => (r.1.S 1 1, r.1.writes, r.2))
      (gpsa_taskloop (exactOps Int) ⟨['A'], ['A'], 2, 2, 2, -1, -1⟩ (fun _ _ => 8)
        4294967295 1 1) = (8, [(1, 0), (0, 0), (0, 1)], 3) ∧
    (gpsa_sequential (exactOps Int) ⟨['A'], ['A'], 2, 2, 2, -1, -1⟩ (fun _ _ => 7)).1.S 1 1 = 2 ∧
    (gpsa_sequential (exactOps Int) ⟨['A'], ['A'], 2, 2, 2, -1, -1⟩ (fun _ _ => 8)).1.S 1 1 = 2 :=
  ⟨rfl, rfl, rfl, rfl, rfl, rfl⟩

/-- Claim C19, amended.  For `rows, cols ≥ 1` and any two initial contents of the matrix,
`gpsa_sequential` leaves the same cells in the grid and returns the same visited count.
So does `gpsa_taskloop`, for every tuning whose block size has `rows + block_size ≤ 2^32`
and `cols + block_size ≤ 2^32`; and so does `gpsa_tasks` under the same condition when
`rows ≥ 2`, or `rows = 1` and `2 ≤ cols ≤ block_size + 1`, where it returns. -/
theorem gpsa_initial_contents_irrelevant {α : Type} (F : FloatOps α) (si : SequenceInfo α)
    (S1 S2 : Nat → Nat → α) (hr1 : 1 ≤ si.rows) (hc1 : 1 ≤ si.cols)
    (hr : si.rows < 4294967296) (hc : si.cols < 4294967296) :
    (∀ i j, i < si.rows → j < si.cols →
      (gpsa_sequential F si S1).1.S i j = (gpsa_sequential F si S2).1.S i j) ∧
    (gpsa_sequential F si S1).2 = (gpsa_sequential F si S2).2 ∧
    ∀ (grain_size block_size_x block_size_y : Int),
      si.rows + resolveBlockSize grain_size block_size_x ≤ 4294967296 →
      si.cols + resolveBlockSize grain_size block_size_x ≤ 4294967296 →
      (∀ i j, i < si.rows → j < si.cols →
        (gpsa_taskloop F si S1 grain_size block_size_x block_size_y).1.S i j =
          (gpsa_taskloop F si S2 grain_size block_size_x block_size_y).1.S i j) ∧
      (gpsa_taskloop F si S1 grain_size block_size_x block_size_y).2 =
        (gpsa_taskloop F si S2 grain_size block_size_x block_size_y).2 ∧
      ∀ fuel : Nat,
        (2 ≤ si.rows ∨ (si.rows = 1 ∧ 2 ≤ si.cols ∧
          si.cols ≤ resolveBlockSize grain_size block_size_x + 1)) →
        si.rows ≤ fuel →
        ∃ r1 r2,
          gpsa_tasks F si fuel S1 grain_size block_size_x block_size_y = some r1 ∧
          gpsa_tasks F si fuel S2 grain_size block_size_x block_size_y = some r2 ∧
          (∀ i j, i < si.rows → j < si.cols → r1.1.S i j = r2.1.S i j) ∧ r1.2 = r2.2 := by
  have hseq : ∀ i j, i < si.rows → j < si.cols →
      (gpsa_sequential F si S1).1.S i j = (gpsa_sequential F si S2).1.S i j := by
    intro i j hi hj
    rw [gpsa_sequential_S F si S1 hr.le hc.le hr1 hc1, gpsa_sequential_S F si S2 hr.le hc.le hr1 hc1,
      if_pos ⟨hi, hj⟩, if_pos ⟨hi, hj⟩]
  have hvis : (gpsa_sequential F si S1).2 = (gpsa_sequential F si S2).2 := by
    rw [gpsa_sequential_eq F si S1 hr.le hc.le, gpsa_sequential_eq F si S2 hr.le hc.le]
  refine ⟨hseq, hvis, ?_⟩
  intro g bx bsy hrb hcb
  obtain ⟨a1, a2⟩ := gpsa_taskloop_grid F si S1 g bx bsy hr1 hrb hcb
  obtain ⟨b1, b2⟩ := gpsa_taskloop_grid F si S2 g bx bsy hr1 hrb hcb
  have hcell : ∀ i j, i < si.rows → j < si.cols →
      (gpsa_taskloop F si S1 g bx bsy).1.S i j = (gpsa_taskloop F si S2 g bx bsy).1.S i j :=
    fun i j hi hj => (a1 i j hi hj).trans (b1 i j hi hj).symm
  refine ⟨hcell, a2.trans b2.symm, ?_⟩
  intro fuel hshape hfuel
  have hbs := resolveBlockSize_ge_two g bx
  refine ⟨gpsa_taskloop F si S1 g bx bsy, gpsa_taskloop F si S2 g bx bsy, ?_, ?_, hcell,
    a2.trans b2.symm⟩
  · rw [gpsa_tasks_def, gpsa_taskloop_def]
    exact wavefront_returns_taskloop F si _ fuel _ hbs hrb hcb hshape hfuel
  · rw [gpsa_tasks_def, gpsa_taskloop_def]
    exact wavefront_returns_taskloop F si _ fuel _ hbs hrb hcb hshape hfuel

/-- Two initial contents of a 3 x 3 matrix: the fillers leave the same last cell. -/
theorem gpsa_initial_contents_irrelevant_witness :
    (gpsa_sequential (exactOps Int) ⟨['A', 'C'], ['A', 'C'], 3, 3, 2, -1, -1⟩
      (fun _ _ => 7)).1.S 2 2 =
    (gpsa_sequential (exactOps Int) ⟨['A', 'C'], ['A', 'C'], 3, 3, 2, -1, -1⟩
      (fun _ _ => 8)).1.S 2 2 ∧
    (gpsa_taskloop (exactOps Int) ⟨['A', 'C'], ['A', 'C'], 3, 3, 2, -1, -1⟩
      (fun _ _ => 7) 1 1 1).1.S 2 2 =
    (gpsa_taskloop (exactOps Int) ⟨['A', 'C'], ['A', 'C'], 3, 3, 2, -1, -1⟩
      (fun _ _ => 8) 1 1 1).1.S 2 2 ∧
    ∃ r1 r2,
      gpsa_tasks (exactOps Int) ⟨['A', 'C'], ['A', 'C'], 3, 3, 2, -1, -1⟩ 3
        (fun _ _ => 7) 1 1 1 = some r1 ∧
      gpsa_tasks (exactOps Int) ⟨['A', 'C'], ['A', 'C'], 3, 3, 2, -1, -1⟩ 3
        (fun _ _ => 8) 1 1 1 = some r2 ∧
      (∀ i j, i < 3 → j < 3 → r1.1.S i j = r2.1.S i j) ∧ r1.2 = r2.2 :=
  ⟨(gpsa_initial_contents_irrelevant (exactOps Int)
      ⟨['A', 'C'], ['A', 'C'], 3, 3, 2, -1, -1⟩ (fun _ _ => 7) (fun _ _ => 8)
      (by decide) (by decide) (by decide) (by decide)).1 2 2 (by decide) (by decide),
    ((gpsa_initial_contents_irrelevant (exactOps Int)
      ⟨['A', 'C'], ['A', 'C'], 3, 3, 2, -1, -1⟩ (fun _ _ => 7) (fun _ _ => 8)
      (by decide) (by decide) (by decide) (by decide)).2.2 1 1 1
      (by decide) (by decide)).1 2 2 (by decide) (by decide),
    ((gpsa_initial_contents_irrelevant (exactOps Int)
      ⟨['A', 'C'], ['A', 'C'], 3, 3, 2, -1, -1⟩ (fun _ _ => 7) (fun _ _ => 8)
      (by decide) (by decide) (by decide) (by decide)).2.2 1 1 1
      (by decide) (by decide)).2.2 3 (Or.inl (by decide)) (by decide)⟩

end GPSA
